import Mathlib

/-!
BAKSHEESH (nibble implementation): embedding and verification

Shallow embedding of `src/src/baksheesh_nibble/baksheesh.c`.

* A byte (`uint8_t`, `unsigned char`) is a `Nat` below 256; a buffer is a
  `List Nat`; a pointer into a buffer at offset `d` is `List.drop d`.  The
  XOR of two bytes is a byte, so no store truncates.
* A nullable pointer argument is an `Option`; `none` is `NULL`.
* An access outside an array or buffer is undefined behaviour in C.  Every
  function that reads or writes memory returns an `Option`, and `none` stands
  for such an out-of-range access.
* `size_t` is taken to be 64 bits wide.
* The header `baksheesh_hardcode.h` (macros `PBOX_HC`, `INV_PBOX_HC`,
  `ADD_CONSTANT_HC`, `RIGHT_SHIFT_KEY`) is not part of the sources.  Its
  tables are the parameters collected in `Hardcode`; the macros are modelled
  from sections 4.1 to 4.3 of the specification.
-/

namespace Baksheesh

/-! ## Tables and constants -/

/-- Number of rounds: `#define ROUND 35`. -/
def ROUND : Nat := 35

/-- The table `const unsigned char SBox[16]`. -/
def SBox : List Nat := [3, 0, 6, 13, 11, 5, 8, 14, 12, 15, 9, 2, 4, 10, 7, 1]

/-- The table `const unsigned char InvSBox[16]`. -/
def InvSBox : List Nat := [1, 15, 11, 0, 12, 5, 2, 14, 6, 10, 13, 4, 8, 3, 7, 9]

/-- The table `const unsigned char RC[ROUND]`. -/
def RC : List Nat :=
  [2, 33, 16, 9, 36, 19, 40, 53, 26, 13, 38, 51, 56, 61, 62, 31, 14, 7, 34, 49,
   24, 45, 54, 59, 28, 47, 22, 43, 20, 11, 4, 3, 32, 17, 8]

/-- The context `struct BAKSHEESH_CTX`: `uint8_t key[32]` and
`uint8_t shifted_keys[32 * ROUND]`. -/
structure BAKSHEESH_CTX where
  key : List Nat
  shifted_keys : List Nat
deriving DecidableEq, Repr

/-- Parameters standing for the contents of the absent header
`baksheesh_hardcode.h`: the bit-permutation table `P` (source bit index to
destination bit index), the destination bit positions `constPos k` of the six
bits `k = 0..5` of a round constant, the position `onePos` of the bit that is
always added, and the key update `RIGHT_SHIFT_KEY` on a 32-byte key. -/
structure Hardcode where
  P : Nat → Nat
  constPos : Nat → Nat
  onePos : Nat
  RIGHT_SHIFT_KEY : List Nat → List Nat

/-- What the specification says of the tables of `Hardcode`: `P` is a
bijection on the bit positions `0..127`, the positions of the round-constant
bits lie inside the block, and the key update returns a 32-byte key. -/
structure Hardcode.WF (hc : Hardcode) : Prop where
  P_lt : ∀ i, i < 128 → hc.P i < 128
  P_inj : ∀ i, i < 128 → ∀ j, j < 128 → hc.P i = hc.P j → i = j
  constPos_lt : ∀ k, k < 6 → hc.constPos k < 128
  onePos_lt : hc.onePos < 128
  shift_length : ∀ k : List Nat, k.length = 32 → (hc.RIGHT_SHIFT_KEY k).length = 32

/-- Modelled from the spec: the table of the inverse bit permutation that the
macro `INV_PBOX_HC` of the absent header `baksheesh_hardcode.h` applies.  It is
the inverse of `P` on `0..127`: the source index that `P` sends to `j`. -/
def Hardcode.invP (hc : Hardcode) (j : Nat) : Nat :=
  ((List.range 128).find? (fun i => hc.P i == j)).getD 0

/-! ## Loops over the 32 bytes of a block -/

/-- The loop `for (i = start; i < start + n; ++i) dst[i - start] = f(i)`: the
list of the `n` values, or `none` when computing one of them leaves an array. -/
def fillFrom (f : Nat → Option Nat) : Nat → Nat → Option (List Nat)
  | 0, _ => some []
  | n + 1, i =>
    match f i, fillFrom f n (i + 1) with
    | some v, some vs => some (v :: vs)
    | _, _ => none

/-- The loop `for (int i=0; i<32; ++i) ret[i] = f(i)` writing a 32-byte buffer. -/
def fill32 (f : Nat → Option Nat) : Option (List Nat) :=
  fillFrom f 32 0

/-- Modelled from the spec: the elementary statement of the macros of the
absent header `baksheesh_hardcode.h`, `B[j/4] = op(B[j/4], b << (j%4))`, which
combines bit `b` into bit position `j` of the nibble buffer `B` (nibble `j/4`,
bit `j%4`). -/
def updBit (op : Nat → Nat → Nat) (B : List Nat) (j b : Nat) : Option (List Nat) :=
  match B[j / 4]? with
  | none => none
  | some x => some (B.set (j / 4) (op x (b <<< (j % 4))))

/-- Modelled from the spec: one step of the macros `PBOX_HC` and `INV_PBOX_HC`
of the absent header `baksheesh_hardcode.h`, with table `T`: read bit `i` of
`src` (nibble `i/4`, bit `i%4`) and OR it into bit `T i` of `B`. -/
def permStep (T : Nat → Nat) (src B : List Nat) (i : Nat) : Option (List Nat) :=
  match src[i / 4]? with
  | none => none
  | some x => updBit (fun a b => a ||| b) B (T i) ((x >>> (i % 4)) &&& 1)

/-- Modelled from the spec: the body shared by the macros `PBOX_HC` and
`INV_PBOX_HC` of the absent header `baksheesh_hardcode.h`: the bit permutation
with table `T`, for the source bit indices `0..127`, accumulated into `buf`. -/
def permBits (T : Nat → Nat) (buf src : List Nat) : Option (List Nat) :=
  (List.range 128).foldlM (permStep T src) buf

/-- Modelled from the spec: the macro `PBOX_HC(buf, ret)` of the absent header
`baksheesh_hardcode.h`, step PermBits of section 4.3: for each source bit
index `i` in `0..127`, the value of bit `i` of `ret` is set at bit `P(i)` of
`buf`, which the caller has zeroed. -/
def PBOX_HC (hc : Hardcode) (buf ret : List Nat) : Option (List Nat) :=
  permBits hc.P buf ret

/-- Modelled from the spec: the macro `INV_PBOX_HC(buf, ret)` of the absent
header `baksheesh_hardcode.h`, step InvPermBits of section 4.3: the inverse
bit permutation, i.e. the bit permutation with the inverse table of `P`. -/
def INV_PBOX_HC (hc : Hardcode) (buf ret : List Nat) : Option (List Nat) :=
  permBits hc.invP buf ret

/-- Modelled from the spec: the macro `ADD_CONSTANT_HC(buf, rc)` of the absent
header `baksheesh_hardcode.h`, step AddRoundConstant of section 4.3: the six
bits of `rc` are XORed into six fixed bit positions of `buf` and a constant
bit 1 is XORed into its fixed position. -/
def ADD_CONSTANT_HC (hc : Hardcode) (buf : List Nat) (rc : Nat) : Option (List Nat) :=
  match (List.range 6).foldlM
      (fun B k => updBit (fun a b => a ^^^ b) B (hc.constPos k) ((rc >>> k) &&& 1)) buf with
  | none => none
  | some B => updBit (fun a b => a ^^^ b) B hc.onePos 1

/-! ## Key schedule and context -/

/-- The loop of `BAKSHEESH_CTX_new` filling `shifted_keys`: `n` slots are
still to be written and `p` points to the previous key.  Each slot receives
the 32 bytes at `p` (`memcpy`), is updated in place by `RIGHT_SHIFT_KEY`, and
becomes the next `p`.  The slots are written in increasing order. -/
def keyLoop (hc : Hardcode) : Nat → List Nat → List Nat
  | 0, _ => []
  | n + 1, p =>
    let slot := hc.RIGHT_SHIFT_KEY (p.take 32)
    slot ++ keyLoop hc n slot

/-- The constructor `BAKSHEESH_CTX_new(key)`, `key` pointing to 32 bytes.
`malloc_ok` tells whether `malloc` succeeded; `none` is the `NULL` result. -/
def BAKSHEESH_CTX_new (hc : Hardcode) (malloc_ok : Bool) (key : List Nat) :
    Option BAKSHEESH_CTX :=
  if malloc_ok then some { key := key.take 32, shifted_keys := keyLoop hc ROUND key }
  else none

/-! ## Single-block transforms -/

/-- The body of the round loop of `__baksheesh_encrypt` for round `r`, acting
on the buffer `ret`: Sbox, PermBits into the zeroed `buf`, AddRoundConstants,
AddRoundKey. -/
def encRound (hc : Hardcode) (ctx : BAKSHEESH_CTX) (ret : List Nat) (r : Nat) :
    Option (List Nat) := do
  let ret1 ← fill32 (fun i => do let x ← ret[i]?; SBox[x]?)
  let buf1 ← PBOX_HC hc (List.replicate 32 0) ret1
  let rc ← RC[r]?
  let buf2 ← ADD_CONSTANT_HC hc buf1 rc
  fill32 (fun i => do
    let b ← buf2[i]?
    let k ← ctx.shifted_keys[(r <<< 5) + i]?
    pure (b ^^^ (k &&& 0xF)))

/-- The function `__baksheesh_encrypt(ctx, state, ret)`: the final contents of
`ret`.  Whitening with `ctx->key`, then the rounds `r = 0, .., ROUND-1`. -/
def __baksheesh_encrypt (hc : Hardcode) (ctx : BAKSHEESH_CTX) (state : List Nat) :
    Option (List Nat) := do
  let ret ← fill32 (fun i => do
    let s ← state[i]?
    let k ← ctx.key[i]?
    pure (s ^^^ k))
  (List.range ROUND).foldlM (encRound hc ctx) ret

/-- The body of the round loop of `__baksheesh_decrypt` for round `r`:
AddRoundKey, AddRoundConstants, inverse PermBits into the zeroed `buf`,
inverse SBox. -/
def decRound (hc : Hardcode) (ctx : BAKSHEESH_CTX) (ret : List Nat) (r : Nat) :
    Option (List Nat) := do
  let ret1 ← fill32 (fun i => do
    let x ← ret[i]?
    let k ← ctx.shifted_keys[(r <<< 5) + i]?
    pure (x ^^^ (k &&& 0xF)))
  let rc ← RC[r]?
  let ret2 ← ADD_CONSTANT_HC hc ret1 rc
  let buf1 ← INV_PBOX_HC hc (List.replicate 32 0) ret2
  fill32 (fun i => do let x ← buf1[i]?; InvSBox[x]?)

/-- The function `__baksheesh_decrypt(ctx, state, ret)`: the final contents of
`ret`.  Copy of the 32 bytes of `state`, the rounds `r = ROUND-1, .., 0`, then
whitening with `ctx->key`. -/
def __baksheesh_decrypt (hc : Hardcode) (ctx : BAKSHEESH_CTX) (state : List Nat) :
    Option (List Nat) := do
  let ret0 ← fill32 (fun i => state[i]?)
  let ret1 ← (List.range ROUND).reverse.foldlM (decRound hc ctx) ret0
  fill32 (fun i => do
    let x ← ret1[i]?
    let k ← ctx.key[i]?
    pure (x ^^^ k))

/-! ## Block driver -/

/-- The macro `ALIGN_TO_32_BLOCK_SIZE(n)`, `(n & ~31)` on a 64-bit `size_t`:
`~31` is the `int` -32, converted to `size_t` it is `2^64 - 32`. -/
def ALIGN_TO_32_BLOCK_SIZE (n : Nat) : Nat :=
  n &&& (2 ^ 64 - 32)

/-- The call `memcpy(dst + off, src, 32)`: `none` when the 32 bytes do not fit
in `dst` or are not all in `src`. -/
def memcpy32 (dst : List Nat) (off : Nat) (src : List Nat) : Option (List Nat) :=
  if off + 32 ≤ dst.length ∧ 32 ≤ src.length then
    some (dst.take off ++ src.take 32 ++ dst.drop (off + 32))
  else none

/-- The block loop `for (size_t done = 0; blocks; done += 32, blocks--)` shared
by the two drivers, `block` being the single-block transform: the final
contents of the output buffer. -/
def blockLoop (block : List Nat → Option (List Nat)) (input : List Nat) :
    Nat → Nat → List Nat → Option (List Nat)
  | 0, _, output => some output
  | blocks + 1, done, output =>
    match block (input.drop done) with
    | none => none
    | some buf =>
      match memcpy32 output done buf with
      | none => none
      | some output1 => blockLoop block input blocks (done + 32) output1

/-- What a driver call leaves behind: the returned status, the contents of the
output buffer (`none` when `output` is `NULL`) and the value of `*output_len`. -/
structure Result where
  status : Int
  output : Option (List Nat)
  output_len : Nat
deriving DecidableEq, Repr

/-- The function `BAKSHEESH_CTX_encrypt(ctx, input, input_len, output,
output_len)`.  The arguments `output` and `output_len` carry the contents of
the output buffer and of `*output_len` before the call. -/
def BAKSHEESH_CTX_encrypt (hc : Hardcode) (ctx : Option BAKSHEESH_CTX)
    (input : Option (List Nat)) (input_len : Nat) (output : Option (List Nat))
    (output_len : Nat) : Option Result :=
  match ctx, input, output with
  | some c, some inp, some out =>
    let len := ALIGN_TO_32_BLOCK_SIZE input_len
    let blocks := len >>> 5
    match blockLoop (__baksheesh_encrypt hc c) inp blocks 0 out with
    | none => none
    | some out1 => some { status := 0, output := some out1, output_len := len }
  | _, _, _ => some { status := -1, output := output, output_len := output_len }

/-- The function `BAKSHEESH_CTX_decrypt(ctx, input, input_len, output,
output_len)`, with the same conventions as `BAKSHEESH_CTX_encrypt`. -/
def BAKSHEESH_CTX_decrypt (hc : Hardcode) (ctx : Option BAKSHEESH_CTX)
    (input : Option (List Nat)) (input_len : Nat) (output : Option (List Nat))
    (output_len : Nat) : Option Result :=
  match ctx, input, output with
  | some c, some inp, some out =>
    let len := ALIGN_TO_32_BLOCK_SIZE input_len
    let blocks := len >>> 5
    match blockLoop (__baksheesh_decrypt hc c) inp blocks 0 out with
    | none => none
    | some out1 => some { status := 0, output := some out1, output_len := len }
  | _, _, _ => some { status := -1, output := output, output_len := output_len }

/-! ## An instance of the parameters -/

/-- The GIFT-128 bit permutation, to which section 4.1 of the specification
says the table `P` is equivalent. -/
def giftP (i : Nat) : Nat :=
  4 * (i / 16) + 32 * ((3 * ((i % 16) / 4) + i % 4) % 4) + i % 4

/-- Rotation of a 128-bit key, one nibble per byte, by one bit to the right. -/
def rotateKey (k : List Nat) : List Nat :=
  (List.range 32).map
    (fun i => (k.getD i 0 >>> 1) ||| ((k.getD ((i + 1) % 32) 0 &&& 1) <<< 3))

/-- A sample instance of the parameters, used to instantiate the theorems. -/
def sampleHardcode : Hardcode where
  P := giftP
  constPos := fun k => [8, 13, 19, 35, 67, 106].getD k 0
  onePos := 127
  RIGHT_SHIFT_KEY := rotateKey

/-! ## Auxiliary definitions for the proofs -/

/-- The 32-byte buffer whose byte `i` is `g i`. -/
def tab (g : Nat → Nat) : List Nat :=
  (List.range 32).map g

/-- A block of 32 nibbles: 32 bytes, each with its high four bits zero. -/
def IsBlock (x : List Nat) : Prop :=
  x.length = 32 ∧ ∀ v, v ∈ x → v < 16

/-- The value combined into nibble `n` by the updates `updBit op _ (pos k) (bit k)`
for `k` in `l`. -/
def maskOf (op : Nat → Nat → Nat) (pos bit : Nat → Nat) : List Nat → Nat → Nat
  | [], _ => 0
  | k :: l, n => op (if pos k / 4 = n then bit k <<< (pos k % 4) else 0) (maskOf op pos bit l n)

/-- Bit `i` of the buffer `src` as the macros read it: nibble `i/4`, bit `i%4`. -/
def srcBit (src : List Nat) (i : Nat) : Nat :=
  (src.getD (i / 4) 0 >>> (i % 4)) &&& 1

/-- The block that the bit permutation with table `T` builds from `src` in a
zeroed buffer. -/
def permPure (T : Nat → Nat) (src : List Nat) : List Nat :=
  tab (fun n => maskOf (fun a b => a ||| b) T (srcBit src) (List.range 128) n)

/-- The mask that `ADD_CONSTANT_HC` XORs into nibble `n` for the constant `rc`. -/
def constMask (hc : Hardcode) (rc n : Nat) : Nat :=
  maskOf (fun a b => a ^^^ b) hc.constPos (fun k => (rc >>> k) &&& 1) (List.range 6) n
    ^^^ (if hc.onePos / 4 = n then 1 <<< (hc.onePos % 4) else 0)

/-- The buffer after `ADD_CONSTANT_HC(B, rc)` on a 32-byte buffer. -/
def addConstPure (hc : Hardcode) (rc : Nat) (B : List Nat) : List Nat :=
  tab (fun n => B.getD n 0 ^^^ constMask hc rc n)

/-- The buffer after the loop `ret[i] = T[ret[i]]` on a block, `T` a 16-entry table. -/
def subPure (T : List Nat) (x : List Nat) : List Nat :=
  tab (fun i => T.getD (x.getD i 0) 0)

/-- The buffer after the AddRoundKey loop of round `r` on a 32-byte buffer. -/
def arkPure (ctx : BAKSHEESH_CTX) (r : Nat) (x : List Nat) : List Nat :=
  tab (fun i => x.getD i 0 ^^^ (ctx.shifted_keys.getD ((r <<< 5) + i) 0 &&& 0xF))

/-- The buffer after the whitening loop on a 32-byte buffer. -/
def xorKeyPure (key x : List Nat) : List Nat :=
  tab (fun i => x.getD i 0 ^^^ key.getD i 0)

/-- Round `r` of encryption on a block. -/
def encRoundPure (hc : Hardcode) (ctx : BAKSHEESH_CTX) (x : List Nat) (r : Nat) : List Nat :=
  arkPure ctx r (addConstPure hc (RC.getD r 0) (permPure hc.P (subPure SBox x)))

/-- Round `r` of decryption on a block. -/
def decRoundPure (hc : Hardcode) (ctx : BAKSHEESH_CTX) (y : List Nat) (r : Nat) : List Nat :=
  subPure InvSBox (permPure hc.invP (addConstPure hc (RC.getD r 0) (arkPure ctx r y)))

/-- A context as the C type and the constructor's contract shape it: a 32-nibble
master key and a table of `32 * ROUND` bytes. -/
def CtxOK (ctx : BAKSHEESH_CTX) : Prop :=
  IsBlock ctx.key ∧ ctx.shifted_keys.length = 32 * ROUND

/-- The result of `__baksheesh_encrypt` on a state whose first 32 bytes are nibbles. -/
def encPure (hc : Hardcode) (ctx : BAKSHEESH_CTX) (state : List Nat) : List Nat :=
  (List.range ROUND).foldl (encRoundPure hc ctx) (xorKeyPure ctx.key state)

/-- The result of `__baksheesh_decrypt` on a state whose first 32 bytes are nibbles. -/
def decPure (hc : Hardcode) (ctx : BAKSHEESH_CTX) (state : List Nat) : List Nat :=
  xorKeyPure ctx.key
    ((List.range ROUND).reverse.foldl (decRoundPure hc ctx) (tab (fun i => state.getD i 0)))

/-- The first 32 bytes of a buffer are present and are nibbles. -/
def NibblePrefix (state : List Nat) : Prop :=
  32 ≤ state.length ∧ ∀ i, i < 32 → state.getD i 0 < 16

/-- Block `i` of a buffer: its bytes `32 i .. 32 i + 31`. -/
def blk (xs : List Nat) (i : Nat) : List Nat :=
  (xs.drop (32 * i)).take 32

/-- The concatenation of the transforms of the `n` blocks of `input` that start
at offset `done`, or `none` when one of them fails. -/
def ecbCat (block : List Nat → Option (List Nat)) (input : List Nat) :
    Nat → Nat → Option (List Nat)
  | 0, _ => some []
  | n + 1, done =>
    match block (input.drop done), ecbCat block input n (done + 32) with
    | some c, some cs => some (c ++ cs)
    | _, _ => none

/-- The byte position that position `p` takes its value from when blocks `i`
and `j` are exchanged. -/
def swapIdx (i j p : Nat) : Nat :=
  if p / 32 = i then 32 * j + p % 32
  else if p / 32 = j then 32 * i + p % 32
  else p

/-- The buffer `xs` with its 32-byte blocks `i` and `j` exchanged. -/
def swapBlocks (i j : Nat) (xs : List Nat) : List Nat :=
  (List.range xs.length).map (fun p => xs.getD (swapIdx i j p) 0)

/-- A call of a driver that respects the C contract: well-formed tables, a
context with a nibble key, a `size_t` length, an input buffer that holds the
aligned length as nibbles, and an output buffer that can take it. -/
def ValidCall (hc : Hardcode) (ctx : BAKSHEESH_CTX) (input : List Nat) (input_len : Nat)
    (output : List Nat) : Prop :=
  hc.WF ∧ CtxOK ctx ∧ input_len < 2 ^ 64 ∧ 32 * (input_len / 32) ≤ input.length
    ∧ (∀ v, v ∈ input.take (32 * (input_len / 32)) → v < 16)
    ∧ 32 * (input_len / 32) ≤ output.length

/-- A context with an all-zero key and an all-zero round-key table. -/
def zeroCtx : BAKSHEESH_CTX :=
  { key := List.replicate 32 0, shifted_keys := List.replicate (32 * ROUND) 0 }

/-! ## The reference definition of section 4.3 of the specification -/

/-- Section 4.3, step 1, Whitening: `C ← P ⊕ K`, nibble-wise. -/
def specWhitening (K P : List Nat) : List Nat :=
  List.zipWith (fun p k => p ^^^ k) P K

/-- Section 4.3, step 2a, SubNibbles: `C[i] ← S[C[i]]` for each `i`. -/
def specSubNibbles (C : List Nat) : List Nat :=
  C.map (fun c => SBox.getD c 0)

/-- Section 4.3, step 2b, PermBits, by its result: the block `B` in which bit
`P(i)` is bit `i` of `C`, i.e. bit `m` of nibble `n` of `B` is the bit of `C`
that `P` sends to position `4 n + m`. -/
def specPermBits (hc : Hardcode) (C : List Nat) : List Nat :=
  (List.range 32).map (fun n =>
    (srcBit C (hc.invP (4 * n)) <<< 0) ||| (srcBit C (hc.invP (4 * n + 1)) <<< 1)
      ||| (srcBit C (hc.invP (4 * n + 2)) <<< 2) ||| (srcBit C (hc.invP (4 * n + 3)) <<< 3))

/-- Section 4.3, step 2c, AddRoundConstant: the six bits of `rc` and the
constant bit are XORed into their fixed positions of `C`. -/
def specAddRoundConstant (hc : Hardcode) (rc : Nat) (C : List Nat) : List Nat :=
  List.zipWith (fun c n => c ^^^ constMask hc rc n) C (List.range 32)

/-- Section 4.3, step 2d, AddRoundKey: `C[i] ← C[i] ⊕ (RoundKeyTable[r][i] & 0xF)`. -/
def specAddRoundKey (ctx : BAKSHEESH_CTX) (r : Nat) (C : List Nat) : List Nat :=
  List.zipWith (fun c k => c ^^^ (k &&& 0xF)) C (blk ctx.shifted_keys r)

/-- Section 4.3, step 2: round `r` of encryption. -/
def specRound (hc : Hardcode) (ctx : BAKSHEESH_CTX) (r : Nat) (C : List Nat) : List Nat :=
  specAddRoundKey ctx r
    (specAddRoundConstant hc (RC.getD r 0) (specPermBits hc (specSubNibbles C)))

/-- The states of section 4.3: `C_0 = P ⊕ K` and `C_{r+1}` is round `r` applied to `C_r`. -/
def specCipherState (hc : Hardcode) (ctx : BAKSHEESH_CTX) (P : List Nat) : Nat → List Nat
  | 0 => specWhitening ctx.key P
  | r + 1 => specRound hc ctx r (specCipherState hc ctx P r)

/-- The composition `R` of the 35 rounds of section 4.3, in the order `r = 0, .., 34`. -/
def specRounds (hc : Hardcode) (ctx : BAKSHEESH_CTX) (X : List Nat) : List Nat :=
  (List.range ROUND).foldl (fun C r => specRound hc ctx r C) X

/-- The context that `BAKSHEESH_CTX_new` builds, with the sample tables, from
the key whose first nibble is 1 and whose other nibbles are 0. -/
def oneKeyCtx : BAKSHEESH_CTX :=
  { key := (1 :: List.replicate 31 0).take 32,
    shifted_keys := keyLoop sampleHardcode ROUND (1 :: List.replicate 31 0) }

/-! ## The transforms as state transformers

The same functions once more, with the objects they can reach passed in and
handed back, each assignment of the source updating the object it writes.  The
objects are taken to be pairwise distinct (no overlap between the context, the
input, the output and the local buffers). -/

/-- The objects in scope of a single-block transform: the context `*ctx`, the
bytes at `state`, the 32 bytes at `ret`, and the local `uint8_t buf[32]`. -/
structure BlockFrame where
  ctx : BAKSHEESH_CTX
  state : List Nat
  ret : List Nat
  buf : List Nat

/-- The body of the round loop of `__baksheesh_encrypt` for round `r`, statement
by statement, on the objects in scope. -/
def encRoundFrame (hc : Hardcode) (f : BlockFrame) (r : Nat) : Option BlockFrame := do
  let ret1 ← fill32 (fun i => do let x ← f.ret[i]?; SBox[x]?)
  let f1 : BlockFrame := { f with ret := ret1 }
  let f2 : BlockFrame := { f1 with buf := List.replicate 32 0 }
  let buf1 ← PBOX_HC hc f2.buf f2.ret
  let f3 : BlockFrame := { f2 with buf := buf1 }
  let rc ← RC[r]?
  let buf2 ← ADD_CONSTANT_HC hc f3.buf rc
  let f4 : BlockFrame := { f3 with buf := buf2 }
  let ret2 ← fill32 (fun i => do
    let b ← f4.buf[i]?
    let k ← f4.ctx.shifted_keys[(r <<< 5) + i]?
    pure (b ^^^ (k &&& 0xF)))
  pure { f4 with ret := ret2 }

/-- The function `__baksheesh_encrypt(ctx, state, ret)` on the objects in scope. -/
def encryptFrame (hc : Hardcode) (f : BlockFrame) : Option BlockFrame := do
  let ret0 ← fill32 (fun i => do
    let s ← f.state[i]?
    let k ← f.ctx.key[i]?
    pure (s ^^^ k))
  (List.range ROUND).foldlM (encRoundFrame hc) { f with ret := ret0 }

/-- The body of the round loop of `__baksheesh_decrypt` for round `r`, statement
by statement, on the objects in scope. -/
def decRoundFrame (hc : Hardcode) (f : BlockFrame) (r : Nat) : Option BlockFrame := do
  let ret1 ← fill32 (fun i => do
    let x ← f.ret[i]?
    let k ← f.ctx.shifted_keys[(r <<< 5) + i]?
    pure (x ^^^ (k &&& 0xF)))
  let f1 : BlockFrame := { f with ret := ret1 }
  let rc ← RC[r]?
  let ret2 ← ADD_CONSTANT_HC hc f1.ret rc
  let f2 : BlockFrame := { f1 with ret := ret2 }
  let f3 : BlockFrame := { f2 with buf := List.replicate 32 0 }
  let buf1 ← INV_PBOX_HC hc f3.buf f3.ret
  let f4 : BlockFrame := { f3 with buf := buf1 }
  let ret3 ← fill32 (fun i => do let x ← f4.buf[i]?; InvSBox[x]?)
  pure { f4 with ret := ret3 }

/-- The function `__baksheesh_decrypt(ctx, state, ret)` on the objects in scope. -/
def decryptFrame (hc : Hardcode) (f : BlockFrame) : Option BlockFrame := do
  let ret0 ← fill32 (fun i => f.state[i]?)
  let f1 ← (List.range ROUND).reverse.foldlM (decRoundFrame hc) { f with ret := ret0 }
  let ret1 ← fill32 (fun i => do
    let x ← f1.ret[i]?
    let k ← f1.ctx.key[i]?
    pure (x ^^^ k))
  pure { f1 with ret := ret1 }

/-- The objects in scope of a driver past its `NULL` check: the context, the
input buffer, the output buffer, `*output_len`, and the local `uint8_t buf[32]`. -/
structure DriverFrame where
  ctx : BAKSHEESH_CTX
  input : List Nat
  output : List Nat
  output_len : Nat
  buf : List Nat

/-- The block loop of the drivers on the objects in scope.  The single-block
transform is called on `ctx`, `input + done` and `buf`; what it leaves in the
context and in the input is written back. -/
def blockLoopFrame (block : BlockFrame → Option BlockFrame) :
    Nat → Nat → DriverFrame → Option DriverFrame
  | 0, _, d => some d
  | blocks + 1, done, d =>
    match block { ctx := d.ctx, state := d.input.drop done, ret := d.buf,
                  buf := List.replicate 32 0 } with
    | none => none
    | some f =>
      let d1 : DriverFrame :=
        { d with ctx := f.ctx, input := d.input.take done ++ f.state, buf := f.ret }
      match memcpy32 d1.output done d1.buf with
      | none => none
      | some out1 => blockLoopFrame block blocks (done + 32) { d1 with output := out1 }

/-- The objects behind the four pointer arguments of a driver. -/
structure Memory where
  ctx : Option BAKSHEESH_CTX
  input : Option (List Nat)
  output : Option (List Nat)
  output_len : Nat

/-- A driver on the objects behind its arguments, `block` being the
single-block transform: the returned status and the objects after the call. -/
def driverCall (block : BlockFrame → Option BlockFrame) (m : Memory) (input_len : Nat) :
    Option (Int × Memory) :=
  match m.ctx, m.input, m.output with
  | some c, some inp, some out =>
    let len := ALIGN_TO_32_BLOCK_SIZE input_len
    let d0 : DriverFrame :=
      { ctx := c, input := inp, output := out, output_len := len,
        buf := List.replicate 32 0 }
    match blockLoopFrame block (len >>> 5) 0 d0 with
    | none => none
    | some d =>
      some (0, { ctx := some d.ctx, input := some d.input, output := some d.output,
                 output_len := d.output_len })
  | _, _, _ => some (-1, m)

/-- The function `BAKSHEESH_CTX_encrypt` on the objects behind its arguments. -/
def encryptCall (hc : Hardcode) (m : Memory) (input_len : Nat) : Option (Int × Memory) :=
  driverCall (encryptFrame hc) m input_len

/-- The function `BAKSHEESH_CTX_decrypt` on the objects behind its arguments. -/
def decryptCall (hc : Hardcode) (m : Memory) (input_len : Nat) : Option (Int × Memory) :=
  driverCall (decryptFrame hc) m input_len

/-! ## The steps of a round, one by one -/

/-- The steps of a round of `__baksheesh_encrypt` that come before AddRoundKey
(Sbox, PermBits into the zeroed `buf`, AddRoundConstants): the contents of
`buf` that AddRoundKey reads. -/
def encRoundHead (hc : Hardcode) (ret : List Nat) (r : Nat) : Option (List Nat) := do
  let ret1 ← fill32 (fun i => do let x ← ret[i]?; SBox[x]?)
  let buf1 ← PBOX_HC hc (List.replicate 32 0) ret1
  let rc ← RC[r]?
  ADD_CONSTANT_HC hc buf1 rc

/-- The AddRoundKey loop of `__baksheesh_encrypt` in round `r`,
`ret[i] = buf[i] ^ (ctx->shifted_keys[(r << 5) + i] & 0xF)` for `i = 0..31`:
the contents of `ret` after the loop. -/
def encAddRoundKey (ctx : BAKSHEESH_CTX) (r : Nat) (buf : List Nat) : Option (List Nat) :=
  fill32 (fun i => do
    let b ← buf[i]?
    let k ← ctx.shifted_keys[(r <<< 5) + i]?
    pure (b ^^^ (k &&& 0xF)))

/-- The AddRoundKey loop of `__baksheesh_decrypt` in round `r`,
`ret[i] ^= ctx->shifted_keys[(r << 5) + i] & 0xF` for `i = 0..31`: the
contents of `ret` after the loop. -/
def decAddRoundKey (ctx : BAKSHEESH_CTX) (r : Nat) (ret : List Nat) : Option (List Nat) :=
  fill32 (fun i => do
    let x ← ret[i]?
    let k ← ctx.shifted_keys[(r <<< 5) + i]?
    pure (x ^^^ (k &&& 0xF)))

/-- The steps of a round of `__baksheesh_decrypt` that come after AddRoundKey
(AddRoundConstants on `ret`, inverse PermBits into the zeroed `buf`, inverse
SBox), started on the contents `ret1` that AddRoundKey left in `ret`. -/
def decRoundTail (hc : Hardcode) (ret1 : List Nat) (r : Nat) : Option (List Nat) := do
  let rc ← RC[r]?
  let ret2 ← ADD_CONSTANT_HC hc ret1 rc
  let buf1 ← INV_PBOX_HC hc (List.replicate 32 0) ret2
  fill32 (fun i => do let x ← buf1[i]?; InvSBox[x]?)

/-! ## Loops over a block -/

theorem fillFrom_map (f : Nat → Option Nat) (g : Nat → Nat) :
    ∀ n i, (∀ k, k < n → f (i + k) = some (g (i + k))) →
      fillFrom f n i = some ((List.range' i n).map g) := by
  intro n
  induction n with
  | zero => intro i _; rfl
  | succ n ih =>
    intro i h
    have h0 : f i = some (g i) := by simpa using h 0 (Nat.succ_pos n)
    have h1 : fillFrom f n (i + 1) = some ((List.range' (i + 1) n).map g) := by
      apply ih
      intro k hk
      have := h (k + 1) (Nat.succ_lt_succ hk)
      simpa [Nat.add_assoc, Nat.add_comm 1 k] using this
    simp [fillFrom, h0, h1, List.range'_succ]

theorem fill32_tab (f : Nat → Option Nat) (g : Nat → Nat)
    (h : ∀ k, k < 32 → f k = some (g k)) : fill32 f = some (tab g) := by
  unfold fill32 tab
  rw [List.range_eq_range']
  apply fillFrom_map
  intro k hk
  simpa using h k hk

theorem fillFrom_congr (f f' : Nat → Option Nat) :
    ∀ n i, (∀ k, k < n → f (i + k) = f' (i + k)) → fillFrom f n i = fillFrom f' n i := by
  intro n
  induction n with
  | zero => intro i _; rfl
  | succ n ih =>
    intro i h
    have h0 : f i = f' i := by simpa using h 0 (Nat.succ_pos n)
    have h1 : fillFrom f n (i + 1) = fillFrom f' n (i + 1) := by
      apply ih
      intro k hk
      have := h (k + 1) (Nat.succ_lt_succ hk)
      simpa [Nat.add_assoc, Nat.add_comm 1 k] using this
    simp [fillFrom, h0, h1]

theorem fill32_congr (f f' : Nat → Option Nat) (h : ∀ k, k < 32 → f k = f' k) :
    fill32 f = fill32 f' := by
  unfold fill32
  apply fillFrom_congr
  intro k hk
  simpa using h k hk

theorem fillFrom_length (f : Nat → Option Nat) :
    ∀ n i l, fillFrom f n i = some l → l.length = n := by
  intro n
  induction n with
  | zero => intro i l h; simp [fillFrom] at h; simp [← h]
  | succ n ih =>
    intro i l h
    unfold fillFrom at h
    split at h
    · rename_i v vs hv hvs
      simp at h
      subst h
      simp [ih _ _ hvs]
    · simp at h

theorem fill32_length (f : Nat → Option Nat) (l : List Nat) (h : fill32 f = some l) :
    l.length = 32 :=
  fillFrom_length f 32 0 l h

theorem tab_length (g : Nat → Nat) : (tab g).length = 32 := by
  simp [tab]

theorem tab_getElem? (g : Nat → Nat) (i : Nat) (h : i < 32) : (tab g)[i]? = some (g i) := by
  simp [tab, List.getElem?_map, List.getElem?_range h]

theorem tab_getD (g : Nat → Nat) (i : Nat) (h : i < 32) : (tab g).getD i 0 = g i := by
  simp [List.getD_eq_getElem?_getD, tab_getElem? g i h]

theorem tab_congr (g g' : Nat → Nat) (h : ∀ i, i < 32 → g i = g' i) : tab g = tab g' := by
  unfold tab
  apply List.map_congr_left
  intro i hi
  exact h i (List.mem_range.mp hi)

theorem tab_getD_self (x : List Nat) (h : x.length = 32) : tab (fun i => x.getD i 0) = x := by
  apply List.ext_getElem?
  intro i
  by_cases hi : i < 32
  · rw [tab_getElem? _ i hi]
    have : i < x.length := by omega
    simp [List.getD_eq_getElem?_getD, List.getElem?_eq_getElem this]
  · have h1 : (tab (fun i => x.getD i 0)).length ≤ i := by rw [tab_length]; omega
    have h2 : x.length ≤ i := by omega
    rw [List.getElem?_eq_none h1, List.getElem?_eq_none h2]

theorem tab_mem (g : Nat → Nat) (v : Nat) (h : v ∈ tab g) : ∃ i, i < 32 ∧ v = g i := by
  unfold tab at h
  rcases List.mem_map.mp h with ⟨i, hi, rfl⟩
  exact ⟨i, List.mem_range.mp hi, rfl⟩

theorem tab_isBlock (g : Nat → Nat) (h : ∀ i, i < 32 → g i < 16) : IsBlock (tab g) := by
  refine ⟨tab_length g, ?_⟩
  intro v hv
  rcases tab_mem g v hv with ⟨i, hi, rfl⟩
  exact h i hi

theorem IsBlock.getD_lt {x : List Nat} (hx : IsBlock x) (i : Nat) : x.getD i 0 < 16 := by
  by_cases hi : i < x.length
  · rw [List.getD_eq_getElem _ _ hi]
    exact hx.2 _ (List.getElem_mem hi)
  · rw [List.getD_eq_default _ _ (by omega)]
    decide

theorem getElem?_eq_getD {x : List Nat} {i : Nat} (h : i < x.length) :
    x[i]? = some (x.getD i 0) := by
  simp [List.getD_eq_getElem?_getD, List.getElem?_eq_getElem h]

/-! ## Bit updates -/

theorem updBit_eq (op : Nat → Nat → Nat) (B : List Nat) (j b : Nat) (hB : B.length = 32)
    (hj : j < 128) :
    updBit op B j b
      = some (tab (fun n => if j / 4 = n then op (B.getD n 0) (b <<< (j % 4)) else B.getD n 0)) := by
  have hj4 : j / 4 < B.length := by omega
  unfold updBit
  rw [List.getElem?_eq_getElem hj4]
  simp only [Option.some.injEq]
  apply List.ext_getElem?
  intro i
  by_cases hi : i < 32
  · rw [tab_getElem? _ i hi, List.getElem?_set]
    by_cases hji : j / 4 = i
    · subst hji
      simp [hj4, List.getD_eq_getElem?_getD]
    · have : i < B.length := by omega
      simp [hji, List.getD_eq_getElem?_getD, List.getElem?_eq_getElem this]
  · have h1 : (B.set (j / 4) (op B[j / 4] (b <<< (j % 4)))).length ≤ i := by
      rw [List.length_set]; omega
    have h2 : (tab (fun n => if j / 4 = n then op (B.getD n 0) (b <<< (j % 4))
        else B.getD n 0)).length ≤ i := by rw [tab_length]; omega
    rw [List.getElem?_eq_none h1, List.getElem?_eq_none h2]

theorem updBit_fold (op : Nat → Nat → Nat) (hassoc : ∀ a b c, op (op a b) c = op a (op b c))
    (hzero : ∀ a, op a 0 = a) (hzero_left : ∀ a, op 0 a = a) (pos bit : Nat → Nat) :
    ∀ (l : List Nat) (B : List Nat), B.length = 32 → (∀ k, k ∈ l → pos k < 128) →
      l.foldlM (fun B k => updBit op B (pos k) (bit k)) B
        = some (tab (fun n => op (B.getD n 0) (maskOf op pos bit l n))) := by
  intro l
  induction l with
  | nil =>
    intro B hB _
    simp only [List.foldlM_nil, maskOf, hzero]
    rw [tab_getD_self B hB]
    rfl
  | cons k l ih =>
    intro B hB hl
    have hk : pos k < 128 := hl k (List.mem_cons_self k l)
    rw [List.foldlM_cons, updBit_eq op B (pos k) (bit k) hB hk]
    simp only [Option.some_bind, Option.bind_eq_bind]
    rw [ih _ (tab_length _) (fun k' hk' => hl k' (List.mem_cons_of_mem k hk'))]
    simp only [Option.some.injEq]
    apply tab_congr
    intro i hi
    rw [tab_getD _ i hi]
    simp only [maskOf]
    by_cases h : pos k / 4 = i
    · simp only [h, if_true, hassoc]
    · simp only [h, if_false, hzero_left]

theorem foldlM_congr_mem {α β : Type} (f g : β → α → Option β) :
    ∀ (l : List α) (b : β), (∀ a, a ∈ l → ∀ b, f b a = g b a) →
      l.foldlM f b = l.foldlM g b := by
  intro l
  induction l with
  | nil => intro b _; rfl
  | cons a l ih =>
    intro b h
    rw [List.foldlM_cons, List.foldlM_cons, h a (List.mem_cons_self a l) b]
    cases g b a with
    | none => rfl
    | some b1 =>
      simp only [Option.some_bind, Option.bind_eq_bind]
      exact ih b1 (fun a' ha' => h a' (List.mem_cons_of_mem a ha'))

theorem replicate_getD_zero (n i : Nat) : (List.replicate n 0).getD i 0 = 0 := by
  simp only [List.getD_eq_getElem?_getD, List.getElem?_replicate]
  split <;> rfl

theorem permBits_eq (T : Nat → Nat) (hT : ∀ i, i < 128 → T i < 128) (src : List Nat)
    (hs : 32 ≤ src.length) :
    permBits T (List.replicate 32 0) src = some (permPure T src) := by
  unfold permBits
  rw [foldlM_congr_mem (permStep T src)
    (fun B i => updBit (fun a b => a ||| b) B (T i) (srcBit src i))]
  · rw [updBit_fold (fun a b => a ||| b) (fun a b c => Nat.lor_assoc a b c)
      (fun a => Nat.or_zero a) (fun a => Nat.zero_or a) T (srcBit src) _ _
      (List.length_replicate 32 0)
      (fun k hk => hT k (List.mem_range.mp hk))]
    simp only [Option.some.injEq]
    unfold permPure
    apply tab_congr
    intro i _
    rw [replicate_getD_zero]
    exact Nat.zero_or _
  · intro i hi B
    have hi4 : i / 4 < src.length := by
      have := List.mem_range.mp hi
      omega
    unfold permStep srcBit
    rw [getElem?_eq_getD hi4]

/-! ## Bits of a permuted block -/

theorem srcBit_le_one (src : List Nat) (i : Nat) : srcBit src i ≤ 1 := by
  unfold srcBit
  rw [Nat.and_one_is_mod]
  omega

theorem srcBit_eq_one_iff (src : List Nat) (i : Nat) :
    srcBit src i = 1 ↔ (src.getD (i / 4) 0).testBit (i % 4) = true := by
  unfold srcBit
  rw [Nat.and_one_is_mod, Nat.testBit_to_div_mod, Nat.shiftRight_eq_div_pow]
  simp

theorem testBit_bit_shiftLeft (b s m : Nat) (hb : b ≤ 1) :
    (b <<< s).testBit m = (decide (b = 1) && decide (s = m)) := by
  have hcases : b = 0 ∨ b = 1 := by omega
  rcases hcases with h | h
  · subst h
    simp
  · subst h
    rw [Nat.one_shiftLeft, Nat.testBit_two_pow]
    simp

theorem testBit_maskOf_or (pos bit : Nat → Nat) (hbit : ∀ k, bit k ≤ 1) (n m : Nat) :
    ∀ l : List Nat, (maskOf (fun a b => a ||| b) pos bit l n).testBit m
      = l.any (fun k => decide (pos k / 4 = n) && (decide (bit k = 1) && decide (pos k % 4 = m))) := by
  intro l
  induction l with
  | nil => simp [maskOf]
  | cons k l ih =>
    simp only [maskOf, Nat.testBit_or, List.any_cons, ih]
    congr 1
    by_cases h : pos k / 4 = n
    · simp only [h, if_true, decide_True, Bool.true_and]
      exact testBit_bit_shiftLeft _ _ _ (hbit k)
    · simp [h]

theorem div_mod_four_iff (a n m : Nat) (hm : m < 4) :
    (a / 4 = n ∧ a % 4 = m) ↔ a = 4 * n + m := by
  omega

theorem permPure_testBit (T : Nat → Nat) (src : List Nat) (n m : Nat) (hn : n < 32) :
    ((permPure T src).getD n 0).testBit m = true
      ↔ ∃ i, i < 128 ∧ T i / 4 = n ∧ T i % 4 = m ∧ srcBit src i = 1 := by
  unfold permPure
  rw [tab_getD _ n hn, testBit_maskOf_or T (srcBit src) (srcBit_le_one src), List.any_eq_true]
  constructor
  · rintro ⟨i, hi, h⟩
    simp only [Bool.and_eq_true, decide_eq_true_eq] at h
    exact ⟨i, List.mem_range.mp hi, h.1, h.2.2, h.2.1⟩
  · rintro ⟨i, hi, h1, h2, h3⟩
    refine ⟨i, List.mem_range.mpr hi, ?_⟩
    simp only [Bool.and_eq_true, decide_eq_true_eq]
    exact ⟨h1, h3, h2⟩

theorem permPure_isBlock (T : Nat → Nat) (src : List Nat) : IsBlock (permPure T src) := by
  have h : ∀ n, n < 32 → (permPure T src).getD n 0 < 16 := by
    intro n hn
    apply Nat.lt_pow_two_of_testBit _ (n := 4)
    intro m hm
    cases hb : ((permPure T src).getD n 0).testBit m with
    | false => rfl
    | true =>
      rcases (permPure_testBit T src n m hn).mp hb with ⟨i, _, _, h2, _⟩
      omega
  have hlen : (permPure T src).length = 32 := by unfold permPure; exact tab_length _
  refine ⟨hlen, ?_⟩
  intro v hv
  rcases List.getElem_of_mem hv with ⟨n, hn, rfl⟩
  have := h n (by omega)
  rwa [List.getD_eq_getElem _ _ hn] at this

theorem nibble_testBit_high (x m : Nat) (hx : x < 16) (hm : 4 ≤ m) : x.testBit m = false := by
  apply Nat.testBit_lt_two_pow
  calc x < 2 ^ 4 := hx
    _ ≤ 2 ^ m := Nat.pow_le_pow_right (by decide) hm

/-- Two tables on `0..127` that undo each other give bit permutations that
undo each other on blocks. -/
theorem permPure_inverse (T U : Nat → Nat) (hT : ∀ i, i < 128 → T i < 128)
    (hUT : ∀ i, i < 128 → U (T i) = i) (hTU : ∀ j, j < 128 → U j < 128 ∧ T (U j) = j)
    (x : List Nat) (hx : IsBlock x) :
    permPure U (permPure T x) = x := by
  have key : ∀ n, n < 32 → (permPure U (permPure T x)).getD n 0 = x.getD n 0 := by
    intro n hn
    apply Nat.eq_of_testBit_eq
    intro m
    by_cases hm : m < 4
    · have ht : 4 * n + m < 128 := by omega
      rw [Bool.eq_iff_iff, permPure_testBit U _ n m hn]
      constructor
      · rintro ⟨j, hj, h1, h2, h3⟩
        have hUj : U j = 4 * n + m := (div_mod_four_iff _ _ _ hm).mp ⟨h1, h2⟩
        have hjT : j = T (4 * n + m) := by rw [← hUj, (hTU j hj).2]
        rw [srcBit_eq_one_iff, permPure_testBit T x _ _ (by omega)] at h3
        rcases h3 with ⟨i, hi, e1, e2, e3⟩
        have hTi : T i = j := by omega
        have hi' : i = 4 * n + m := by
          have := hUT i hi
          rw [hTi, hUj] at this
          exact this.symm
        subst hi'
        rw [srcBit_eq_one_iff] at e3
        have e4 : (4 * n + m) / 4 = n := by omega
        have e5 : (4 * n + m) % 4 = m := by omega
        rwa [e4, e5] at e3
      · intro hb
        have hTt := hT _ ht
        refine ⟨T (4 * n + m), hTt, ?_, ?_, ?_⟩
        · rw [hUT _ ht]; omega
        · rw [hUT _ ht]; omega
        · rw [srcBit_eq_one_iff, permPure_testBit T x _ _ (by omega)]
          refine ⟨4 * n + m, ht, rfl, rfl, ?_⟩
          rw [srcBit_eq_one_iff]
          have e4 : (4 * n + m) / 4 = n := by omega
          have e5 : (4 * n + m) % 4 = m := by omega
          rwa [e4, e5]
    · rw [nibble_testBit_high _ m ((permPure_isBlock U _).getD_lt n) (by omega),
        nibble_testBit_high _ m (hx.getD_lt n) (by omega)]
  rw [← tab_getD_self (permPure U (permPure T x)) (permPure_isBlock U _).1,
    ← tab_getD_self x hx.1]
  apply tab_congr
  intro i hi
  rw [tab_getD_self x hx.1]
  exact key i hi

/-! ## The inverse table -/

theorem find_range_spec (p : Nat → Bool) (n : Nat) (h : ∃ i, i < n ∧ p i = true) :
    ∃ i, (List.range n).find? p = some i ∧ i < n ∧ p i = true := by
  cases hf : (List.range n).find? p with
  | none =>
    rcases h with ⟨i, hi, hp⟩
    have := List.find?_eq_none.mp hf i (List.mem_range.mpr hi)
    exact absurd hp this
  | some i =>
    exact ⟨i, rfl, List.mem_range.mp (List.mem_of_find?_eq_some hf), List.find?_some hf⟩

theorem P_surj (hc : Hardcode) (hwf : hc.WF) (j : Nat) (hj : j < 128) :
    ∃ i, i < 128 ∧ hc.P i = j := by
  let f : Fin 128 → Fin 128 := fun i => ⟨hc.P i.1, hwf.P_lt i.1 i.2⟩
  have hinj : Function.Injective f := by
    intro a b hab
    have h : hc.P a.1 = hc.P b.1 := congrArg Fin.val hab
    exact Fin.ext (hwf.P_inj a.1 a.2 b.1 b.2 h)
  have hsurj : Function.Surjective f := Finite.injective_iff_surjective.mp hinj
  rcases hsurj ⟨j, hj⟩ with ⟨i, hi⟩
  exact ⟨i.1, i.2, congrArg Fin.val hi⟩

theorem invP_spec (hc : Hardcode) (hwf : hc.WF) (j : Nat) (hj : j < 128) :
    hc.invP j < 128 ∧ hc.P (hc.invP j) = j := by
  rcases P_surj hc hwf j hj with ⟨i, hi, hP⟩
  rcases find_range_spec (fun i => hc.P i == j) 128 ⟨i, hi, by simp [hP]⟩ with ⟨i', hf, hi', hp⟩
  unfold Hardcode.invP
  rw [hf]
  simp only [Option.getD_some]
  exact ⟨hi', by simpa using hp⟩

theorem invP_P (hc : Hardcode) (hwf : hc.WF) (i : Nat) (hi : i < 128) :
    hc.invP (hc.P i) = i := by
  have h := invP_spec hc hwf (hc.P i) (hwf.P_lt i hi)
  exact hwf.P_inj _ h.1 _ hi h.2

theorem invP_inj (hc : Hardcode) (hwf : hc.WF) (a : Nat) (ha : a < 128) (b : Nat)
    (hb : b < 128) (h : hc.invP a = hc.invP b) : a = b := by
  rw [← (invP_spec hc hwf a ha).2, ← (invP_spec hc hwf b hb).2, h]

theorem PBOX_HC_eq (hc : Hardcode) (hwf : hc.WF) (ret : List Nat) (h : 32 ≤ ret.length) :
    PBOX_HC hc (List.replicate 32 0) ret = some (permPure hc.P ret) :=
  permBits_eq hc.P hwf.P_lt ret h

theorem INV_PBOX_HC_eq (hc : Hardcode) (hwf : hc.WF) (ret : List Nat) (h : 32 ≤ ret.length) :
    INV_PBOX_HC hc (List.replicate 32 0) ret = some (permPure hc.invP ret) :=
  permBits_eq hc.invP (fun j hj => (invP_spec hc hwf j hj).1) ret h

theorem perm_roundtrip (hc : Hardcode) (hwf : hc.WF) (x : List Nat) (hx : IsBlock x) :
    permPure hc.invP (permPure hc.P x) = x :=
  permPure_inverse hc.P hc.invP hwf.P_lt (invP_P hc hwf) (invP_spec hc hwf) x hx

/-! ## The round constant -/

theorem maskOf_xor_lt (pos bit : Nat → Nat) (hbit : ∀ k, bit k ≤ 1) (n : Nat) :
    ∀ l : List Nat, maskOf (fun a b => a ^^^ b) pos bit l n < 16 := by
  intro l
  induction l with
  | nil => simp [maskOf]
  | cons k l ih =>
    simp only [maskOf]
    apply Nat.xor_lt_two_pow (n := 4) _ ih
    split
    · have hb := hbit k
      have hs : pos k % 4 < 4 := Nat.mod_lt _ (by decide)
      have hcases : bit k = 0 ∨ bit k = 1 := by omega
      rcases hcases with h | h
      · rw [h]; simp
      · rw [h, Nat.one_shiftLeft]
        exact Nat.pow_lt_pow_right (by decide) hs
    · decide

theorem ADD_CONSTANT_HC_eq (hc : Hardcode) (hwf : hc.WF) (B : List Nat) (rc : Nat)
    (hB : B.length = 32) :
    ADD_CONSTANT_HC hc B rc = some (addConstPure hc rc B) := by
  unfold ADD_CONSTANT_HC
  rw [updBit_fold (fun a b => a ^^^ b) (fun a b c => Nat.xor_assoc a b c)
    (fun a => Nat.xor_zero a) (fun a => Nat.zero_xor a) hc.constPos
    (fun k => (rc >>> k) &&& 1) (List.range 6) B hB
    (fun k hk => hwf.constPos_lt k (List.mem_range.mp hk))]
  simp only
  rw [updBit_eq _ _ _ _ (tab_length _) hwf.onePos_lt]
  simp only [Option.some.injEq]
  unfold addConstPure constMask
  apply tab_congr
  intro i hi
  rw [tab_getD _ i hi]
  by_cases h : hc.onePos / 4 = i
  · simp only [h, if_true, Nat.xor_assoc]
  · simp only [h, if_false, Nat.xor_zero]

theorem constMask_lt (hc : Hardcode) (rc n : Nat) : constMask hc rc n < 16 := by
  unfold constMask
  apply Nat.xor_lt_two_pow (n := 4)
  · apply maskOf_xor_lt
    intro k
    rw [Nat.and_one_is_mod]
    omega
  · split
    · rw [Nat.one_shiftLeft]
      exact Nat.pow_lt_pow_right (by decide) (Nat.mod_lt _ (by decide))
    · decide

theorem addConstPure_length (hc : Hardcode) (rc : Nat) (B : List Nat) :
    (addConstPure hc rc B).length = 32 :=
  tab_length _

theorem addConstPure_isBlock (hc : Hardcode) (rc : Nat) (B : List Nat) (hB : IsBlock B) :
    IsBlock (addConstPure hc rc B) := by
  apply tab_isBlock
  intro i _
  exact Nat.xor_lt_two_pow (n := 4) (hB.getD_lt i) (constMask_lt hc rc i)

theorem addConstPure_invol (hc : Hardcode) (rc : Nat) (B : List Nat) (hB : B.length = 32) :
    addConstPure hc rc (addConstPure hc rc B) = B := by
  unfold addConstPure
  rw [← tab_getD_self B hB]
  apply tab_congr
  intro i hi
  rw [tab_getD _ i hi, tab_getD_self B hB, Nat.xor_assoc, Nat.xor_self, Nat.xor_zero]

/-! ## Substitution -/

theorem SBox_lookup (x : Nat) (hx : x < 16) :
    SBox[x]? = some (SBox.getD x 0) ∧ SBox.getD x 0 < 16
      ∧ InvSBox.getD (SBox.getD x 0) 0 = x := by
  revert x
  decide

theorem InvSBox_lookup (x : Nat) (hx : x < 16) :
    InvSBox[x]? = some (InvSBox.getD x 0) ∧ InvSBox.getD x 0 < 16
      ∧ SBox.getD (InvSBox.getD x 0) 0 = x := by
  revert x
  decide

theorem sub_SBox_eq (x : List Nat) (hx : IsBlock x) :
    fill32 (fun i => do let v ← x[i]?; SBox[v]?) = some (subPure SBox x) := by
  apply fill32_tab
  intro k hk
  rw [getElem?_eq_getD (by rw [hx.1]; exact hk)]
  exact (SBox_lookup _ (hx.getD_lt k)).1

theorem sub_InvSBox_eq (x : List Nat) (hx : IsBlock x) :
    fill32 (fun i => do let v ← x[i]?; InvSBox[v]?) = some (subPure InvSBox x) := by
  apply fill32_tab
  intro k hk
  rw [getElem?_eq_getD (by rw [hx.1]; exact hk)]
  exact (InvSBox_lookup _ (hx.getD_lt k)).1

theorem subPure_SBox_isBlock (x : List Nat) (hx : IsBlock x) : IsBlock (subPure SBox x) :=
  tab_isBlock _ (fun i _ => (SBox_lookup _ (hx.getD_lt i)).2.1)

theorem subPure_InvSBox_isBlock (x : List Nat) (hx : IsBlock x) :
    IsBlock (subPure InvSBox x) :=
  tab_isBlock _ (fun i _ => (InvSBox_lookup _ (hx.getD_lt i)).2.1)

theorem subPure_Inv_S (x : List Nat) (hx : IsBlock x) :
    subPure InvSBox (subPure SBox x) = x := by
  unfold subPure
  rw [← tab_getD_self x hx.1]
  apply tab_congr
  intro i hi
  rw [tab_getD _ i hi, tab_getD_self x hx.1]
  exact (SBox_lookup _ (hx.getD_lt i)).2.2

theorem subPure_S_Inv (x : List Nat) (hx : IsBlock x) :
    subPure SBox (subPure InvSBox x) = x := by
  unfold subPure
  rw [← tab_getD_self x hx.1]
  apply tab_congr
  intro i hi
  rw [tab_getD _ i hi, tab_getD_self x hx.1]
  exact (InvSBox_lookup _ (hx.getD_lt i)).2.2

/-! ## Round keys and whitening -/

theorem ark_eq (ctx : BAKSHEESH_CTX) (hsk : ctx.shifted_keys.length = 32 * ROUND) (r : Nat)
    (hr : r < ROUND) (x : List Nat) (hx : x.length = 32) :
    fill32 (fun i => do
      let b ← x[i]?
      let k ← ctx.shifted_keys[(r <<< 5) + i]?
      pure (b ^^^ (k &&& 0xF))) = some (arkPure ctx r x) := by
  apply fill32_tab
  intro k hk
  have h1 : (r <<< 5) + k < ctx.shifted_keys.length := by
    rw [hsk, Nat.shiftLeft_eq]
    unfold ROUND at *
    omega
  rw [getElem?_eq_getD (by rw [hx]; exact hk), getElem?_eq_getD h1]
  rfl

theorem arkPure_isBlock (ctx : BAKSHEESH_CTX) (r : Nat) (x : List Nat) (hx : IsBlock x) :
    IsBlock (arkPure ctx r x) := by
  apply tab_isBlock
  intro i _
  exact Nat.xor_lt_two_pow (n := 4) (hx.getD_lt i) (Nat.and_lt_two_pow _ (by decide))

theorem arkPure_invol (ctx : BAKSHEESH_CTX) (r : Nat) (x : List Nat) (hx : x.length = 32) :
    arkPure ctx r (arkPure ctx r x) = x := by
  unfold arkPure
  rw [← tab_getD_self x hx]
  apply tab_congr
  intro i hi
  rw [tab_getD _ i hi, tab_getD_self x hx, Nat.xor_assoc, Nat.xor_self, Nat.xor_zero]

theorem xorKey_eq (key x : List Nat) (hk : key.length = 32) (hx : 32 ≤ x.length) :
    fill32 (fun i => do
      let s ← x[i]?
      let k ← key[i]?
      pure (s ^^^ k)) = some (xorKeyPure key x) := by
  apply fill32_tab
  intro k hk'
  rw [getElem?_eq_getD (by omega), getElem?_eq_getD (by omega)]
  rfl

theorem xorKeyPure_isBlock (key x : List Nat) (hk : IsBlock key)
    (hx : ∀ i, i < 32 → x.getD i 0 < 16) : IsBlock (xorKeyPure key x) := by
  apply tab_isBlock
  intro i hi
  exact Nat.xor_lt_two_pow (n := 4) (hx i hi) (hk.getD_lt i)

theorem xorKeyPure_invol (key x : List Nat) (hx : x.length = 32) :
    xorKeyPure key (xorKeyPure key x) = x := by
  unfold xorKeyPure
  rw [← tab_getD_self x hx]
  apply tab_congr
  intro i hi
  rw [tab_getD _ i hi, tab_getD_self x hx, Nat.xor_assoc, Nat.xor_self, Nat.xor_zero]

/-! ## Rounds -/

theorem encRoundPure_isBlock (hc : Hardcode) (ctx : BAKSHEESH_CTX) (x : List Nat) (r : Nat) :
    IsBlock (encRoundPure hc ctx x r) :=
  arkPure_isBlock ctx r _ (addConstPure_isBlock hc _ _ (permPure_isBlock _ _))

theorem decRoundPure_isBlock (hc : Hardcode) (ctx : BAKSHEESH_CTX) (y : List Nat) (r : Nat) :
    IsBlock (decRoundPure hc ctx y r) :=
  subPure_InvSBox_isBlock _ (permPure_isBlock _ _)

theorem RC_lookup (r : Nat) (hr : r < ROUND) : RC[r]? = some (RC.getD r 0) := by
  apply getElem?_eq_getD
  exact hr

theorem encRound_eq (hc : Hardcode) (hwf : hc.WF) (ctx : BAKSHEESH_CTX)
    (hsk : ctx.shifted_keys.length = 32 * ROUND) (x : List Nat) (hx : IsBlock x) (r : Nat)
    (hr : r < ROUND) :
    encRound hc ctx x r = some (encRoundPure hc ctx x r) := by
  unfold encRound
  rw [sub_SBox_eq x hx]
  simp only [Option.bind_eq_bind, Option.some_bind]
  rw [PBOX_HC_eq hc hwf _ (by rw [(subPure_SBox_isBlock x hx).1])]
  simp only [Option.some_bind]
  rw [RC_lookup r hr]
  simp only [Option.some_bind]
  rw [ADD_CONSTANT_HC_eq hc hwf _ _ (permPure_isBlock _ _).1]
  simp only [Option.some_bind]
  exact ark_eq ctx hsk r hr _ (addConstPure_length _ _ _)

theorem decRound_eq (hc : Hardcode) (hwf : hc.WF) (ctx : BAKSHEESH_CTX)
    (hsk : ctx.shifted_keys.length = 32 * ROUND) (y : List Nat) (hy : IsBlock y) (r : Nat)
    (hr : r < ROUND) :
    decRound hc ctx y r = some (decRoundPure hc ctx y r) := by
  unfold decRound
  rw [ark_eq ctx hsk r hr y hy.1]
  simp only [Option.bind_eq_bind, Option.some_bind]
  rw [RC_lookup r hr]
  simp only [Option.some_bind]
  rw [ADD_CONSTANT_HC_eq hc hwf _ _ (arkPure_isBlock ctx r y hy).1]
  simp only [Option.some_bind]
  rw [INV_PBOX_HC_eq hc hwf _ (by rw [addConstPure_length])]
  simp only [Option.some_bind]
  exact sub_InvSBox_eq _ (permPure_isBlock _ _)

theorem decRound_encRound (hc : Hardcode) (hwf : hc.WF) (ctx : BAKSHEESH_CTX) (x : List Nat)
    (hx : IsBlock x) (r : Nat) :
    decRoundPure hc ctx (encRoundPure hc ctx x r) r = x := by
  unfold decRoundPure encRoundPure
  rw [arkPure_invol ctx r _ (addConstPure_length _ _ _),
    addConstPure_invol hc _ _ (permPure_isBlock _ _).1,
    perm_roundtrip hc hwf _ (subPure_SBox_isBlock x hx),
    subPure_Inv_S x hx]

theorem foldlM_pure {α : Type} (Inv : List Nat → Prop) (f : List Nat → α → Option (List Nat))
    (g : List Nat → α → List Nat) :
    ∀ (l : List α) (x : List Nat),
      (∀ r, r ∈ l → ∀ x, Inv x → f x r = some (g x r) ∧ Inv (g x r)) → Inv x →
      l.foldlM f x = some (l.foldl g x) ∧ Inv (l.foldl g x) := by
  intro l
  induction l with
  | nil => intro x _ hx; exact ⟨rfl, hx⟩
  | cons a l ih =>
    intro x h hx
    have ha := h a (List.mem_cons_self a l) x hx
    rw [List.foldlM_cons, ha.1, List.foldl_cons]
    simp only [Option.bind_eq_bind, Option.some_bind]
    exact ih _ (fun r hr => h r (List.mem_cons_of_mem a hr)) ha.2

theorem foldl_roundtrip {α : Type} (Inv : List Nat → Prop) (g d : List Nat → α → List Nat) :
    ∀ (l : List α) (x : List Nat),
      (∀ r, r ∈ l → ∀ x, Inv x → d (g x r) r = x ∧ Inv (g x r)) → Inv x →
      l.reverse.foldl d (l.foldl g x) = x := by
  intro l
  induction l with
  | nil => intro x _ _; rfl
  | cons a l ih =>
    intro x h hx
    have ha := h a (List.mem_cons_self a l) x hx
    rw [List.foldl_cons, List.reverse_cons, List.foldl_append,
      ih _ (fun r hr => h r (List.mem_cons_of_mem a hr)) ha.2]
    simp only [List.foldl_cons, List.foldl_nil]
    exact ha.1

/-! ## Single-block transforms -/

theorem NibblePrefix.of_isBlock {x : List Nat} (hx : IsBlock x) : NibblePrefix x :=
  ⟨by rw [hx.1], fun i _ => hx.getD_lt i⟩

theorem encPure_isBlock (hc : Hardcode) (ctx : BAKSHEESH_CTX) (hk : IsBlock ctx.key)
    (state : List Nat) (hs : NibblePrefix state) : IsBlock (encPure hc ctx state) := by
  unfold encPure
  generalize hx0 : xorKeyPure ctx.key state = x0
  have h0 : IsBlock x0 := by rw [← hx0]; exact xorKeyPure_isBlock _ _ hk hs.2
  clear hx0
  have : ∀ (l : List Nat) (x : List Nat), IsBlock x → IsBlock (l.foldl (encRoundPure hc ctx) x) := by
    intro l
    induction l with
    | nil => intro x hx; exact hx
    | cons a l ih => intro x _; exact ih _ (encRoundPure_isBlock hc ctx x a)
  exact this _ _ h0

theorem encrypt_eq (hc : Hardcode) (hwf : hc.WF) (ctx : BAKSHEESH_CTX) (hctx : CtxOK ctx)
    (state : List Nat) (hs : NibblePrefix state) :
    __baksheesh_encrypt hc ctx state = some (encPure hc ctx state) := by
  unfold __baksheesh_encrypt
  rw [xorKey_eq ctx.key state hctx.1.1 hs.1]
  simp only [Option.bind_eq_bind, Option.some_bind]
  exact (foldlM_pure IsBlock (encRound hc ctx) (encRoundPure hc ctx) (List.range ROUND) _
    (fun r hr x hx => ⟨encRound_eq hc hwf ctx hctx.2 x hx r (List.mem_range.mp hr),
      encRoundPure_isBlock hc ctx x r⟩)
    (xorKeyPure_isBlock _ _ hctx.1 hs.2)).1

theorem copy32_eq (state : List Nat) (hs : 32 ≤ state.length) :
    fill32 (fun i => state[i]?) = some (tab (fun i => state.getD i 0)) := by
  apply fill32_tab
  intro k hk
  exact getElem?_eq_getD (by omega)

theorem decRounds_isBlock (hc : Hardcode) (ctx : BAKSHEESH_CTX) :
    ∀ (l : List Nat) (x : List Nat), IsBlock x → IsBlock (l.foldl (decRoundPure hc ctx) x) := by
  intro l
  induction l with
  | nil => intro x hx; exact hx
  | cons a l ih => intro x _; exact ih _ (decRoundPure_isBlock hc ctx x a)

theorem decPure_isBlock (hc : Hardcode) (ctx : BAKSHEESH_CTX) (hk : IsBlock ctx.key)
    (state : List Nat) (hs : NibblePrefix state) : IsBlock (decPure hc ctx state) := by
  unfold decPure
  apply xorKeyPure_isBlock _ _ hk
  intro i _
  exact (decRounds_isBlock hc ctx _ _ (tab_isBlock _ hs.2)).getD_lt i

theorem decrypt_eq (hc : Hardcode) (hwf : hc.WF) (ctx : BAKSHEESH_CTX) (hctx : CtxOK ctx)
    (state : List Nat) (hs : NibblePrefix state) :
    __baksheesh_decrypt hc ctx state = some (decPure hc ctx state) := by
  unfold __baksheesh_decrypt
  rw [copy32_eq state hs.1]
  simp only [Option.bind_eq_bind, Option.some_bind]
  have h := foldlM_pure IsBlock (decRound hc ctx) (decRoundPure hc ctx) (List.range ROUND).reverse
    (tab (fun i => state.getD i 0))
    (fun r hr x hx => ⟨decRound_eq hc hwf ctx hctx.2 x hx r
        (List.mem_range.mp (List.mem_reverse.mp hr)),
      decRoundPure_isBlock hc ctx x r⟩)
    (tab_isBlock _ hs.2)
  rw [h.1]
  simp only [Option.some_bind]
  exact xorKey_eq ctx.key _ hctx.1.1 (by rw [h.2.1])

theorem decPure_encPure (hc : Hardcode) (hwf : hc.WF) (ctx : BAKSHEESH_CTX)
    (hk : IsBlock ctx.key) (x : List Nat) (hx : IsBlock x) :
    decPure hc ctx (encPure hc ctx x) = x := by
  have hb := encPure_isBlock hc ctx hk x (NibblePrefix.of_isBlock hx)
  unfold decPure
  rw [tab_getD_self _ hb.1]
  unfold encPure
  rw [foldl_roundtrip IsBlock (encRoundPure hc ctx) (decRoundPure hc ctx) (List.range ROUND) _
    (fun r _ x hx => ⟨decRound_encRound hc hwf ctx x hx r, encRoundPure_isBlock hc ctx x r⟩)
    (xorKeyPure_isBlock _ _ hk (fun i _ => hx.getD_lt i))]
  exact xorKeyPure_invol _ _ hx.1

/-! ## Alignment -/

theorem ALIGN_eq (n : Nat) (hn : n < 2 ^ 64) : ALIGN_TO_32_BLOCK_SIZE n = 32 * (n / 32) := by
  unfold ALIGN_TO_32_BLOCK_SIZE
  apply Nat.eq_of_testBit_eq
  intro i
  have h1 : (2 : Nat) ^ 64 - 32 = (2 ^ 59 - 1) <<< 5 := by decide
  have h2 : 32 * (n / 32) = (n >>> 5) <<< 5 := by
    rw [Nat.shiftLeft_eq, Nat.shiftRight_eq_div_pow]
    omega
  rw [h1, h2, Nat.testBit_and, Nat.testBit_shiftLeft, Nat.testBit_shiftLeft,
    Nat.testBit_shiftRight, Nat.testBit_two_pow_sub_one]
  by_cases h5 : 5 ≤ i
  · have e : 5 + (i - 5) = i := by omega
    rw [e]
    by_cases h64 : i < 64
    · have : i - 5 < 59 := by omega
      simp [h5, this]
    · have hf : n.testBit i = false := by
        apply Nat.testBit_lt_two_pow
        calc n < 2 ^ 64 := hn
          _ ≤ 2 ^ i := Nat.pow_le_pow_right (by decide) (by omega)
      simp [hf]
  · simp [h5]

theorem ALIGN_blocks (n : Nat) (hn : n < 2 ^ 64) : ALIGN_TO_32_BLOCK_SIZE n >>> 5 = n / 32 := by
  rw [ALIGN_eq n hn, Nat.shiftRight_eq_div_pow]
  omega

theorem ALIGN_sub (n : Nat) (hn : n < 2 ^ 64) : ALIGN_TO_32_BLOCK_SIZE n = n - n % 32 := by
  rw [ALIGN_eq n hn]
  omega

/-! ## Locality and length of the single-block transforms -/

theorem encrypt_take (hc : Hardcode) (ctx : BAKSHEESH_CTX) (s : List Nat) :
    __baksheesh_encrypt hc ctx (s.take 32) = __baksheesh_encrypt hc ctx s := by
  unfold __baksheesh_encrypt
  rw [fill32_congr _ (fun i => do
    let v ← s[i]?
    let k ← ctx.key[i]?
    pure (v ^^^ k))]
  intro k hk
  rw [List.getElem?_take_of_lt hk]

theorem decrypt_take (hc : Hardcode) (ctx : BAKSHEESH_CTX) (s : List Nat) :
    __baksheesh_decrypt hc ctx (s.take 32) = __baksheesh_decrypt hc ctx s := by
  unfold __baksheesh_decrypt
  rw [fill32_congr _ (fun i => s[i]?)]
  intro k hk
  rw [List.getElem?_take_of_lt hk]

theorem encRound_length (hc : Hardcode) (ctx : BAKSHEESH_CTX) (x c : List Nat) (r : Nat)
    (h : encRound hc ctx x r = some c) : c.length = 32 := by
  unfold encRound at h
  simp only [Option.bind_eq_bind, Option.bind_eq_some] at h
  rcases h with ⟨_, _, _, _, _, _, _, _, h⟩
  exact fill32_length _ _ h

theorem encrypt_length (hc : Hardcode) (ctx : BAKSHEESH_CTX) (s c : List Nat)
    (h : __baksheesh_encrypt hc ctx s = some c) : c.length = 32 := by
  unfold __baksheesh_encrypt at h
  simp only [Option.bind_eq_bind, Option.bind_eq_some] at h
  rcases h with ⟨x, _, h⟩
  have hR : List.range ROUND = List.range 34 ++ [34] := by decide
  rw [hR, List.foldlM_append] at h
  simp only [Option.bind_eq_bind, Option.bind_eq_some, List.foldlM_cons, List.foldlM_nil] at h
  rcases h with ⟨y, _, z, hz, hc'⟩
  simp only [Option.pure_def, Option.some.injEq] at hc'
  subst hc'
  exact encRound_length hc ctx y z 34 hz

theorem decrypt_length (hc : Hardcode) (ctx : BAKSHEESH_CTX) (s c : List Nat)
    (h : __baksheesh_decrypt hc ctx s = some c) : c.length = 32 := by
  unfold __baksheesh_decrypt at h
  simp only [Option.bind_eq_bind, Option.bind_eq_some] at h
  rcases h with ⟨_, _, _, _, h⟩
  exact fill32_length _ _ h

/-! ## The block loop -/

theorem memcpy32_eq (output : List Nat) (done : Nat) (c : List Nat) (hc : c.length = 32)
    (hcap : done + 32 ≤ output.length) :
    memcpy32 output done c = some (output.take done ++ c ++ output.drop (done + 32)) := by
  unfold memcpy32
  have ht : c.take 32 = c := List.take_of_length_le (by omega)
  rw [if_pos ⟨hcap, by omega⟩, ht]

theorem memcpy32_none (output : List Nat) (done : Nat) (c : List Nat)
    (hcap : ¬ done + 32 ≤ output.length) : memcpy32 output done c = none := by
  unfold memcpy32
  rw [if_neg (fun h => hcap h.1)]

theorem blockLoop_eq (block : List Nat → Option (List Nat)) (input : List Nat)
    (hlen : ∀ s c, block s = some c → c.length = 32) :
    ∀ (n done : Nat) (output : List Nat), done ≤ output.length →
      blockLoop block input n done output
        = (ecbCat block input n done).bind (fun cs =>
            if done + 32 * n ≤ output.length then
              some (output.take done ++ cs ++ output.drop (done + 32 * n))
            else none) := by
  intro n
  induction n with
  | zero =>
    intro done output h
    simp [blockLoop, ecbCat, h]
  | succ n ih =>
    intro done output h
    unfold blockLoop ecbCat
    cases hb : block (input.drop done) with
    | none => simp
    | some c =>
      have hc := hlen _ _ hb
      simp only
      by_cases hcap : done + 32 ≤ output.length
      · rw [memcpy32_eq output done c hc hcap]
        simp only
        have hl1 : (output.take done ++ c ++ output.drop (done + 32)).length = output.length := by
          simp only [List.length_append, List.length_take, List.length_drop, hc]
          omega
        rw [ih (done + 32) _ (by rw [hl1]; exact hcap)]
        cases hcs : ecbCat block input n (done + 32) with
        | none => simp
        | some cs =>
          simp only [Option.some_bind, hl1]
          have harith : done + 32 + 32 * n = done + 32 * (n + 1) := by omega
          rw [harith]
          by_cases hcap2 : done + 32 * (n + 1) ≤ output.length
          · rw [if_pos hcap2, if_pos hcap2]
            simp only [Option.some.injEq]
            have ht : (output.take done ++ c ++ output.drop (done + 32)).take (done + 32)
                = output.take done ++ c := by
              apply List.take_left'
              simp only [List.length_append, List.length_take, hc]
              omega
            have hd : (output.take done ++ c ++ output.drop (done + 32)).drop (done + 32 * (n + 1))
                = output.drop (done + 32 * (n + 1)) := by
              have e : done + 32 * (n + 1) = (output.take done ++ c).length + 32 * n := by
                simp only [List.length_append, List.length_take, hc]
                omega
              rw [e, List.drop_append, List.drop_drop]
              congr 1
              simp only [List.length_append, List.length_take, hc]
              omega
            rw [ht, hd]
            simp only [List.append_assoc]
          · rw [if_neg hcap2, if_neg hcap2]
      · rw [memcpy32_none output done c hcap]
        cases hcs : ecbCat block input n (done + 32) with
        | none => simp
        | some cs =>
          have : ¬ done + 32 * (n + 1) ≤ output.length := by omega
          simp [this]

theorem ecbCat_congr (block : List Nat → Option (List Nat)) (i1 i2 : List Nat) :
    ∀ (n done : Nat), (∀ k, k < n → block (i1.drop (done + 32 * k)) = block (i2.drop (done + 32 * k))) →
      ecbCat block i1 n done = ecbCat block i2 n done := by
  intro n
  induction n with
  | zero => intro done _; rfl
  | succ n ih =>
    intro done h
    unfold ecbCat
    have h0 := h 0 (Nat.succ_pos n)
    simp only [Nat.mul_zero, Nat.add_zero] at h0
    rw [h0, ih (done + 32) (fun k hk => by
      have := h (k + 1) (Nat.succ_lt_succ hk)
      have e : done + 32 * (k + 1) = done + 32 + 32 * k := by omega
      rwa [e] at this)]

theorem ecbCat_spec (block : List Nat → Option (List Nat)) (input : List Nat)
    (hlen : ∀ s c, block s = some c → c.length = 32) :
    ∀ (n done : Nat) (cs : List Nat), ecbCat block input n done = some cs →
      cs.length = 32 * n ∧ ∀ k, k < n → block (input.drop (done + 32 * k)) = some (blk cs k) := by
  intro n
  induction n with
  | zero =>
    intro done cs h
    simp only [ecbCat, Option.some.injEq] at h
    subst h
    exact ⟨rfl, fun k hk => absurd hk (Nat.not_lt_zero k)⟩
  | succ n ih =>
    intro done cs h
    unfold ecbCat at h
    split at h
    · rename_i c cs1 hb hcs1
      simp only [Option.some.injEq] at h
      subst h
      have hc := hlen _ _ hb
      have hi := ih (done + 32) cs1 hcs1
      refine ⟨by simp only [List.length_append, hc, hi.1]; omega, ?_⟩
      intro k hk
      cases k with
      | zero =>
        simp only [Nat.mul_zero, Nat.add_zero, blk, List.drop_zero]
        rw [hb, List.take_left' hc]
      | succ k =>
        have e : done + 32 * (k + 1) = done + 32 + 32 * k := by omega
        rw [e, hi.2 k (Nat.lt_of_succ_lt_succ hk)]
        unfold blk
        have e2 : 32 * (k + 1) = c.length + 32 * k := by omega
        rw [e2, List.drop_append]
    · simp at h

theorem ecbCat_build (block : List Nat → Option (List Nat)) (input : List Nat) :
    ∀ (n done : Nat) (cs : List Nat), cs.length = 32 * n →
      (∀ k, k < n → block (input.drop (done + 32 * k)) = some (blk cs k)) →
      ecbCat block input n done = some cs := by
  intro n
  induction n with
  | zero =>
    intro done cs hl _
    have : cs = [] := List.length_eq_zero.mp (by omega)
    subst this
    rfl
  | succ n ih =>
    intro done cs hl h
    unfold ecbCat
    have h0 := h 0 (Nat.succ_pos n)
    simp only [Nat.mul_zero, Nat.add_zero, blk, List.drop_zero] at h0
    have h1 : ecbCat block input n (done + 32) = some (cs.drop 32) := by
      apply ih
      · simp only [List.length_drop, hl]; omega
      · intro k hk
        have := h (k + 1) (Nat.succ_lt_succ hk)
        have e : done + 32 * (k + 1) = done + 32 + 32 * k := by omega
        rw [e] at this
        rw [this]
        unfold blk
        rw [List.drop_drop]
        have e2 : 32 + 32 * k = 32 * (k + 1) := by omega
        rw [e2]
    rw [h0, h1]
    simp only [List.take_append_drop]

theorem ecbCat_total (block : List Nat → Option (List Nat)) (input : List Nat) :
    ∀ (n done : Nat), (∀ k, k < n → ∃ c, block (input.drop (done + 32 * k)) = some c) →
      ∃ cs, ecbCat block input n done = some cs := by
  intro n
  induction n with
  | zero => intro done _; exact ⟨[], rfl⟩
  | succ n ih =>
    intro done h
    rcases h 0 (Nat.succ_pos n) with ⟨c, hc⟩
    simp only [Nat.mul_zero, Nat.add_zero] at hc
    rcases ih (done + 32) (fun k hk => by
      have := h (k + 1) (Nat.succ_lt_succ hk)
      have e : done + 32 * (k + 1) = done + 32 + 32 * k := by omega
      rwa [e] at this) with ⟨cs, hcs⟩
    exact ⟨c ++ cs, by unfold ecbCat; rw [hc, hcs]⟩

/-! ## The drivers in closed form -/

theorem encrypt_driver_eq (hc : Hardcode) (c : BAKSHEESH_CTX) (inp : List Nat) (L : Nat)
    (hL : L < 2 ^ 64) (out : List Nat) (ol : Nat) :
    BAKSHEESH_CTX_encrypt hc (some c) (some inp) L (some out) ol
      = (ecbCat (__baksheesh_encrypt hc c) inp (L / 32) 0).bind (fun cs =>
          if 32 * (L / 32) ≤ out.length then
            some { status := 0, output := some (cs ++ out.drop (32 * (L / 32))),
                   output_len := 32 * (L / 32) }
          else none) := by
  unfold BAKSHEESH_CTX_encrypt
  simp only
  rw [ALIGN_blocks L hL, ALIGN_eq L hL,
    blockLoop_eq _ inp (encrypt_length hc c) (L / 32) 0 out (Nat.zero_le _)]
  cases ecbCat (__baksheesh_encrypt hc c) inp (L / 32) 0 with
  | none => rfl
  | some cs =>
    simp only [Option.some_bind, Nat.zero_add, List.take_zero, List.nil_append]
    by_cases hcap : 32 * (L / 32) ≤ out.length
    · simp only [if_pos hcap]
    · simp only [if_neg hcap]

theorem decrypt_driver_eq (hc : Hardcode) (c : BAKSHEESH_CTX) (inp : List Nat) (L : Nat)
    (hL : L < 2 ^ 64) (out : List Nat) (ol : Nat) :
    BAKSHEESH_CTX_decrypt hc (some c) (some inp) L (some out) ol
      = (ecbCat (__baksheesh_decrypt hc c) inp (L / 32) 0).bind (fun cs =>
          if 32 * (L / 32) ≤ out.length then
            some { status := 0, output := some (cs ++ out.drop (32 * (L / 32))),
                   output_len := 32 * (L / 32) }
          else none) := by
  unfold BAKSHEESH_CTX_decrypt
  simp only
  rw [ALIGN_blocks L hL, ALIGN_eq L hL,
    blockLoop_eq _ inp (decrypt_length hc c) (L / 32) 0 out (Nat.zero_le _)]
  cases ecbCat (__baksheesh_decrypt hc c) inp (L / 32) 0 with
  | none => rfl
  | some cs =>
    simp only [Option.some_bind, Nat.zero_add, List.take_zero, List.nil_append]
    by_cases hcap : 32 * (L / 32) ≤ out.length
    · simp only [if_pos hcap]
    · simp only [if_neg hcap]

/-! ## Blocks of a buffer -/

theorem blk_append (cs rest : List Nat) (k : Nat) (h : 32 * (k + 1) ≤ cs.length) :
    blk (cs ++ rest) k = blk cs k := by
  unfold blk
  rw [List.drop_append_of_le_length (by omega),
    List.take_append_of_le_length (by rw [List.length_drop]; omega)]

theorem blk_length (xs : List Nat) (k : Nat) (h : 32 * (k + 1) ≤ xs.length) :
    (blk xs k).length = 32 := by
  unfold blk
  rw [List.length_take, List.length_drop]
  omega

theorem blk_isBlock (xs : List Nat) (k : Nat) (h : 32 * (k + 1) ≤ xs.length)
    (hx : ∀ v, v ∈ xs.take (32 * (k + 1)) → v < 16) : IsBlock (blk xs k) := by
  refine ⟨blk_length xs k h, ?_⟩
  intro v hv
  apply hx
  unfold blk at hv
  have e : 32 * (k + 1) = 32 * k + 32 := by omega
  rw [e, List.take_add]
  exact List.mem_append_right _ hv

theorem encrypt_blk (hc : Hardcode) (ctx : BAKSHEESH_CTX) (xs : List Nat) (k : Nat) :
    __baksheesh_encrypt hc ctx (xs.drop (0 + 32 * k)) = __baksheesh_encrypt hc ctx (blk xs k) := by
  unfold blk
  rw [Nat.zero_add, encrypt_take]

theorem decrypt_blk (hc : Hardcode) (ctx : BAKSHEESH_CTX) (xs : List Nat) (k : Nat) :
    __baksheesh_decrypt hc ctx (xs.drop (0 + 32 * k)) = __baksheesh_decrypt hc ctx (blk xs k) := by
  unfold blk
  rw [Nat.zero_add, decrypt_take]

/-! ## The constructor -/

theorem keyLoop_length (hc : Hardcode)
    (hshift : ∀ k : List Nat, k.length = 32 → (hc.RIGHT_SHIFT_KEY k).length = 32) :
    ∀ (n : Nat) (p : List Nat), 32 ≤ p.length → (keyLoop hc n p).length = 32 * n := by
  intro n
  induction n with
  | zero => intro p _; rfl
  | succ n ih =>
    intro p hp
    have hs : (hc.RIGHT_SHIFT_KEY (p.take 32)).length = 32 :=
      hshift _ (by rw [List.length_take]; omega)
    have hi := ih (hc.RIGHT_SHIFT_KEY (p.take 32)) (by rw [hs])
    simp only [keyLoop, List.length_append, hs, hi]
    omega

theorem new_ctxOK (hc : Hardcode) (hwf : hc.WF) (K : List Nat) (hK : IsBlock K) :
    ∃ ctx, BAKSHEESH_CTX_new hc true K = some ctx ∧ ctx.key = K ∧ CtxOK ctx := by
  refine ⟨{ key := K.take 32, shifted_keys := keyLoop hc ROUND K }, rfl, ?_, ?_⟩
  · exact List.take_of_length_le (by rw [hK.1])
  · have hk : K.take 32 = K := List.take_of_length_le (by rw [hK.1])
    refine ⟨?_, keyLoop_length hc hwf.shift_length ROUND K (by rw [hK.1])⟩
    simp only [hk]
    exact hK

/-! ## The sample instance is well formed -/

theorem giftP_lt : ∀ i, i < 128 → giftP i < 128 := by
  decide

set_option maxRecDepth 100000 in
theorem giftP_leftInverse : ∀ i, i < 128 → sampleHardcode.invP (giftP i) = i := by
  decide

theorem giftP_inj : ∀ i, i < 128 → ∀ j, j < 128 → giftP i = giftP j → i = j := by
  intro i hi j hj h
  rw [← giftP_leftInverse i hi, ← giftP_leftInverse j hj, h]

theorem sampleHardcode_WF : sampleHardcode.WF where
  P_lt := giftP_lt
  P_inj := giftP_inj
  constPos_lt := by decide
  onePos_lt := by decide
  shift_length := by
    intro k _
    simp [sampleHardcode, rotateKey]

/-! ## Properties of the specification -/

theorem encrypt_block_ok (hc : Hardcode) (hwf : hc.WF) (ctx : BAKSHEESH_CTX) (hctx : CtxOK ctx)
    (xs : List Nat) (k : Nat) (h : 32 * (k + 1) ≤ xs.length)
    (hx : ∀ v, v ∈ xs.take (32 * (k + 1)) → v < 16) :
    __baksheesh_encrypt hc ctx (xs.drop (0 + 32 * k)) = some (encPure hc ctx (blk xs k))
      ∧ IsBlock (encPure hc ctx (blk xs k)) := by
  have hb := blk_isBlock xs k h hx
  rw [encrypt_blk]
  exact ⟨encrypt_eq hc hwf ctx hctx _ (NibblePrefix.of_isBlock hb),
    encPure_isBlock hc ctx hctx.1 _ (NibblePrefix.of_isBlock hb)⟩

theorem decrypt_block_ok (hc : Hardcode) (hwf : hc.WF) (ctx : BAKSHEESH_CTX) (hctx : CtxOK ctx)
    (xs : List Nat) (k : Nat) (h : 32 * (k + 1) ≤ xs.length)
    (hx : ∀ v, v ∈ xs.take (32 * (k + 1)) → v < 16) :
    __baksheesh_decrypt hc ctx (xs.drop (0 + 32 * k)) = some (decPure hc ctx (blk xs k))
      ∧ IsBlock (decPure hc ctx (blk xs k)) := by
  have hb := blk_isBlock xs k h hx
  rw [decrypt_blk]
  exact ⟨decrypt_eq hc hwf ctx hctx _ (NibblePrefix.of_isBlock hb),
    decPure_isBlock hc ctx hctx.1 _ (NibblePrefix.of_isBlock hb)⟩

theorem mem_take_mono (xs : List Nat) (a b : Nat) (hab : a ≤ b)
    (h : ∀ v, v ∈ xs.take b → v < 16) : ∀ v, v ∈ xs.take a → v < 16 := by
  intro v hv
  apply h
  have e : xs.take a = (xs.take b).take a := by
    rw [List.take_take, Nat.min_eq_left hab]
  rw [e] at hv
  exact List.mem_of_mem_take hv

/-- Round trip through the two drivers, on every context with a nibble key:
encrypting `n` nibble blocks and decrypting the result returns the blocks. -/
theorem driver_roundtrip (hc : Hardcode) (hwf : hc.WF) (ctx : BAKSHEESH_CTX) (hctx : CtxOK ctx)
    (P out1 out2 : List Nat) (ol1 ol2 n : Nat) (hP : P.length = 32 * n)
    (hsz : P.length < 2 ^ 64) (hPn : ∀ v, v ∈ P → v < 16) (ho1 : P.length ≤ out1.length)
    (ho2 : P.length ≤ out2.length) :
    ∃ C, C.length = P.length
      ∧ BAKSHEESH_CTX_encrypt hc (some ctx) (some P) P.length (some out1) ol1
          = some { status := 0, output := some (C ++ out1.drop P.length),
                   output_len := P.length }
      ∧ BAKSHEESH_CTX_decrypt hc (some ctx) (some (C ++ out1.drop P.length)) P.length
            (some out2) ol2
          = some { status := 0, output := some (P ++ out2.drop P.length),
                   output_len := P.length } := by
  have hdiv : P.length / 32 = n := by omega
  have hPk : ∀ k, k < n → ∀ v, v ∈ P.take (32 * (k + 1)) → v < 16 :=
    fun k _ v hv => hPn v (List.mem_of_mem_take hv)
  rcases ecbCat_total (__baksheesh_encrypt hc ctx) P n 0 (fun k hk =>
    ⟨_, (encrypt_block_ok hc hwf ctx hctx P k (by omega) (hPk k hk)).1⟩) with ⟨C, hC⟩
  have hspec := ecbCat_spec _ P (encrypt_length hc ctx) n 0 C hC
  have hCP : C.length = P.length := by rw [hspec.1, hP]
  refine ⟨C, hCP, ?_, ?_⟩
  · rw [encrypt_driver_eq hc ctx P P.length hsz, hdiv, hC]
    simp only [Option.some_bind]
    rw [← hP, if_pos ho1]
  · rw [decrypt_driver_eq hc ctx _ P.length hsz, hdiv]
    have hD : ecbCat (__baksheesh_decrypt hc ctx) (C ++ out1.drop P.length) n 0 = some P := by
      apply ecbCat_build _ _ n 0 P hP
      intro k hk
      have hck : 32 * (k + 1) ≤ C.length := by omega
      have henc := hspec.2 k hk
      rw [(encrypt_block_ok hc hwf ctx hctx P k (by omega) (hPk k hk)).1] at henc
      have hblk : blk C k = encPure hc ctx (blk P k) := (Option.some.inj henc).symm
      have hbP : IsBlock (blk P k) := blk_isBlock P k (by omega) (hPk k hk)
      have hbC : IsBlock (blk C k) := by
        rw [hblk]
        exact encPure_isBlock hc ctx hctx.1 _ (NibblePrefix.of_isBlock hbP)
      rw [decrypt_blk, blk_append C _ k hck,
        decrypt_eq hc hwf ctx hctx _ (NibblePrefix.of_isBlock hbC), hblk,
        decPure_encPure hc hwf ctx hctx.1 _ hbP]
    rw [hD]
    simp only [Option.some_bind]
    rw [← hP, if_pos ho2]

/-- C1. Round trip: for a key `K` of 32 nibbles and a plaintext `P` of nibbles
whose length is a multiple of 32, with `ctx = BAKSHEESH_CTX_new(K)`,
`BAKSHEESH_CTX_encrypt` on `P` returns status 0 and a ciphertext `C` of the
length of `P`, and `BAKSHEESH_CTX_decrypt` on that output with the same `ctx`
returns status 0, the output length of `P`, and `P` itself as output. -/
theorem C1_roundtrip (hc : Hardcode) (hwf : hc.WF) (K P out1 out2 : List Nat) (ol1 ol2 : Nat)
    (hK : K.length = 32) (hKn : ∀ v, v ∈ K → v < 16) (hP : P.length % 32 = 0)
    (hsz : P.length < 2 ^ 64) (hPn : ∀ v, v ∈ P → v < 16) (ho1 : P.length ≤ out1.length)
    (ho2 : P.length ≤ out2.length) :
    ∃ C, C.length = P.length
      ∧ BAKSHEESH_CTX_encrypt hc (BAKSHEESH_CTX_new hc true K) (some P) P.length (some out1) ol1
          = some { status := 0, output := some (C ++ out1.drop P.length),
                   output_len := P.length }
      ∧ BAKSHEESH_CTX_decrypt hc (BAKSHEESH_CTX_new hc true K)
            (some (C ++ out1.drop P.length)) P.length (some out2) ol2
          = some { status := 0, output := some (P ++ out2.drop P.length),
                   output_len := P.length } := by
  rcases new_ctxOK hc hwf K ⟨hK, hKn⟩ with ⟨ctx, hnew, _, hctx⟩
  rw [hnew]
  exact driver_roundtrip hc hwf ctx hctx P out1 out2 ol1 ol2 (P.length / 32) (by omega) hsz hPn
    ho1 ho2

/-- C1, instance: key of 32 zero bytes, plaintext of 32 zero bytes. -/
theorem C1_roundtrip_witness :
    ∃ C, C.length = (List.replicate 32 0).length
      ∧ BAKSHEESH_CTX_encrypt sampleHardcode
          (BAKSHEESH_CTX_new sampleHardcode true (List.replicate 32 0))
          (some (List.replicate 32 0)) (List.replicate 32 0).length
          (some (List.replicate 32 0)) 0
          = some { status := 0,
                   output := some (C ++ (List.replicate 32 0).drop (List.replicate 32 0).length),
                   output_len := (List.replicate 32 0).length }
      ∧ BAKSHEESH_CTX_decrypt sampleHardcode
          (BAKSHEESH_CTX_new sampleHardcode true (List.replicate 32 0))
          (some (C ++ (List.replicate 32 0).drop (List.replicate 32 0).length))
          (List.replicate 32 0).length (some (List.replicate 32 0)) 0
          = some { status := 0,
                   output := some (List.replicate 32 0
                     ++ (List.replicate 32 0).drop (List.replicate 32 0).length),
                   output_len := (List.replicate 32 0).length } :=
  C1_roundtrip sampleHardcode sampleHardcode_WF (List.replicate 32 0) (List.replicate 32 0)
    (List.replicate 32 0) (List.replicate 32 0) 0 0 (by decide) (by decide) (by decide)
    (by decide) (by decide) (by decide) (by decide)

theorem nibbles_of_blocks (cs : List Nat) (n : Nat) (hl : cs.length = 32 * n)
    (h : ∀ k, k < n → IsBlock (blk cs k)) : ∀ v, v ∈ cs → v < 16 := by
  intro v hv
  rcases List.getElem_of_mem hv with ⟨p, hp, rfl⟩
  have hk : p / 32 < n := by omega
  apply (h (p / 32) hk).2
  have hmem : (blk cs (p / 32))[p % 32]? = some cs[p] := by
    unfold blk
    rw [List.getElem?_take_of_lt (Nat.mod_lt _ (by decide)), List.getElem?_drop]
    have e : 32 * (p / 32) + p % 32 = p := Nat.div_add_mod p 32
    rw [e, List.getElem?_eq_getElem hp]
  exact List.getElem?_mem hmem

/-- Every valid call of the encryption driver completes with status 0, the
aligned length, and nibbles in the aligned part of the output. -/
theorem encrypt_driver_total (hc : Hardcode) (ctx : BAKSHEESH_CTX) (inp : List Nat) (L : Nat)
    (out : List Nat) (ol : Nat) (hv : ValidCall hc ctx inp L out) :
    ∃ C, C.length = 32 * (L / 32) ∧ (∀ v, v ∈ C → v < 16)
      ∧ (∀ k, k < L / 32 → blk C k = encPure hc ctx (blk inp k))
      ∧ BAKSHEESH_CTX_encrypt hc (some ctx) (some inp) L (some out) ol
          = some { status := 0, output := some (C ++ out.drop (32 * (L / 32))),
                   output_len := 32 * (L / 32) } := by
  rcases hv with ⟨hwf, hctx, hL, hin, hnib, hcap⟩
  have hb : ∀ k, k < L / 32 →
      __baksheesh_encrypt hc ctx (inp.drop (0 + 32 * k)) = some (encPure hc ctx (blk inp k))
        ∧ IsBlock (encPure hc ctx (blk inp k)) :=
    fun k hk => encrypt_block_ok hc hwf ctx hctx inp k (by omega)
      (mem_take_mono inp _ _ (by have : k + 1 ≤ L / 32 := hk; exact Nat.mul_le_mul_left 32 this) hnib)
  rcases ecbCat_total (__baksheesh_encrypt hc ctx) inp (L / 32) 0
    (fun k hk => ⟨_, (hb k hk).1⟩) with ⟨C, hC⟩
  have hspec := ecbCat_spec _ inp (encrypt_length hc ctx) (L / 32) 0 C hC
  have hblk : ∀ k, k < L / 32 → blk C k = encPure hc ctx (blk inp k) := by
    intro k hk
    have h1 := hspec.2 k hk
    rw [(hb k hk).1] at h1
    exact (Option.some.inj h1).symm
  refine ⟨C, hspec.1, ?_, hblk, ?_⟩
  · apply nibbles_of_blocks C (L / 32) hspec.1
    intro k hk
    rw [hblk k hk]
    exact (hb k hk).2
  · rw [encrypt_driver_eq hc ctx inp L hL, hC]
    simp only [Option.some_bind]
    rw [if_pos hcap]

/-- Every valid call of the decryption driver completes with status 0, the
aligned length, and nibbles in the aligned part of the output. -/
theorem decrypt_driver_total (hc : Hardcode) (ctx : BAKSHEESH_CTX) (inp : List Nat) (L : Nat)
    (out : List Nat) (ol : Nat) (hv : ValidCall hc ctx inp L out) :
    ∃ D, D.length = 32 * (L / 32) ∧ (∀ v, v ∈ D → v < 16)
      ∧ (∀ k, k < L / 32 → blk D k = decPure hc ctx (blk inp k))
      ∧ BAKSHEESH_CTX_decrypt hc (some ctx) (some inp) L (some out) ol
          = some { status := 0, output := some (D ++ out.drop (32 * (L / 32))),
                   output_len := 32 * (L / 32) } := by
  rcases hv with ⟨hwf, hctx, hL, hin, hnib, hcap⟩
  have hb : ∀ k, k < L / 32 →
      __baksheesh_decrypt hc ctx (inp.drop (0 + 32 * k)) = some (decPure hc ctx (blk inp k))
        ∧ IsBlock (decPure hc ctx (blk inp k)) :=
    fun k hk => decrypt_block_ok hc hwf ctx hctx inp k (by omega)
      (mem_take_mono inp _ _ (by have : k + 1 ≤ L / 32 := hk; exact Nat.mul_le_mul_left 32 this) hnib)
  rcases ecbCat_total (__baksheesh_decrypt hc ctx) inp (L / 32) 0
    (fun k hk => ⟨_, (hb k hk).1⟩) with ⟨D, hD⟩
  have hspec := ecbCat_spec _ inp (decrypt_length hc ctx) (L / 32) 0 D hD
  have hblk : ∀ k, k < L / 32 → blk D k = decPure hc ctx (blk inp k) := by
    intro k hk
    have h1 := hspec.2 k hk
    rw [(hb k hk).1] at h1
    exact (Option.some.inj h1).symm
  refine ⟨D, hspec.1, ?_, hblk, ?_⟩
  · apply nibbles_of_blocks D (L / 32) hspec.1
    intro k hk
    rw [hblk k hk]
    exact (hb k hk).2
  · rw [decrypt_driver_eq hc ctx inp L hL, hD]
    simp only [Option.some_bind]
    rw [if_pos hcap]

theorem encrypt_driver_some (hc : Hardcode) (c : BAKSHEESH_CTX) (inp : List Nat) (L : Nat)
    (out : List Nat) (ol : Nat) (res : Result)
    (h : BAKSHEESH_CTX_encrypt hc (some c) (some inp) L (some out) ol = some res) :
    res.status = 0 ∧ res.output_len = L &&& (2 ^ 64 - 32) := by
  unfold BAKSHEESH_CTX_encrypt at h
  simp only at h
  split at h
  · simp at h
  · simp only [Option.some.injEq] at h
    subst h
    exact ⟨rfl, rfl⟩

theorem decrypt_driver_some (hc : Hardcode) (c : BAKSHEESH_CTX) (inp : List Nat) (L : Nat)
    (out : List Nat) (ol : Nat) (res : Result)
    (h : BAKSHEESH_CTX_decrypt hc (some c) (some inp) L (some out) ol = some res) :
    res.status = 0 ∧ res.output_len = L &&& (2 ^ 64 - 32) := by
  unfold BAKSHEESH_CTX_decrypt at h
  simp only at h
  split at h
  · simp at h
  · simp only [Option.some.injEq] at h
    subst h
    exact ⟨rfl, rfl⟩

theorem zeroCtx_valid (L : Nat) (hL : L < 2 ^ 64) :
    ValidCall sampleHardcode zeroCtx (List.replicate L 0) L (List.replicate L 0) := by
  refine ⟨sampleHardcode_WF, ⟨⟨by decide, by decide⟩, List.length_replicate _ _⟩, hL, ?_, ?_, ?_⟩
  · rw [List.length_replicate]; omega
  · intro v hv
    have := List.mem_of_mem_take hv
    rw [List.mem_replicate] at this
    rw [this.2]
    decide
  · rw [List.length_replicate]; omega

/-- C2. Alignment: for every `size_t` input length `L` and non-null `ctx`,
`input`, `output`, a call of `BAKSHEESH_CTX_encrypt` or `BAKSHEESH_CTX_decrypt`
that completes leaves `L & ~31` in `*output_len`; this value is `L - L % 32`, a
multiple of 32, at most `L` and less than 32 below `L`; and every valid call
completes, with that value. -/
theorem C2_alignment (hc : Hardcode) (ctx : BAKSHEESH_CTX) (inp out : List Nat) (L ol : Nat)
    (hL : L < 2 ^ 64) :
    (∀ res, BAKSHEESH_CTX_encrypt hc (some ctx) (some inp) L (some out) ol = some res
        ∨ BAKSHEESH_CTX_decrypt hc (some ctx) (some inp) L (some out) ol = some res →
        res.output_len = L &&& (2 ^ 64 - 32))
      ∧ L &&& (2 ^ 64 - 32) = L - L % 32
      ∧ (L - L % 32) % 32 = 0 ∧ L - L % 32 ≤ L ∧ L - (L - L % 32) < 32
      ∧ (ValidCall hc ctx inp L out →
          ∃ r1 r2, BAKSHEESH_CTX_encrypt hc (some ctx) (some inp) L (some out) ol = some r1
            ∧ r1.output_len = L - L % 32
            ∧ BAKSHEESH_CTX_decrypt hc (some ctx) (some inp) L (some out) ol = some r2
            ∧ r2.output_len = L - L % 32) := by
  refine ⟨?_, ALIGN_sub L hL, by omega, by omega, by omega, ?_⟩
  · intro res h
    rcases h with h | h
    · exact (encrypt_driver_some hc ctx inp L out ol res h).2
    · exact (decrypt_driver_some hc ctx inp L out ol res h).2
  · intro hv
    rcases encrypt_driver_total hc ctx inp L out ol hv with ⟨C, _, _, _, hC⟩
    rcases decrypt_driver_total hc ctx inp L out ol hv with ⟨D, _, _, _, hD⟩
    exact ⟨_, _, hC, by simp only; omega, hD, by simp only; omega⟩

/-- C2, instance: input length 40 on 40 zero bytes. -/
theorem C2_alignment_witness :
    ValidCall sampleHardcode zeroCtx (List.replicate 40 0) 40 (List.replicate 40 0)
      ∧ (∃ r1 r2, BAKSHEESH_CTX_encrypt sampleHardcode (some zeroCtx) (some (List.replicate 40 0))
            40 (some (List.replicate 40 0)) 0 = some r1
        ∧ r1.output_len = 40 - 40 % 32
        ∧ BAKSHEESH_CTX_decrypt sampleHardcode (some zeroCtx) (some (List.replicate 40 0))
            40 (some (List.replicate 40 0)) 0 = some r2
        ∧ r2.output_len = 40 - 40 % 32) :=
  ⟨zeroCtx_valid 40 (by decide),
    (C2_alignment sampleHardcode zeroCtx (List.replicate 40 0) (List.replicate 40 0) 40 0
      (by decide)).2.2.2.2.2 (zeroCtx_valid 40 (by decide))⟩

/-- C3. Failure semantics of the drivers: when any of `ctx`, `input`, `output`
is `NULL`, both drivers return -1 (and leave the output buffer and
`*output_len` as they were); when the three are present, whatever `input_len`
and `*output_len` are, a call that completes returns 0, and every valid call
completes with 0. -/
theorem C3_status (hc : Hardcode) (ctx : Option BAKSHEESH_CTX) (input : Option (List Nat))
    (L : Nat) (output : Option (List Nat)) (ol : Nat) :
    ((ctx = none ∨ input = none ∨ output = none) →
        BAKSHEESH_CTX_encrypt hc ctx input L output ol
            = some { status := -1, output := output, output_len := ol }
          ∧ BAKSHEESH_CTX_decrypt hc ctx input L output ol
            = some { status := -1, output := output, output_len := ol })
      ∧ (∀ c inp out, ctx = some c → input = some inp → output = some out →
          (∀ res, BAKSHEESH_CTX_encrypt hc ctx input L output ol = some res
              ∨ BAKSHEESH_CTX_decrypt hc ctx input L output ol = some res → res.status = 0)
          ∧ (ValidCall hc c inp L out →
              ∃ r1 r2, BAKSHEESH_CTX_encrypt hc ctx input L output ol = some r1
                ∧ r1.status = 0
                ∧ BAKSHEESH_CTX_decrypt hc ctx input L output ol = some r2
                ∧ r2.status = 0)) := by
  constructor
  · intro h
    cases ctx with
    | none => exact ⟨rfl, rfl⟩
    | some c =>
      cases input with
      | none => exact ⟨rfl, rfl⟩
      | some inp =>
        cases output with
        | none => exact ⟨rfl, rfl⟩
        | some out => simp at h
  · intro c inp out hc' hi ho
    subst hc' hi ho
    constructor
    · intro res h
      rcases h with h | h
      · exact (encrypt_driver_some hc c inp L out ol res h).1
      · exact (decrypt_driver_some hc c inp L out ol res h).1
    · intro hv
      rcases encrypt_driver_total hc c inp L out ol hv with ⟨C, _, _, _, hC⟩
      rcases decrypt_driver_total hc c inp L out ol hv with ⟨D, _, _, _, hD⟩
      exact ⟨_, _, hC, rfl, hD, rfl⟩

/-- C3, instance: a `NULL` input gives -1 and a valid call on 31 zero bytes gives 0. -/
theorem C3_status_witness :
    (BAKSHEESH_CTX_encrypt sampleHardcode (some zeroCtx) none 31 (some (List.replicate 31 0)) 7
        = some { status := -1, output := some (List.replicate 31 0), output_len := 7 }
      ∧ BAKSHEESH_CTX_decrypt sampleHardcode (some zeroCtx) none 31 (some (List.replicate 31 0)) 7
        = some { status := -1, output := some (List.replicate 31 0), output_len := 7 })
      ∧ ∃ r1 r2, BAKSHEESH_CTX_encrypt sampleHardcode (some zeroCtx) (some (List.replicate 31 0))
            31 (some (List.replicate 31 0)) 7 = some r1
          ∧ r1.status = 0
          ∧ BAKSHEESH_CTX_decrypt sampleHardcode (some zeroCtx) (some (List.replicate 31 0))
            31 (some (List.replicate 31 0)) 7 = some r2
          ∧ r2.status = 0 :=
  ⟨(C3_status sampleHardcode (some zeroCtx) none 31 (some (List.replicate 31 0)) 7).1
      (Or.inr (Or.inl rfl)),
    ((C3_status sampleHardcode (some zeroCtx) (some (List.replicate 31 0)) 31
      (some (List.replicate 31 0)) 7).2 zeroCtx (List.replicate 31 0) (List.replicate 31 0)
      rfl rfl rfl).2 (zeroCtx_valid 31 (by decide))⟩

/-! ### ECB -/

theorem encrypt_driver_blocks (hc : Hardcode) (ctx : BAKSHEESH_CTX) (inp out : List Nat)
    (L ol : Nat) (hL : L < 2 ^ 64) (res : Result)
    (h : BAKSHEESH_CTX_encrypt hc (some ctx) (some inp) L (some out) ol = some res) :
    ∃ cs, cs.length = 32 * (L / 32) ∧ 32 * (L / 32) ≤ out.length
      ∧ ecbCat (__baksheesh_encrypt hc ctx) inp (L / 32) 0 = some cs
      ∧ res = { status := 0, output := some (cs ++ out.drop (32 * (L / 32))),
                output_len := 32 * (L / 32) } := by
  rw [encrypt_driver_eq hc ctx inp L hL] at h
  cases hcs : ecbCat (__baksheesh_encrypt hc ctx) inp (L / 32) 0 with
  | none => rw [hcs] at h; simp at h
  | some cs =>
    rw [hcs] at h
    simp only [Option.some_bind] at h
    by_cases hcap : 32 * (L / 32) ≤ out.length
    · rw [if_pos hcap] at h
      exact ⟨cs, (ecbCat_spec _ inp (encrypt_length hc ctx) _ 0 cs hcs).1, hcap, rfl,
        (Option.some.inj h).symm⟩
    · rw [if_neg hcap] at h
      simp at h

/-- C4. ECB block-wise encryption: for every context and every input of `n`
32-byte blocks, when `BAKSHEESH_CTX_encrypt` completes, block `i` of its output
is the single-block encryption `__baksheesh_encrypt` of block `i` of the input,
for every `i < n`; it completes on every valid call (nibble key and input);
and the encryption of `A ++ B` for two blocks is the encryption of `A`
followed by that of `B`. -/
theorem C4_ecb (hc : Hardcode) (ctx : BAKSHEESH_CTX) (input out : List Nat) (ol n : Nat)
    (hin : input.length = 32 * n) (hsz : 32 * n < 2 ^ 64) :
    (∀ res, BAKSHEESH_CTX_encrypt hc (some ctx) (some input) (32 * n) (some out) ol = some res →
        ∃ o, res.output = some o
          ∧ ∀ i, i < n → __baksheesh_encrypt hc ctx (blk input i) = some (blk o i))
      ∧ (ValidCall hc ctx input (32 * n) out →
          ∃ res, BAKSHEESH_CTX_encrypt hc (some ctx) (some input) (32 * n) (some out) ol
            = some res)
      ∧ (∀ A B cA cB, input = A ++ B → A.length = 32 → B.length = 32 →
          __baksheesh_encrypt hc ctx A = some cA → __baksheesh_encrypt hc ctx B = some cB →
          64 ≤ out.length →
          BAKSHEESH_CTX_encrypt hc (some ctx) (some input) (32 * n) (some out) ol
            = some { status := 0, output := some (cA ++ cB ++ out.drop 64),
                     output_len := 64 }) := by
  have hdiv : 32 * n / 32 = n := by omega
  refine ⟨?_, ?_, ?_⟩
  · intro res h
    rcases encrypt_driver_blocks hc ctx input out (32 * n) ol hsz res h with
      ⟨cs, hlen, _, hcs, hres⟩
    rw [hdiv] at hlen hcs hres
    refine ⟨_, by rw [hres], ?_⟩
    intro i hi
    have h1 := (ecbCat_spec _ input (encrypt_length hc ctx) n 0 cs hcs).2 i hi
    rw [encrypt_blk] at h1
    rw [h1, blk_append cs _ i (by omega)]
  · intro hv
    rcases encrypt_driver_total hc ctx input (32 * n) out ol hv with ⟨C, _, _, _, hC⟩
    exact ⟨_, hC⟩
  · intro A B cA cB hAB hA hB hcA hcB hcap
    have hn : n = 2 := by
      rw [hAB, List.length_append, hA, hB] at hin
      omega
    subst hn
    have hlA := encrypt_length hc ctx A cA hcA
    have hlB := encrypt_length hc ctx B cB hcB
    have hcat : ecbCat (__baksheesh_encrypt hc ctx) input 2 0 = some (cA ++ cB) := by
      apply ecbCat_build _ _ 2 0 _ (by rw [List.length_append, hlA, hlB])
      intro k hk
      rw [encrypt_blk]
      have hk2 : k = 0 ∨ k = 1 := by omega
      rcases hk2 with rfl | rfl
      · have e1 : blk input 0 = A := by
          unfold blk
          rw [hAB]
          simp only [Nat.mul_zero, List.drop_zero]
          exact List.take_left' hA
        have e2 : blk (cA ++ cB) 0 = cA := by
          unfold blk
          simp only [Nat.mul_zero, List.drop_zero]
          exact List.take_left' hlA
        rw [e1, e2, hcA]
      · have e1 : blk input 1 = B := by
          unfold blk
          rw [hAB, List.drop_left' (by rw [hA]), List.take_of_length_le (by rw [hB])]
        have e2 : blk (cA ++ cB) 1 = cB := by
          unfold blk
          rw [List.drop_left' (by rw [hlA]), List.take_of_length_le (by rw [hlB])]
        rw [e1, e2, hcB]
    rw [encrypt_driver_eq hc ctx input (32 * 2) hsz, hdiv, hcat]
    simp only [Option.some_bind]
    rw [if_pos hcap]

/-- C4, instance: two zero blocks under the zero context. -/
theorem C4_ecb_witness :
    ∃ res, BAKSHEESH_CTX_encrypt sampleHardcode (some zeroCtx) (some (List.replicate 64 0))
      (32 * 2) (some (List.replicate 64 0)) 0 = some res :=
  (C4_ecb sampleHardcode zeroCtx (List.replicate 64 0) (List.replicate 64 0) 0 2
    (by decide) (by decide)).2.1 (zeroCtx_valid 64 (by decide))

/-! ### Exchange of blocks -/

theorem swapIdx_lt (i j p n : Nat) (hi : i < n) (hj : j < n) (hp : p < 32 * n) :
    swapIdx i j p < 32 * n := by
  unfold swapIdx
  split
  · omega
  · split <;> omega

theorem swapIdx_invol (i j p : Nat) : swapIdx i j (swapIdx i j p) = p := by
  unfold swapIdx
  split_ifs <;> omega

theorem swapIdx_high (i j p n : Nat) (hi : i < n) (hj : j < n) (hp : 32 * n ≤ p) :
    swapIdx i j p = p := by
  unfold swapIdx
  split_ifs <;> omega

theorem swapBlocks_length (i j : Nat) (xs : List Nat) : (swapBlocks i j xs).length = xs.length := by
  simp [swapBlocks]

theorem swapBlocks_getElem? (i j : Nat) (xs : List Nat) (p : Nat) (hp : p < xs.length) :
    (swapBlocks i j xs)[p]? = some (xs.getD (swapIdx i j p) 0) := by
  simp [swapBlocks, List.getElem?_map, List.getElem?_range hp]

theorem swapBlocks_invol (i j n : Nat) (hi : i < n) (hj : j < n) (xs : List Nat)
    (hx : 32 * n ≤ xs.length) : swapBlocks i j (swapBlocks i j xs) = xs := by
  apply List.ext_getElem?
  intro p
  by_cases hp : p < xs.length
  · rw [swapBlocks_getElem? i j _ p (by rw [swapBlocks_length]; exact hp)]
    have hq : swapIdx i j p < xs.length := by
      by_cases hp2 : p < 32 * n
      · have := swapIdx_lt i j p n hi hj hp2
        omega
      · rw [swapIdx_high i j p n hi hj (by omega)]
        exact hp
    rw [List.getD_eq_getElem?_getD, swapBlocks_getElem? i j xs _ hq, swapIdx_invol]
    simp [List.getD_eq_getElem?_getD, List.getElem?_eq_getElem hp]
  · rw [List.getElem?_eq_none (by rw [swapBlocks_length, swapBlocks_length]; omega),
      List.getElem?_eq_none (by omega)]

theorem swapBlocks_append (i j n : Nat) (hi : i < n) (hj : j < n) (cs rest : List Nat)
    (hcs : cs.length = 32 * n) : swapBlocks i j (cs ++ rest) = swapBlocks i j cs ++ rest := by
  apply List.ext_getElem?
  intro p
  by_cases hp : p < (cs ++ rest).length
  · rw [swapBlocks_getElem? i j _ p hp]
    by_cases hp2 : p < cs.length
    · have hq : swapIdx i j p < cs.length := by
        rw [hcs]; exact swapIdx_lt i j p n hi hj (by omega)
      rw [List.getElem?_append_left (by rw [swapBlocks_length]; exact hp2),
        swapBlocks_getElem? i j cs p hp2, List.getD_eq_getElem?_getD,
        List.getElem?_append_left hq, List.getD_eq_getElem?_getD]
    · rw [swapIdx_high i j p n hi hj (by omega),
        List.getElem?_append_right (by rw [swapBlocks_length]; omega), swapBlocks_length,
        List.getD_eq_getElem?_getD, List.getElem?_append_right (by omega)]
      have hr : p - cs.length < rest.length := by
        rw [List.length_append] at hp
        omega
      simp [List.getElem?_eq_getElem hr]
  · rw [List.getElem?_eq_none (by rw [swapBlocks_length]; omega),
      List.getElem?_eq_none (by
        rw [List.length_append, swapBlocks_length]
        rw [List.length_append] at hp
        omega)]

theorem blk_getElem? (xs : List Nat) (k t : Nat) (ht : t < 32) :
    (blk xs k)[t]? = xs[32 * k + t]? := by
  unfold blk
  rw [List.getElem?_take_of_lt ht, List.getElem?_drop]

theorem blk_getElem?_none (xs : List Nat) (k t : Nat) (ht : ¬ t < 32) :
    (blk xs k)[t]? = none := by
  unfold blk
  exact List.getElem?_take_eq_none (by omega)

theorem blk_swapBlocks (i j n : Nat) (hi : i < n) (hj : j < n) (xs : List Nat)
    (hx : 32 * n ≤ xs.length) (k : Nat) (hk : k < n) :
    blk (swapBlocks i j xs) k = blk xs (if k = i then j else if k = j then i else k) := by
  apply List.ext_getElem?
  intro t
  by_cases ht : t < 32
  · rw [blk_getElem? _ k t ht, blk_getElem? _ _ t ht,
      swapBlocks_getElem? i j xs _ (by omega)]
    have hidx : swapIdx i j (32 * k + t)
        = 32 * (if k = i then j else if k = j then i else k) + t := by
      unfold swapIdx
      have e1 : (32 * k + t) / 32 = k := by omega
      have e2 : (32 * k + t) % 32 = t := by omega
      rw [e1, e2]
      split_ifs <;> rfl
    rw [hidx]
    have hlt : 32 * (if k = i then j else if k = j then i else k) + t < xs.length := by
      split_ifs <;> omega
    exact (getElem?_eq_getD hlt).symm
  · rw [blk_getElem?_none _ k t ht, blk_getElem?_none _ _ t ht]

theorem ecbCat_swap (block : List Nat → Option (List Nat))
    (hloc : ∀ xs k, block (xs.drop (0 + 32 * k)) = block (blk xs k))
    (hlen : ∀ s c, block s = some c → c.length = 32) (i j n : Nat) (hi : i < n) (hj : j < n)
    (input cs : List Nat) (hin : 32 * n ≤ input.length)
    (h : ecbCat block input n 0 = some cs) :
    ecbCat block (swapBlocks i j input) n 0 = some (swapBlocks i j cs) := by
  have hspec := ecbCat_spec block input hlen n 0 cs h
  apply ecbCat_build block _ n 0 _ (by rw [swapBlocks_length]; exact hspec.1)
  intro k hk
  have hs : (if k = i then j else if k = j then i else k) < n := by
    split_ifs <;> omega
  rw [hloc, blk_swapBlocks i j n hi hj input hin k hk,
    blk_swapBlocks i j n hi hj cs (by rw [hspec.1]) k hk, ← hloc]
  exact hspec.2 _ hs

/-- C5. Independence of blocks: for every context, every input of `n` 32-byte
blocks and all `i, j < n`, `BAKSHEESH_CTX_encrypt` on the input with blocks `i`
and `j` exchanged gives what it gives on the input itself, with blocks `i` and
`j` of the output exchanged (and does not complete when it does not complete
on the input itself); on a valid call it completes. -/
theorem C5_swap (hc : Hardcode) (ctx : BAKSHEESH_CTX) (input out : List Nat) (ol n i j : Nat)
    (hin : input.length = 32 * n) (hsz : 32 * n < 2 ^ 64) (hi : i < n) (hj : j < n) :
    BAKSHEESH_CTX_encrypt hc (some ctx) (some (swapBlocks i j input)) (32 * n) (some out) ol
        = (BAKSHEESH_CTX_encrypt hc (some ctx) (some input) (32 * n) (some out) ol).map
            (fun res => { status := res.status, output := res.output.map (swapBlocks i j),
                          output_len := res.output_len })
      ∧ (ValidCall hc ctx input (32 * n) out →
          ∃ res, BAKSHEESH_CTX_encrypt hc (some ctx) (some input) (32 * n) (some out) ol
            = some res) := by
  have hdiv : 32 * n / 32 = n := by omega
  constructor
  · rw [encrypt_driver_eq hc ctx _ (32 * n) hsz, encrypt_driver_eq hc ctx _ (32 * n) hsz, hdiv]
    cases hcs : ecbCat (__baksheesh_encrypt hc ctx) input n 0 with
    | none =>
      cases hcs2 : ecbCat (__baksheesh_encrypt hc ctx) (swapBlocks i j input) n 0 with
      | none => rfl
      | some cs2 =>
        have h2 := ecbCat_swap _ (encrypt_blk hc ctx) (encrypt_length hc ctx) i j n hi hj
          (swapBlocks i j input) cs2 (by rw [swapBlocks_length, hin]) hcs2
        rw [swapBlocks_invol i j n hi hj input (by rw [hin]), hcs] at h2
        simp at h2
    | some cs =>
      have h1 := ecbCat_swap _ (encrypt_blk hc ctx) (encrypt_length hc ctx) i j n hi hj
        input cs (by rw [hin]) hcs
      have hl := (ecbCat_spec _ input (encrypt_length hc ctx) n 0 cs hcs).1
      rw [h1]
      simp only [Option.some_bind]
      by_cases hcap : 32 * n ≤ out.length
      · rw [if_pos hcap, if_pos hcap]
        simp only [Option.map_some', swapBlocks_append i j n hi hj cs _ hl]
      · rw [if_neg hcap, if_neg hcap]
        rfl
  · intro hv
    rcases encrypt_driver_total hc ctx input (32 * n) out ol hv with ⟨C, _, _, _, hC⟩
    exact ⟨_, hC⟩

/-- C5, instance: three blocks, the first and the last exchanged. -/
theorem C5_swap_witness :
    BAKSHEESH_CTX_encrypt sampleHardcode (some zeroCtx)
        (some (swapBlocks 0 2
          (List.replicate 32 1 ++ List.replicate 32 2 ++ List.replicate 32 3)))
        (32 * 3) (some (List.replicate 96 0)) 0
      = (BAKSHEESH_CTX_encrypt sampleHardcode (some zeroCtx)
          (some (List.replicate 32 1 ++ List.replicate 32 2 ++ List.replicate 32 3))
          (32 * 3) (some (List.replicate 96 0)) 0).map
          (fun res => { status := res.status, output := res.output.map (swapBlocks 0 2),
                        output_len := res.output_len }) :=
  (C5_swap sampleHardcode zeroCtx
    (List.replicate 32 1 ++ List.replicate 32 2 ++ List.replicate 32 3)
    (List.replicate 96 0) 0 3 0 2 (by decide) (by decide) (by decide) (by decide)).1

theorem nibble_high_zero (v : Nat) (hv : v < 16) : v &&& 0xF0 = 0 := by
  revert v
  decide

theorem aligned_byte (C rest : List Nat) (p : Nat) (hp : p < C.length)
    (hC : ∀ v, v ∈ C → v < 16) : ∃ v, (C ++ rest)[p]? = some v ∧ v &&& 0xF0 = 0 := by
  refine ⟨C[p], ?_, nibble_high_zero _ (hC _ (List.getElem_mem hp))⟩
  rw [List.getElem?_append_left hp, List.getElem?_eq_getElem hp]

/-- C6. Nibble-safety of the output: on a call whose key bytes and input bytes
(of the aligned prefix) are all in 0..15, `BAKSHEESH_CTX_encrypt` and
`BAKSHEESH_CTX_decrypt` complete and each of the first `output_len` bytes of
the output buffer has its high four bits zero. -/
theorem C6_nibble_output (hc : Hardcode) (ctx : BAKSHEESH_CTX) (inp out : List Nat) (L ol : Nat)
    (hv : ValidCall hc ctx inp L out) :
    (∃ res o, BAKSHEESH_CTX_encrypt hc (some ctx) (some inp) L (some out) ol = some res
        ∧ res.output = some o
        ∧ ∀ p, p < res.output_len → ∃ v, o[p]? = some v ∧ v &&& 0xF0 = 0)
      ∧ (∃ res o, BAKSHEESH_CTX_decrypt hc (some ctx) (some inp) L (some out) ol = some res
        ∧ res.output = some o
        ∧ ∀ p, p < res.output_len → ∃ v, o[p]? = some v ∧ v &&& 0xF0 = 0) := by
  constructor
  · rcases encrypt_driver_total hc ctx inp L out ol hv with ⟨C, hl, hn, _, hC⟩
    exact ⟨_, _, hC, rfl, fun p hp => aligned_byte C _ p (by rw [hl]; exact hp) hn⟩
  · rcases decrypt_driver_total hc ctx inp L out ol hv with ⟨D, hl, hn, _, hD⟩
    exact ⟨_, _, hD, rfl, fun p hp => aligned_byte D _ p (by rw [hl]; exact hp) hn⟩

/-- C6, instance: 64 zero bytes under the zero context. -/
theorem C6_nibble_output_witness :
    (∃ res o, BAKSHEESH_CTX_encrypt sampleHardcode (some zeroCtx) (some (List.replicate 64 0)) 64
          (some (List.replicate 64 0)) 0 = some res
        ∧ res.output = some o
        ∧ ∀ p, p < res.output_len → ∃ v, o[p]? = some v ∧ v &&& 0xF0 = 0)
      ∧ (∃ res o, BAKSHEESH_CTX_decrypt sampleHardcode (some zeroCtx) (some (List.replicate 64 0))
          64 (some (List.replicate 64 0)) 0 = some res
        ∧ res.output = some o
        ∧ ∀ p, p < res.output_len → ∃ v, o[p]? = some v ∧ v &&& 0xF0 = 0) :=
  C6_nibble_output sampleHardcode zeroCtx (List.replicate 64 0) (List.replicate 64 0) 64 0
    (zeroCtx_valid 64 (by decide))

/-- C7. The tables `SBox` and `InvSBox` are mutually inverse bijections on
0..15: for `x` in 0..15 both lookups succeed with a value in 0..15,
`InvSBox[SBox[x]] = x` and `SBox[InvSBox[x]] = x`. -/
theorem C7_sbox_inverse (x : Nat) (hx : x < 16) :
    ∃ s t, SBox[x]? = some s ∧ s < 16 ∧ InvSBox[s]? = some x
      ∧ InvSBox[x]? = some t ∧ t < 16 ∧ SBox[t]? = some x := by
  have hS := SBox_lookup x hx
  have hI := InvSBox_lookup x hx
  have hS2 := InvSBox_lookup _ hS.2.1
  have hI2 := SBox_lookup _ hI.2.1
  refine ⟨SBox.getD x 0, InvSBox.getD x 0, hS.1, hS.2.1, ?_, hI.1, hI.2.1, ?_⟩
  · rw [hS2.1, hS.2.2]
  · rw [hI2.1, hI.2.2]

/-- C7, instance: `x = 3`, with `SBox[3] = 13` and `InvSBox[3] = 0`. -/
theorem C7_sbox_inverse_witness :
    ∃ s t, SBox[3]? = some s ∧ s < 16 ∧ InvSBox[s]? = some 3
      ∧ InvSBox[3]? = some t ∧ t < 16 ∧ SBox[t]? = some 3 :=
  C7_sbox_inverse 3 (by decide)

theorem permPure_bit (T : Nat → Nat) (hT : ∀ i, i < 128 → T i < 128)
    (hinj : ∀ i, i < 128 → ∀ j, j < 128 → T i = T j → i = j) (x : List Nat) (i : Nat)
    (hi : i < 128) : srcBit (permPure T x) (T i) = srcBit x i := by
  have hTi := hT i hi
  have hiff : srcBit (permPure T x) (T i) = 1 ↔ srcBit x i = 1 := by
    rw [srcBit_eq_one_iff, permPure_testBit T x _ _ (by omega)]
    constructor
    · rintro ⟨i2, hi2, h1, h2, h3⟩
      have : T i2 = T i := by omega
      rw [hinj i2 hi2 i hi this] at h3
      exact h3
    · intro h
      exact ⟨i, hi, rfl, rfl, h⟩
  have h1 := srcBit_le_one (permPure T x) (T i)
  have h2 := srcBit_le_one x i
  by_cases h : srcBit x i = 1
  · rw [h, hiff.mpr h]
  · have h3 : ¬ srcBit (permPure T x) (T i) = 1 := fun h4 => h (hiff.mp h4)
    omega

/-- C8. Permutation bijection, for every table `P` that the specification
allows: `P` and the inverse table applied by InvPermBits are bijections on the
bit positions 0..127 (every position has exactly one preimage), and on every
block of 32 nibbles PermBits (`PBOX_HC` into a zeroed buffer) moves bit `i` to
bit `P(i)` and InvPermBits (`INV_PBOX_HC` into a zeroed buffer) then returns
the block. -/
theorem C8_perm_bijection (hc : Hardcode) (hwf : hc.WF) :
    (∀ i, i < 128 → hc.P i < 128)
      ∧ (∀ j, j < 128 → ∃ i, i < 128 ∧ hc.P i = j ∧ ∀ i2, i2 < 128 → hc.P i2 = j → i2 = i)
      ∧ (∀ j, j < 128 → hc.invP j < 128)
      ∧ (∀ i, i < 128 →
          ∃ j, j < 128 ∧ hc.invP j = i ∧ ∀ j2, j2 < 128 → hc.invP j2 = i → j2 = j)
      ∧ (∀ x, IsBlock x →
          ∃ y, PBOX_HC hc (List.replicate 32 0) x = some y ∧ IsBlock y
            ∧ (∀ i, i < 128 → srcBit y (hc.P i) = srcBit x i)
            ∧ INV_PBOX_HC hc (List.replicate 32 0) y = some x) := by
  refine ⟨hwf.P_lt, ?_, fun j hj => (invP_spec hc hwf j hj).1, ?_, ?_⟩
  · intro j hj
    rcases P_surj hc hwf j hj with ⟨i, hi, hP⟩
    exact ⟨i, hi, hP, fun i2 hi2 h2 => hwf.P_inj i2 hi2 i hi (by rw [h2, hP])⟩
  · intro i hi
    refine ⟨hc.P i, hwf.P_lt i hi, invP_P hc hwf i hi, ?_⟩
    intro j2 hj2 h2
    exact invP_inj hc hwf j2 hj2 _ (hwf.P_lt i hi) (by rw [h2, invP_P hc hwf i hi])
  · intro x hx
    refine ⟨permPure hc.P x, PBOX_HC_eq hc hwf x (by rw [hx.1]), permPure_isBlock _ _,
      fun i hi => permPure_bit hc.P hwf.P_lt hwf.P_inj x i hi, ?_⟩
    rw [INV_PBOX_HC_eq hc hwf _ (by rw [(permPure_isBlock hc.P x).1]), perm_roundtrip hc hwf x hx]

/-- C8, instance: the GIFT-128 permutation on the block of nibbles `0, 1, .., 15, 0, .., 15`. -/
theorem C8_perm_bijection_witness :
    ∃ y, PBOX_HC sampleHardcode (List.replicate 32 0)
          ((List.range 32).map (fun i => i % 16)) = some y ∧ IsBlock y
      ∧ (∀ i, i < 128 →
          srcBit y (sampleHardcode.P i) = srcBit ((List.range 32).map (fun i => i % 16)) i)
      ∧ INV_PBOX_HC sampleHardcode (List.replicate 32 0) y
          = some ((List.range 32).map (fun i => i % 16)) :=
  (C8_perm_bijection sampleHardcode sampleHardcode_WF).2.2.2.2
    ((List.range 32).map (fun i => i % 16)) ⟨by decide, by decide⟩

/-! ### Key schedule -/

theorem keyLoop_blk (hc : Hardcode)
    (hshift : ∀ k : List Nat, k.length = 32 → (hc.RIGHT_SHIFT_KEY k).length = 32) :
    ∀ (n : Nat) (p : List Nat), p.length = 32 → ∀ r, r < n →
      blk (keyLoop hc n p) r = Nat.iterate hc.RIGHT_SHIFT_KEY (r + 1) p := by
  intro n
  induction n with
  | zero => intro p _ r hr; exact absurd hr (Nat.not_lt_zero r)
  | succ n ih =>
    intro p hp r hr
    have htake : p.take 32 = p := List.take_of_length_le (by rw [hp])
    have hs : (hc.RIGHT_SHIFT_KEY p).length = 32 := hshift p hp
    simp only [keyLoop, htake]
    cases r with
    | zero =>
      unfold blk
      simp only [Nat.mul_zero, List.drop_zero]
      rw [List.take_left' hs]
      rfl
    | succ r =>
      have e : blk (hc.RIGHT_SHIFT_KEY p ++ keyLoop hc n (hc.RIGHT_SHIFT_KEY p)) (r + 1)
          = blk (keyLoop hc n (hc.RIGHT_SHIFT_KEY p)) r := by
        unfold blk
        have e2 : 32 * (r + 1) = (hc.RIGHT_SHIFT_KEY p).length + 32 * r := by omega
        rw [e2, List.drop_append]
      rw [e, ih _ hs r (Nat.lt_of_succ_lt_succ hr)]
      rfl

/-- C9. Key schedule: for every 32-byte key `K`, `BAKSHEESH_CTX_new(K)` (when
the allocation succeeds) stores `K` unchanged as master key, and for
`r = 0..34` entry `r` of the round-key table (bytes `32r..32r+31` of
`shifted_keys`) is `RIGHT_SHIFT_KEY` applied `r + 1` times to `K`; the table
has `32 * 35` bytes, and contexts built from equal keys are equal. -/
theorem C9_key_schedule (hc : Hardcode)
    (hshift : ∀ k : List Nat, k.length = 32 → (hc.RIGHT_SHIFT_KEY k).length = 32)
    (K : List Nat) (hK : K.length = 32) :
    ∃ ctx, BAKSHEESH_CTX_new hc true K = some ctx ∧ ctx.key = K
      ∧ ctx.shifted_keys.length = 32 * ROUND
      ∧ (∀ r, r < ROUND → blk ctx.shifted_keys r = Nat.iterate hc.RIGHT_SHIFT_KEY (r + 1) K)
      ∧ (∀ K2 ctx2, K2 = K → BAKSHEESH_CTX_new hc true K2 = some ctx2 →
          ctx2.key = ctx.key ∧ ctx2.shifted_keys = ctx.shifted_keys) := by
  refine ⟨{ key := K.take 32, shifted_keys := keyLoop hc ROUND K }, rfl,
    List.take_of_length_le (by rw [hK]), keyLoop_length hc hshift ROUND K (by rw [hK]),
    keyLoop_blk hc hshift ROUND K hK, ?_⟩
  intro K2 ctx2 hK2 h2
  subst hK2
  simp only [BAKSHEESH_CTX_new, if_true, Option.some.injEq] at h2
  subst h2
  exact ⟨rfl, rfl⟩

/-- C9, instance: the key `0, 1, .., 15, 0, .., 15` under the one-bit rotation. -/
theorem C9_key_schedule_witness :
    ∃ ctx, BAKSHEESH_CTX_new sampleHardcode true ((List.range 32).map (fun i => i % 16))
        = some ctx
      ∧ ctx.key = (List.range 32).map (fun i => i % 16)
      ∧ ctx.shifted_keys.length = 32 * ROUND
      ∧ (∀ r, r < ROUND → blk ctx.shifted_keys r
          = Nat.iterate sampleHardcode.RIGHT_SHIFT_KEY (r + 1)
              ((List.range 32).map (fun i => i % 16)))
      ∧ (∀ K2 ctx2, K2 = (List.range 32).map (fun i => i % 16) →
          BAKSHEESH_CTX_new sampleHardcode true K2 = some ctx2 →
          ctx2.key = ctx.key ∧ ctx2.shifted_keys = ctx.shifted_keys) :=
  C9_key_schedule sampleHardcode sampleHardcode_WF.shift_length
    ((List.range 32).map (fun i => i % 16)) (by decide)

/-! ### Truncation -/

theorem blk_of_take_eq (xs ys : List Nat) (M k : Nat) (h : xs.take M = ys.take M)
    (hk : 32 * (k + 1) ≤ M) : blk xs k = blk ys k := by
  unfold blk
  rw [List.take_drop, List.take_drop]
  have e : ∀ zs : List Nat, zs.take (32 * k + 32) = (zs.take M).take (32 * k + 32) := by
    intro zs
    rw [List.take_take, Nat.min_eq_left (by omega)]
  rw [e xs, e ys, h]

theorem ecbCat_of_take_eq (block : List Nat → Option (List Nat))
    (hloc : ∀ xs k, block (xs.drop (0 + 32 * k)) = block (blk xs k)) (in1 in2 : List Nat)
    (n : Nat) (h : in1.take (32 * n) = in2.take (32 * n)) :
    ecbCat block in1 n 0 = ecbCat block in2 n 0 := by
  apply ecbCat_congr
  intro k hk
  rw [hloc, hloc, blk_of_take_eq in1 in2 (32 * n) k h (by
    have : k + 1 ≤ n := hk
    exact Nat.mul_le_mul_left 32 this)]

/-- C10. Silent truncation: for every context and every two inputs that agree
on their first `L & ~31` bytes, `BAKSHEESH_CTX_encrypt` and
`BAKSHEESH_CTX_decrypt` called with input length `L` behave alike on both: the
same status, the same `*output_len` and the same output bytes (or neither call
completes); the input bytes from position `L & ~31` on have no influence.  On
a valid call the status is 0 and `*output_len` is `L & ~31`. -/
theorem C10_truncation (hc : Hardcode) (ctx : Option BAKSHEESH_CTX) (in1 in2 : List Nat)
    (L : Nat) (output : Option (List Nat)) (ol : Nat) (hL : L < 2 ^ 64)
    (hagree : in1.take (L &&& (2 ^ 64 - 32)) = in2.take (L &&& (2 ^ 64 - 32))) :
    BAKSHEESH_CTX_encrypt hc ctx (some in1) L output ol
        = BAKSHEESH_CTX_encrypt hc ctx (some in2) L output ol
      ∧ BAKSHEESH_CTX_decrypt hc ctx (some in1) L output ol
        = BAKSHEESH_CTX_decrypt hc ctx (some in2) L output ol
      ∧ (∀ c out, ctx = some c → output = some out → ValidCall hc c in1 L out →
          ∃ r1 r2, BAKSHEESH_CTX_encrypt hc ctx (some in1) L output ol = some r1
            ∧ r1.status = 0 ∧ r1.output_len = L &&& (2 ^ 64 - 32)
            ∧ BAKSHEESH_CTX_decrypt hc ctx (some in1) L output ol = some r2
            ∧ r2.status = 0 ∧ r2.output_len = L &&& (2 ^ 64 - 32)) := by
  have hal : L &&& (2 ^ 64 - 32) = 32 * (L / 32) := ALIGN_eq L hL
  rw [hal] at hagree
  refine ⟨?_, ?_, ?_⟩
  · cases ctx with
    | none => rfl
    | some c =>
      cases output with
      | none => rfl
      | some out =>
        rw [encrypt_driver_eq hc c in1 L hL, encrypt_driver_eq hc c in2 L hL,
          ecbCat_of_take_eq _ (encrypt_blk hc c) in1 in2 (L / 32) hagree]
  · cases ctx with
    | none => rfl
    | some c =>
      cases output with
      | none => rfl
      | some out =>
        rw [decrypt_driver_eq hc c in1 L hL, decrypt_driver_eq hc c in2 L hL,
          ecbCat_of_take_eq _ (decrypt_blk hc c) in1 in2 (L / 32) hagree]
  · intro c out hc' ho hv
    subst hc' ho
    rcases encrypt_driver_total hc c in1 L out ol hv with ⟨C, _, _, _, hC⟩
    rcases decrypt_driver_total hc c in1 L out ol hv with ⟨D, _, _, _, hD⟩
    exact ⟨_, _, hC, rfl, hal.symm, hD, rfl, hal.symm⟩

/-- C10, instance: input length 40; two inputs that differ in their last 8
bytes give the same result, with `*output_len = 32`. -/
theorem C10_truncation_witness :
    BAKSHEESH_CTX_encrypt sampleHardcode (some zeroCtx) (some (List.replicate 40 0)) 40
        (some (List.replicate 40 0)) 0
      = BAKSHEESH_CTX_encrypt sampleHardcode (some zeroCtx)
          (some (List.replicate 32 0 ++ List.replicate 8 9)) 40 (some (List.replicate 40 0)) 0
      ∧ ∃ r1, BAKSHEESH_CTX_encrypt sampleHardcode (some zeroCtx) (some (List.replicate 40 0)) 40
          (some (List.replicate 40 0)) 0 = some r1 ∧ r1.status = 0 ∧ r1.output_len = 32 := by
  have h := C10_truncation sampleHardcode (some zeroCtx) (List.replicate 40 0)
    (List.replicate 32 0 ++ List.replicate 8 9) 40 (some (List.replicate 40 0)) 0
    (by decide) (by decide)
  refine ⟨h.1, ?_⟩
  rcases h.2.2 zeroCtx (List.replicate 40 0) rfl rfl (zeroCtx_valid 40 (by decide)) with
    ⟨r1, _, h1, hs, hl, _⟩
  exact ⟨r1, h1, hs, hl⟩

/-! ## What a completed loop has read -/

theorem fillFrom_get (f : Nat → Option Nat) :
    ∀ (n i : Nat) (l : List Nat), fillFrom f n i = some l → ∀ k, k < n → f (i + k) = l[k]? := by
  intro n
  induction n with
  | zero => intro i l _ k hk; exact absurd hk (Nat.not_lt_zero k)
  | succ n ih =>
    intro i l h k hk
    unfold fillFrom at h
    split at h
    · rename_i v vs hv hvs
      simp only [Option.some.injEq] at h
      subst h
      cases k with
      | zero => simpa using hv
      | succ k =>
        have := ih (i + 1) vs hvs k (Nat.lt_of_succ_lt_succ hk)
        have e : i + (k + 1) = i + 1 + k := by omega
        rw [e, this]
        simp
    · simp at h

theorem fill32_get (f : Nat → Option Nat) (l : List Nat) (h : fill32 f = some l) (k : Nat)
    (hk : k < 32) : f k = l[k]? := by
  have := fillFrom_get f 32 0 l h k hk
  simpa using this

theorem fill32_none (f : Nat → Option Nat) (k : Nat) (hk : k < 32) (h : f k = none) :
    fill32 f = none := by
  cases hf : fill32 f with
  | none => rfl
  | some l =>
    have h1 := fill32_get f l hf k hk
    have h2 := fill32_length f l hf
    rw [h, List.getElem?_eq_getElem (by omega)] at h1
    simp at h1

/-! ### Output frame -/

theorem decrypt_driver_blocks (hc : Hardcode) (ctx : BAKSHEESH_CTX) (inp out : List Nat)
    (L ol : Nat) (hL : L < 2 ^ 64) (res : Result)
    (h : BAKSHEESH_CTX_decrypt hc (some ctx) (some inp) L (some out) ol = some res) :
    ∃ cs, cs.length = 32 * (L / 32) ∧ 32 * (L / 32) ≤ out.length
      ∧ ecbCat (__baksheesh_decrypt hc ctx) inp (L / 32) 0 = some cs
      ∧ res = { status := 0, output := some (cs ++ out.drop (32 * (L / 32))),
                output_len := 32 * (L / 32) } := by
  rw [decrypt_driver_eq hc ctx inp L hL] at h
  cases hcs : ecbCat (__baksheesh_decrypt hc ctx) inp (L / 32) 0 with
  | none => rw [hcs] at h; simp at h
  | some cs =>
    rw [hcs] at h
    simp only [Option.some_bind] at h
    by_cases hcap : 32 * (L / 32) ≤ out.length
    · rw [if_pos hcap] at h
      exact ⟨cs, (ecbCat_spec _ inp (decrypt_length hc ctx) _ 0 cs hcs).1, hcap, rfl,
        (Option.some.inj h).symm⟩
    · rw [if_neg hcap] at h
      simp at h

theorem frame_tail (cs out : List Nat) (M : Nat) (hcs : cs.length = M) (hM : M ≤ out.length) :
    (cs ++ out.drop M).length = out.length
      ∧ ∀ p, M ≤ p → (cs ++ out.drop M)[p]? = out[p]? := by
  constructor
  · rw [List.length_append, List.length_drop, hcs]
    omega
  · intro p hp
    rw [List.getElem?_append_right (by omega), List.getElem?_drop, hcs]
    congr 1
    omega

/-- C11. Output frame: after a call of `BAKSHEESH_CTX_encrypt` or
`BAKSHEESH_CTX_decrypt` with input length `L` that completes, the output buffer
has its length and every byte at a position `>= L & ~31` keeps the value it had
before the call; for `L < 32` the call completes with status 0, `*output_len`
0 and the output buffer unchanged; every valid call completes. -/
theorem C11_output_frame (hc : Hardcode) (ctx : BAKSHEESH_CTX) (inp out : List Nat) (L ol : Nat)
    (hL : L < 2 ^ 64) :
    (∀ res, BAKSHEESH_CTX_encrypt hc (some ctx) (some inp) L (some out) ol = some res
        ∨ BAKSHEESH_CTX_decrypt hc (some ctx) (some inp) L (some out) ol = some res →
        ∃ o, res.output = some o ∧ o.length = out.length
          ∧ ∀ p, L &&& (2 ^ 64 - 32) ≤ p → o[p]? = out[p]?)
      ∧ (L < 32 →
          BAKSHEESH_CTX_encrypt hc (some ctx) (some inp) L (some out) ol
              = some { status := 0, output := some out, output_len := 0 }
            ∧ BAKSHEESH_CTX_decrypt hc (some ctx) (some inp) L (some out) ol
              = some { status := 0, output := some out, output_len := 0 })
      ∧ (ValidCall hc ctx inp L out →
          ∃ r1 r2, BAKSHEESH_CTX_encrypt hc (some ctx) (some inp) L (some out) ol = some r1
            ∧ BAKSHEESH_CTX_decrypt hc (some ctx) (some inp) L (some out) ol = some r2) := by
  have hal : L &&& (2 ^ 64 - 32) = 32 * (L / 32) := ALIGN_eq L hL
  refine ⟨?_, ?_, ?_⟩
  · intro res h
    rw [hal]
    rcases h with h | h
    · rcases encrypt_driver_blocks hc ctx inp out L ol hL res h with ⟨cs, hl, hcap, _, hres⟩
      have hf := frame_tail cs out _ hl hcap
      exact ⟨_, by rw [hres], hf.1, hf.2⟩
    · rcases decrypt_driver_blocks hc ctx inp out L ol hL res h with ⟨cs, hl, hcap, _, hres⟩
      have hf := frame_tail cs out _ hl hcap
      exact ⟨_, by rw [hres], hf.1, hf.2⟩
  · intro h32
    have hdiv : L / 32 = 0 := by omega
    rw [encrypt_driver_eq hc ctx inp L hL, decrypt_driver_eq hc ctx inp L hL, hdiv]
    simp [ecbCat]
  · intro hv
    rcases encrypt_driver_total hc ctx inp L out ol hv with ⟨C, _, _, _, hC⟩
    rcases decrypt_driver_total hc ctx inp L out ol hv with ⟨D, _, _, _, hD⟩
    exact ⟨_, _, hC, hD⟩

/-- C11, instance: input length 31, output buffer of 31 bytes of value 7. -/
theorem C11_output_frame_witness :
    BAKSHEESH_CTX_encrypt sampleHardcode (some zeroCtx) (some (List.replicate 31 0)) 31
        (some (List.replicate 31 7)) 5
        = some { status := 0, output := some (List.replicate 31 7), output_len := 0 }
      ∧ BAKSHEESH_CTX_decrypt sampleHardcode (some zeroCtx) (some (List.replicate 31 0)) 31
        (some (List.replicate 31 7)) 5
        = some { status := 0, output := some (List.replicate 31 7), output_len := 0 } :=
  (C11_output_frame sampleHardcode zeroCtx (List.replicate 31 0) (List.replicate 31 7) 31 5
    (by decide)).2.1 (by decide)

/-! ### Input bytes above 15 -/

theorem xor_high (x k : Nat) (hx : 16 ≤ x) (hk : k < 16) : 16 ≤ x ^^^ k := by
  rcases Nat.ge_two_pow_implies_high_bit_true (n := 4) hx with ⟨m, hm, hbit⟩
  have hkm : k.testBit m = false := nibble_testBit_high k m hk hm
  have hxor : (x ^^^ k).testBit m = true := by
    rw [Nat.testBit_xor, hbit, hkm]
    rfl
  calc 16 = 2 ^ 4 := rfl
    _ ≤ 2 ^ m := Nat.pow_le_pow_right (by decide) hm
    _ ≤ x ^^^ k := Nat.testBit_implies_ge hxor

theorem SBox_lookup_none (x : Nat) (hx : 16 ≤ x) : SBox[x]? = none :=
  List.getElem?_eq_none hx

theorem encrypt_none_of_high (hc : Hardcode) (ctx : BAKSHEESH_CTX) (hk : IsBlock ctx.key)
    (state : List Nat) (t v : Nat) (ht : t < 32) (hv : state[t]? = some v) (h16 : 16 ≤ v) :
    __baksheesh_encrypt hc ctx state = none := by
  unfold __baksheesh_encrypt
  cases hw : fill32 (fun i => do
      let s ← state[i]?
      let k ← ctx.key[i]?
      pure (s ^^^ k)) with
  | none => rfl
  | some ret =>
    simp only [Option.bind_eq_bind, Option.some_bind]
    have hg := fill32_get _ _ hw t ht
    rw [hv, getElem?_eq_getD (by rw [hk.1]; exact ht)] at hg
    simp only [Option.bind_eq_bind, Option.some_bind, Option.pure_def] at hg
    have hR : List.range ROUND = 0 :: List.range' 1 34 := by decide
    rw [hR, List.foldlM_cons]
    have hround : encRound hc ctx ret 0 = none := by
      unfold encRound
      rw [fill32_none _ t ht (by
        rw [← hg]
        simp only [Option.bind_eq_bind, Option.some_bind]
        exact SBox_lookup_none _ (xor_high v _ h16 (hk.getD_lt t)))]
      rfl
    rw [hround]
    rfl

theorem ecbCat_none (block : List Nat → Option (List Nat)) (input : List Nat)
    (hlen : ∀ s c, block s = some c → c.length = 32) (n done k : Nat) (hk : k < n)
    (h : block (input.drop (done + 32 * k)) = none) : ecbCat block input n done = none := by
  cases hc : ecbCat block input n done with
  | none => rfl
  | some cs =>
    have := (ecbCat_spec block input hlen n done cs hc).2 k hk
    rw [h] at this
    simp at this

/-- An input byte above 15 inside the aligned prefix makes the encryption
driver leave the table `SBox`: the call has no defined result. -/
theorem encrypt_driver_high_none (hc : Hardcode) (ctx : BAKSHEESH_CTX) (hk : IsBlock ctx.key)
    (inp out : List Nat) (L ol : Nat) (hL : L < 2 ^ 64) (p v : Nat) (hp : p < 32 * (L / 32))
    (hv : inp[p]? = some v) (h16 : 16 ≤ v) :
    BAKSHEESH_CTX_encrypt hc (some ctx) (some inp) L (some out) ol = none := by
  rw [encrypt_driver_eq hc ctx inp L hL]
  have hblock : __baksheesh_encrypt hc ctx (inp.drop (0 + 32 * (p / 32))) = none := by
    apply encrypt_none_of_high hc ctx hk _ (p % 32) v (Nat.mod_lt _ (by decide)) _ h16
    rw [List.getElem?_drop]
    have e : 0 + 32 * (p / 32) + p % 32 = p := by omega
    rw [e, hv]
  rw [ecbCat_none _ inp (encrypt_length hc ctx) (L / 32) 0 (p / 32) (by omega) hblock]
  rfl

theorem mask_nibble (v : Nat) (hv : v < 16) : v &&& 0x0F = v := by
  revert v
  decide

theorem take_map_mask (inp : List Nat) (M : Nat) (h : ∀ v, v ∈ inp.take M → v < 16) :
    (inp.map (fun v => v &&& 0x0F)).take M = inp.take M := by
  rw [← List.map_take]
  conv => rhs; rw [← List.map_id (inp.take M)]
  apply List.map_congr_left
  intro v hv
  exact mask_nibble v (h v hv)

/-- C12, as the code has it.  The input is not masked.  When the bytes of the
aligned prefix of the input are in 0..15, `BAKSHEESH_CTX_encrypt` gives on the
input what it gives on the input masked with `0x0F` (the bytes after the
aligned prefix may be arbitrary), and a valid call completes; when a byte of
the aligned prefix is above 15 and the key holds nibbles, the byte is XORed
unmasked with the key, indexes `SBox` out of range, and the call has no
defined result. -/
theorem C12_high_nibble (hc : Hardcode) (ctx : BAKSHEESH_CTX) (inp out : List Nat) (L ol : Nat)
    (hL : L < 2 ^ 64) (hk : IsBlock ctx.key) :
    ((∀ v, v ∈ inp.take (32 * (L / 32)) → v < 16) →
        BAKSHEESH_CTX_encrypt hc (some ctx) (some inp) L (some out) ol
          = BAKSHEESH_CTX_encrypt hc (some ctx) (some (inp.map (fun v => v &&& 0x0F))) L
              (some out) ol)
      ∧ (ValidCall hc ctx inp L out →
          ∃ res, BAKSHEESH_CTX_encrypt hc (some ctx) (some (inp.map (fun v => v &&& 0x0F))) L
            (some out) ol = some res)
      ∧ (∀ p v, p < 32 * (L / 32) → inp[p]? = some v → 16 ≤ v →
          BAKSHEESH_CTX_encrypt hc (some ctx) (some inp) L (some out) ol = none) := by
  have heq : (∀ v, v ∈ inp.take (32 * (L / 32)) → v < 16) →
      BAKSHEESH_CTX_encrypt hc (some ctx) (some inp) L (some out) ol
        = BAKSHEESH_CTX_encrypt hc (some ctx) (some (inp.map (fun v => v &&& 0x0F))) L
            (some out) ol := by
    intro hn
    rw [encrypt_driver_eq hc ctx inp L hL, encrypt_driver_eq hc ctx _ L hL,
      ecbCat_of_take_eq _ (encrypt_blk hc ctx) inp (inp.map (fun v => v &&& 0x0F)) (L / 32)
        (take_map_mask inp _ hn).symm]
  refine ⟨heq, ?_, ?_⟩
  · intro hv
    rcases encrypt_driver_total hc ctx inp L out ol hv with ⟨C, _, _, _, hC⟩
    rw [← heq hv.2.2.2.2.1]
    exact ⟨_, hC⟩
  · intro p v hp hv h16
    exact encrypt_driver_high_none hc ctx hk inp out L ol hL p v hp hv h16

/-- C12, instance: 32 bytes in 0..15 followed by 8 bytes of value 255, length 40. -/
theorem C12_high_nibble_witness :
    BAKSHEESH_CTX_encrypt sampleHardcode (some zeroCtx)
        (some (List.replicate 32 3 ++ List.replicate 8 255)) 40 (some (List.replicate 40 0)) 0
      = BAKSHEESH_CTX_encrypt sampleHardcode (some zeroCtx)
          (some ((List.replicate 32 3 ++ List.replicate 8 255).map (fun v => v &&& 0x0F))) 40
          (some (List.replicate 40 0)) 0 :=
  (C12_high_nibble sampleHardcode zeroCtx (List.replicate 32 3 ++ List.replicate 8 255)
    (List.replicate 40 0) 40 0 (by decide) ⟨by decide, by decide⟩).1 (by decide)

/-- C12, counterexample to the claim as stated: with the all-zero key, the
input of 32 bytes whose first byte is `0x10` has no defined encryption (`SBox`
is read at index 16), while the input masked with `0x0F`, 32 zero bytes, is
encrypted with status 0. -/
theorem C12_high_nibble_counterexample :
    BAKSHEESH_CTX_encrypt sampleHardcode (some zeroCtx) (some (16 :: List.replicate 31 0)) 32
        (some (List.replicate 32 0)) 0 = none
      ∧ (∃ res, BAKSHEESH_CTX_encrypt sampleHardcode (some zeroCtx)
          (some ((16 :: List.replicate 31 0).map (fun v => v &&& 0x0F))) 32
          (some (List.replicate 32 0)) 0 = some res ∧ res.status = 0)
      ∧ BAKSHEESH_CTX_encrypt sampleHardcode (some zeroCtx) (some (16 :: List.replicate 31 0))
          32 (some (List.replicate 32 0)) 0
        ≠ BAKSHEESH_CTX_encrypt sampleHardcode (some zeroCtx)
          (some ((16 :: List.replicate 31 0).map (fun v => v &&& 0x0F))) 32
          (some (List.replicate 32 0)) 0 := by
  have h1 : BAKSHEESH_CTX_encrypt sampleHardcode (some zeroCtx)
      (some (16 :: List.replicate 31 0)) 32 (some (List.replicate 32 0)) 0 = none :=
    encrypt_driver_high_none sampleHardcode zeroCtx ⟨by decide, by decide⟩ _ _ 32 0
      (by decide) 0 16 (by decide) rfl (by decide)
  have hm : (16 :: List.replicate 31 0).map (fun v => v &&& 0x0F) = List.replicate 32 0 := by
    decide
  have h2 : ∃ res, BAKSHEESH_CTX_encrypt sampleHardcode (some zeroCtx)
      (some ((16 :: List.replicate 31 0).map (fun v => v &&& 0x0F))) 32
      (some (List.replicate 32 0)) 0 = some res ∧ res.status = 0 := by
    rw [hm]
    rcases encrypt_driver_total sampleHardcode zeroCtx (List.replicate 32 0) 32
      (List.replicate 32 0) 0 (zeroCtx_valid 32 (by decide)) with ⟨C, _, _, _, hC⟩
    exact ⟨_, hC, rfl⟩
  refine ⟨h1, h2, ?_⟩
  rcases h2 with ⟨res, hres, _⟩
  rw [h1, hres]
  exact fun h => Option.noConfusion h

/-! ### The context and the input are only read -/

theorem encRoundFrame_eq (hc : Hardcode) (f : BlockFrame) (r : Nat) :
    (encRoundFrame hc f r).map (fun g => (g.ctx, g.state, g.ret))
      = (encRound hc f.ctx f.ret r).map (fun y => (f.ctx, f.state, y)) := by
  simp only [encRoundFrame, encRound, Option.bind_eq_bind, Option.pure_def]
  cases fill32 (fun i => f.ret[i]?.bind fun x => SBox[x]?) with
  | none => rfl
  | some ret1 =>
    simp only [Option.some_bind]
    cases PBOX_HC hc (List.replicate 32 0) ret1 with
    | none => rfl
    | some buf1 =>
      simp only [Option.some_bind]
      cases RC[r]? with
      | none => rfl
      | some rc =>
        simp only [Option.some_bind]
        cases ADD_CONSTANT_HC hc buf1 rc with
        | none => rfl
        | some buf2 =>
          simp only [Option.some_bind]
          cases fill32 (fun i => buf2[i]?.bind fun b =>
            f.ctx.shifted_keys[(r <<< 5) + i]?.bind fun k => some (b ^^^ (k &&& 0xF))) with
          | none => rfl
          | some ret2 => rfl

theorem decRoundFrame_eq (hc : Hardcode) (f : BlockFrame) (r : Nat) :
    (decRoundFrame hc f r).map (fun g => (g.ctx, g.state, g.ret))
      = (decRound hc f.ctx f.ret r).map (fun y => (f.ctx, f.state, y)) := by
  simp only [decRoundFrame, decRound, Option.bind_eq_bind, Option.pure_def]
  cases fill32 (fun i => f.ret[i]?.bind fun x =>
      f.ctx.shifted_keys[(r <<< 5) + i]?.bind fun k => some (x ^^^ (k &&& 0xF))) with
  | none => rfl
  | some ret1 =>
    simp only [Option.some_bind]
    cases RC[r]? with
    | none => rfl
    | some rc =>
      simp only [Option.some_bind]
      cases ADD_CONSTANT_HC hc ret1 rc with
      | none => rfl
      | some ret2 =>
        simp only [Option.some_bind]
        cases INV_PBOX_HC hc (List.replicate 32 0) ret2 with
        | none => rfl
        | some buf1 =>
          simp only [Option.some_bind]
          cases fill32 (fun i => buf1[i]?.bind fun x => InvSBox[x]?) with
          | none => rfl
          | some ret3 => rfl

theorem map_eq_some_frame (o : Option BlockFrame) (p : Option (List Nat)) (c : BAKSHEESH_CTX)
    (s : List Nat)
    (h : o.map (fun g => (g.ctx, g.state, g.ret)) = p.map (fun y => (c, s, y))) :
    (o = none ∧ p = none) ∨ ∃ g, o = some g ∧ p = some g.ret ∧ g.ctx = c ∧ g.state = s := by
  cases o with
  | none =>
    cases p with
    | none => exact Or.inl ⟨rfl, rfl⟩
    | some y => simp at h
  | some g =>
    cases p with
    | none => simp at h
    | some y =>
      simp only [Option.map_some', Option.some.injEq, Prod.mk.injEq] at h
      exact Or.inr ⟨g, rfl, by rw [h.2.2], h.1, h.2.1⟩

theorem foldlM_frame (roundF : BlockFrame → Nat → Option BlockFrame)
    (roundP : BAKSHEESH_CTX → List Nat → Nat → Option (List Nat))
    (h : ∀ f r, (roundF f r).map (fun g => (g.ctx, g.state, g.ret))
      = (roundP f.ctx f.ret r).map (fun y => (f.ctx, f.state, y))) :
    ∀ (l : List Nat) (f : BlockFrame),
      (l.foldlM roundF f).map (fun g => (g.ctx, g.state, g.ret))
        = (l.foldlM (roundP f.ctx) f.ret).map (fun y => (f.ctx, f.state, y)) := by
  intro l
  induction l with
  | nil => intro f; rfl
  | cons a l ih =>
    intro f
    rw [List.foldlM_cons, List.foldlM_cons]
    rcases map_eq_some_frame _ _ _ _ (h f a) with ⟨h1, h2⟩ | ⟨g, h1, h2, h3, h4⟩
    · rw [h1, h2]
      rfl
    · rw [h1, h2]
      simp only [Option.bind_eq_bind, Option.some_bind]
      rw [ih g, h3, h4]

theorem encryptFrame_eq (hc : Hardcode) (f : BlockFrame) :
    (encryptFrame hc f).map (fun g => (g.ctx, g.state, g.ret))
      = (__baksheesh_encrypt hc f.ctx f.state).map (fun y => (f.ctx, f.state, y)) := by
  simp only [encryptFrame, __baksheesh_encrypt, Option.bind_eq_bind, Option.pure_def]
  cases fill32 (fun i => f.state[i]?.bind fun s =>
      f.ctx.key[i]?.bind fun k => some (s ^^^ k)) with
  | none => rfl
  | some ret0 =>
    simp only [Option.some_bind]
    exact foldlM_frame (encRoundFrame hc) (encRound hc) (encRoundFrame_eq hc) _
      { f with ret := ret0 }

theorem decryptFrame_eq (hc : Hardcode) (f : BlockFrame) :
    (decryptFrame hc f).map (fun g => (g.ctx, g.state, g.ret))
      = (__baksheesh_decrypt hc f.ctx f.state).map (fun y => (f.ctx, f.state, y)) := by
  simp only [decryptFrame, __baksheesh_decrypt, Option.bind_eq_bind, Option.pure_def]
  cases fill32 (fun i => f.state[i]?) with
  | none => rfl
  | some ret0 =>
    simp only [Option.some_bind]
    have hf := foldlM_frame (decRoundFrame hc) (decRound hc) (decRoundFrame_eq hc)
      (List.range ROUND).reverse { f with ret := ret0 }
    rcases map_eq_some_frame _ _ _ _ hf with ⟨h1, h2⟩ | ⟨g, h1, h2, h3, h4⟩
    · simp only at h2
      rw [h1, h2]
      rfl
    · simp only at h2 h3 h4
      rw [h1, h2]
      simp only [Option.some_bind, h3]
      cases fill32 (fun i => g.ret[i]?.bind fun x =>
          f.ctx.key[i]?.bind fun k => some (x ^^^ k)) with
      | none => rfl
      | some ret1 =>
        simp only [Option.some_bind, Option.map_some', h3, h4]

theorem blockLoopFrame_eq (blockF : BlockFrame → Option BlockFrame)
    (blockP : BAKSHEESH_CTX → List Nat → Option (List Nat))
    (hb : ∀ f, (blockF f).map (fun g => (g.ctx, g.state, g.ret))
      = (blockP f.ctx f.state).map (fun y => (f.ctx, f.state, y))) :
    ∀ (n off : Nat) (d : DriverFrame),
      (blockLoopFrame blockF n off d).map (fun e => (e.ctx, e.input, e.output, e.output_len))
        = (blockLoop (blockP d.ctx) d.input n off d.output).map
            (fun o => (d.ctx, d.input, o, d.output_len)) := by
  intro n
  induction n with
  | zero => intro off d; rfl
  | succ n ih =>
    intro off d
    unfold blockLoopFrame blockLoop
    rcases map_eq_some_frame _ _ _ _
      (hb (BlockFrame.mk d.ctx (d.input.drop off) d.buf (List.replicate 32 0))) with
      ⟨h1, h2⟩ | ⟨g, h1, h2, h3, h4⟩
    · simp only at h2
      rw [h1, h2]
      rfl
    · simp only at h2 h3 h4
      rw [h1, h2]
      simp only
      cases hm : memcpy32 d.output off g.ret with
      | none => rfl
      | some out1 =>
        simp only
        rw [ih (off + 32)]
        simp only [h3, h4, List.take_append_drop]

theorem driverCall_eq (blockF : BlockFrame → Option BlockFrame)
    (blockP : BAKSHEESH_CTX → List Nat → Option (List Nat))
    (hb : ∀ f, (blockF f).map (fun g => (g.ctx, g.state, g.ret))
      = (blockP f.ctx f.state).map (fun y => (f.ctx, f.state, y)))
    (c : BAKSHEESH_CTX) (inp out : List Nat) (ol L : Nat) :
    (driverCall blockF
        { ctx := some c, input := some inp, output := some out, output_len := ol } L).map
        (fun p => (p.1, p.2.ctx, p.2.input, p.2.output, p.2.output_len))
      = (blockLoop (blockP c) inp (ALIGN_TO_32_BLOCK_SIZE L >>> 5) 0 out).map
          (fun o => ((0 : Int), some c, some inp, some o, ALIGN_TO_32_BLOCK_SIZE L)) := by
  unfold driverCall
  simp only
  have h := blockLoopFrame_eq blockF blockP hb (ALIGN_TO_32_BLOCK_SIZE L >>> 5) 0
    (DriverFrame.mk c inp out (ALIGN_TO_32_BLOCK_SIZE L) (List.replicate 32 0))
  simp only at h
  cases hF : blockLoopFrame blockF (ALIGN_TO_32_BLOCK_SIZE L >>> 5) 0
      (DriverFrame.mk c inp out (ALIGN_TO_32_BLOCK_SIZE L) (List.replicate 32 0)) with
  | none =>
    rw [hF] at h
    cases hP : blockLoop (blockP c) inp (ALIGN_TO_32_BLOCK_SIZE L >>> 5) 0 out with
    | none => rfl
    | some o => rw [hP] at h; simp at h
  | some e =>
    rw [hF] at h
    cases hP : blockLoop (blockP c) inp (ALIGN_TO_32_BLOCK_SIZE L >>> 5) 0 out with
    | none => rw [hP] at h; simp at h
    | some o =>
      rw [hP] at h
      simp only [Option.map_some', Option.some.injEq, Prod.mk.injEq] at h
      simp only [Option.map_some', h.1, h.2.1, h.2.2.1, h.2.2.2]

theorem driverCall_frame (blockF : BlockFrame → Option BlockFrame)
    (blockP : BAKSHEESH_CTX → List Nat → Option (List Nat))
    (hb : ∀ f, (blockF f).map (fun g => (g.ctx, g.state, g.ret))
      = (blockP f.ctx f.state).map (fun y => (f.ctx, f.state, y)))
    (m : Memory) (L : Nat) (st : Int) (m2 : Memory) (h : driverCall blockF m L = some (st, m2)) :
    m2.ctx = m.ctx ∧ m2.input = m.input := by
  rcases m with ⟨ctx, input, output, ol⟩
  cases ctx with
  | none =>
    simp only [driverCall, Option.some.injEq, Prod.mk.injEq] at h
    rw [← h.2]
    exact ⟨rfl, rfl⟩
  | some c =>
    cases input with
    | none =>
      simp only [driverCall, Option.some.injEq, Prod.mk.injEq] at h
      rw [← h.2]
      exact ⟨rfl, rfl⟩
    | some inp =>
      cases output with
      | none =>
        simp only [driverCall, Option.some.injEq, Prod.mk.injEq] at h
        rw [← h.2]
        exact ⟨rfl, rfl⟩
      | some out =>
        have he := driverCall_eq blockF blockP hb c inp out ol L
        rw [h] at he
        cases hP : blockLoop (blockP c) inp (ALIGN_TO_32_BLOCK_SIZE L >>> 5) 0 out with
        | none => rw [hP] at he; simp at he
        | some o =>
          rw [hP] at he
          simp only [Option.map_some', Option.some.injEq, Prod.mk.injEq] at he
          exact ⟨he.2.1, he.2.2.1⟩

theorem driverCall_result (blockF : BlockFrame → Option BlockFrame)
    (blockP : BAKSHEESH_CTX → List Nat → Option (List Nat))
    (hb : ∀ f, (blockF f).map (fun g => (g.ctx, g.state, g.ret))
      = (blockP f.ctx f.state).map (fun y => (f.ctx, f.state, y)))
    (c : BAKSHEESH_CTX) (inp out : List Nat) (ol L : Nat) :
    (driverCall blockF
        { ctx := some c, input := some inp, output := some out, output_len := ol } L).map
        (fun p => Result.mk p.1 p.2.output p.2.output_len)
      = (blockLoop (blockP c) inp (ALIGN_TO_32_BLOCK_SIZE L >>> 5) 0 out).map
          (fun o => Result.mk 0 (some o) (ALIGN_TO_32_BLOCK_SIZE L)) := by
  have he := driverCall_eq blockF blockP hb c inp out ol L
  cases hF : driverCall blockF
      { ctx := some c, input := some inp, output := some out, output_len := ol } L with
  | none =>
    rw [hF] at he
    cases hP : blockLoop (blockP c) inp (ALIGN_TO_32_BLOCK_SIZE L >>> 5) 0 out with
    | none => rfl
    | some o => rw [hP] at he; simp at he
  | some p =>
    rw [hF] at he
    cases hP : blockLoop (blockP c) inp (ALIGN_TO_32_BLOCK_SIZE L >>> 5) 0 out with
    | none => rw [hP] at he; simp at he
    | some o =>
      rw [hP] at he
      simp only [Option.map_some', Option.some.injEq, Prod.mk.injEq] at he
      simp only [Option.map_some', he.1, he.2.2.2.1, he.2.2.2.2]

theorem blockLoop_result (block : List Nat → Option (List Nat)) (inp out : List Nat)
    (n len : Nat) :
    (match blockLoop block inp n 0 out with
      | none => none
      | some out1 => some (Result.mk 0 (some out1) len))
      = (blockLoop block inp n 0 out).map (fun o => Result.mk 0 (some o) len) := by
  cases blockLoop block inp n 0 out <;> rfl

theorem encryptCall_result (hc : Hardcode) (m : Memory) (L : Nat) :
    (encryptCall hc m L).map (fun p => Result.mk p.1 p.2.output p.2.output_len)
      = BAKSHEESH_CTX_encrypt hc m.ctx m.input L m.output m.output_len := by
  rcases m with ⟨ctx, input, output, ol⟩
  cases ctx with
  | none => rfl
  | some c =>
    cases input with
    | none => rfl
    | some inp =>
      cases output with
      | none => rfl
      | some out =>
        unfold encryptCall BAKSHEESH_CTX_encrypt
        simp only
        rw [blockLoop_result]
        exact driverCall_result (encryptFrame hc) (__baksheesh_encrypt hc) (encryptFrame_eq hc)
          c inp out ol L

theorem decryptCall_result (hc : Hardcode) (m : Memory) (L : Nat) :
    (decryptCall hc m L).map (fun p => Result.mk p.1 p.2.output p.2.output_len)
      = BAKSHEESH_CTX_decrypt hc m.ctx m.input L m.output m.output_len := by
  rcases m with ⟨ctx, input, output, ol⟩
  cases ctx with
  | none => rfl
  | some c =>
    cases input with
    | none => rfl
    | some inp =>
      cases output with
      | none => rfl
      | some out =>
        unfold decryptCall BAKSHEESH_CTX_decrypt
        simp only
        rw [blockLoop_result]
        exact driverCall_result (decryptFrame hc) (__baksheesh_decrypt hc) (decryptFrame_eq hc)
          c inp out ol L

theorem blockFrame_frame (o : Option BlockFrame) (p : Option (List Nat)) (f g : BlockFrame)
    (h : o.map (fun g => (g.ctx, g.state, g.ret)) = p.map (fun y => (f.ctx, f.state, y)))
    (hg : o = some g) : g.ctx = f.ctx ∧ g.state = f.state := by
  rcases map_eq_some_frame o p f.ctx f.state h with ⟨h1, _⟩ | ⟨g2, h1, _, h3, h4⟩
  · rw [hg] at h1
    exact Option.noConfusion h1
  · rw [hg] at h1
    have e := Option.some.inj h1
    rw [e]
    exact ⟨h3, h4⟩

/-- C13. The context is read-only after construction: a call of
`BAKSHEESH_CTX_encrypt` or `BAKSHEESH_CTX_decrypt` that returns (with status 0
or -1) leaves the context (master key and round-key table) and the input bytes
as they were, and so does every call of `__baksheesh_encrypt` and
`__baksheesh_decrypt` that completes; the status, output buffer and
`*output_len` that the call leaves are those of the drivers; and every valid
call returns. -/
theorem C13_read_only (hc : Hardcode) (m : Memory) (L : Nat) :
    (∀ st m2, encryptCall hc m L = some (st, m2) ∨ decryptCall hc m L = some (st, m2) →
        m2.ctx = m.ctx ∧ m2.input = m.input)
      ∧ (∀ f g, encryptFrame hc f = some g ∨ decryptFrame hc f = some g →
          g.ctx = f.ctx ∧ g.state = f.state)
      ∧ (encryptCall hc m L).map (fun p => Result.mk p.1 p.2.output p.2.output_len)
          = BAKSHEESH_CTX_encrypt hc m.ctx m.input L m.output m.output_len
      ∧ (decryptCall hc m L).map (fun p => Result.mk p.1 p.2.output p.2.output_len)
          = BAKSHEESH_CTX_decrypt hc m.ctx m.input L m.output m.output_len
      ∧ (∀ c inp out, m.ctx = some c → m.input = some inp → m.output = some out →
          ValidCall hc c inp L out →
          ∃ m2 m3, encryptCall hc m L = some (0, m2) ∧ decryptCall hc m L = some (0, m3)) := by
  refine ⟨?_, ?_, encryptCall_result hc m L, decryptCall_result hc m L, ?_⟩
  · intro st m2 h
    rcases h with h | h
    · exact driverCall_frame (encryptFrame hc) (__baksheesh_encrypt hc) (encryptFrame_eq hc)
        m L st m2 h
    · exact driverCall_frame (decryptFrame hc) (__baksheesh_decrypt hc) (decryptFrame_eq hc)
        m L st m2 h
  · intro f g h
    rcases h with h | h
    · exact blockFrame_frame _ _ f g (encryptFrame_eq hc f) h
    · exact blockFrame_frame _ _ f g (decryptFrame_eq hc f) h
  · intro c inp out hc' hi ho hv
    have he := encryptCall_result hc m L
    have hd := decryptCall_result hc m L
    rw [hc', hi, ho] at he hd
    rcases encrypt_driver_total hc c inp L out m.output_len hv with ⟨C, _, _, _, hC⟩
    rcases decrypt_driver_total hc c inp L out m.output_len hv with ⟨D, _, _, _, hD⟩
    rw [hC] at he
    rw [hD] at hd
    cases hE : encryptCall hc m L with
    | none => rw [hE] at he; simp at he
    | some p =>
      cases hF : decryptCall hc m L with
      | none => rw [hF] at hd; simp at hd
      | some q =>
        rw [hE] at he
        rw [hF] at hd
        simp only [Option.map_some', Option.some.injEq, Result.mk.injEq] at he hd
        refine ⟨p.2, q.2, ?_, ?_⟩
        · rw [← he.1]
        · rw [← hd.1]

/-- C13, instance: a call on 32 zero bytes leaves the zero context and the input in place. -/
theorem C13_read_only_witness :
    ∃ m2 m3,
      encryptCall sampleHardcode
          { ctx := some zeroCtx, input := some (List.replicate 32 0),
            output := some (List.replicate 32 0), output_len := 0 } 32 = some (0, m2)
        ∧ decryptCall sampleHardcode
          { ctx := some zeroCtx, input := some (List.replicate 32 0),
            output := some (List.replicate 32 0), output_len := 0 } 32 = some (0, m3)
        ∧ m2.ctx = some zeroCtx ∧ m2.input = some (List.replicate 32 0) := by
  have h := C13_read_only sampleHardcode
    { ctx := some zeroCtx, input := some (List.replicate 32 0),
      output := some (List.replicate 32 0), output_len := 0 } 32
  rcases h.2.2.2.2 zeroCtx (List.replicate 32 0) (List.replicate 32 0) rfl rfl rfl
    (zeroCtx_valid 32 (by decide)) with ⟨m2, m3, h2, h3⟩
  have hf := h.1 0 m2 (Or.inl h2)
  exact ⟨m2, m3, h2, h3, hf.1, hf.2⟩

/-! ### The reference definition of encryption -/

theorem zipWith_tab (f : Nat → Nat → Nat) (a b : List Nat) (ha : a.length = 32)
    (hb : b.length = 32) :
    List.zipWith f a b = tab (fun i => f (a.getD i 0) (b.getD i 0)) := by
  apply List.ext_getElem?
  intro i
  by_cases hi : i < 32
  · rw [tab_getElem? _ i hi, List.getElem?_zipWith, getElem?_eq_getD (by omega : i < a.length),
      getElem?_eq_getD (by omega : i < b.length)]
  · rw [List.getElem?_eq_none (by rw [List.length_zipWith, ha, hb]; omega),
      List.getElem?_eq_none (by rw [tab_length]; omega)]

theorem map_tab (f : Nat → Nat) (a : List Nat) (ha : a.length = 32) :
    a.map f = tab (fun i => f (a.getD i 0)) := by
  apply List.ext_getElem?
  intro i
  by_cases hi : i < 32
  · rw [tab_getElem? _ i hi, List.getElem?_map, getElem?_eq_getD (by omega : i < a.length)]
    rfl
  · rw [List.getElem?_eq_none (by rw [List.length_map, ha]; omega),
      List.getElem?_eq_none (by rw [tab_length]; omega)]

theorem range_getD (n i : Nat) (h : i < n) : (List.range n).getD i 0 = i := by
  rw [List.getD_eq_getElem?_getD, List.getElem?_range h]
  rfl

theorem specWhitening_eq (K P : List Nat) (hK : K.length = 32) (hP : P.length = 32) :
    specWhitening K P = xorKeyPure K P := by
  unfold specWhitening xorKeyPure
  exact zipWith_tab _ P K hP hK

theorem specSubNibbles_eq (C : List Nat) (hC : C.length = 32) :
    specSubNibbles C = subPure SBox C := by
  unfold specSubNibbles subPure
  exact map_tab _ C hC

theorem specAddRoundConstant_eq (hc : Hardcode) (rc : Nat) (C : List Nat) (hC : C.length = 32) :
    specAddRoundConstant hc rc C = addConstPure hc rc C := by
  unfold specAddRoundConstant addConstPure
  rw [zipWith_tab _ C (List.range 32) hC (List.length_range 32)]
  apply tab_congr
  intro i hi
  rw [range_getD 32 i hi]

theorem blk_getD (xs : List Nat) (k i : Nat) (hi : i < 32) :
    (blk xs k).getD i 0 = xs.getD (32 * k + i) 0 := by
  rw [List.getD_eq_getElem?_getD, List.getD_eq_getElem?_getD, blk_getElem? xs k i hi]

theorem specAddRoundKey_eq (ctx : BAKSHEESH_CTX) (hsk : ctx.shifted_keys.length = 32 * ROUND)
    (r : Nat) (hr : r < ROUND) (C : List Nat) (hC : C.length = 32) :
    specAddRoundKey ctx r C = arkPure ctx r C := by
  unfold specAddRoundKey arkPure
  have hb : (blk ctx.shifted_keys r).length = 32 :=
    blk_length _ r (by rw [hsk]; unfold ROUND at *; omega)
  rw [zipWith_tab _ C _ hC hb]
  apply tab_congr
  intro i hi
  have hsh : r <<< 5 = 32 * r := by rw [Nat.shiftLeft_eq]; omega
  rw [blk_getD _ r i hi, hsh]

theorem testBit_nibble_of_bits (b0 b1 b2 b3 m : Nat) (h0 : b0 ≤ 1) (h1 : b1 ≤ 1) (h2 : b2 ≤ 1)
    (h3 : b3 ≤ 1) :
    ((b0 <<< 0) ||| (b1 <<< 1) ||| (b2 <<< 2) ||| (b3 <<< 3)).testBit m
      = ((decide (b0 = 1) && decide (0 = m)) || (decide (b1 = 1) && decide (1 = m))
          || (decide (b2 = 1) && decide (2 = m)) || (decide (b3 = 1) && decide (3 = m))) := by
  rw [Nat.testBit_or, Nat.testBit_or, Nat.testBit_or, testBit_bit_shiftLeft b0 0 m h0,
    testBit_bit_shiftLeft b1 1 m h1, testBit_bit_shiftLeft b2 2 m h2,
    testBit_bit_shiftLeft b3 3 m h3]

theorem specPermBits_eq (hc : Hardcode) (hwf : hc.WF) (C : List Nat) :
    specPermBits hc C = permPure hc.P C := by
  have hl : specPermBits hc C = tab (fun n =>
      (srcBit C (hc.invP (4 * n)) <<< 0) ||| (srcBit C (hc.invP (4 * n + 1)) <<< 1)
        ||| (srcBit C (hc.invP (4 * n + 2)) <<< 2) ||| (srcBit C (hc.invP (4 * n + 3)) <<< 3)) :=
    rfl
  rw [hl, ← tab_getD_self (permPure hc.P C) (permPure_isBlock _ _).1]
  apply tab_congr
  intro n hn
  apply Nat.eq_of_testBit_eq
  intro m
  rw [testBit_nibble_of_bits _ _ _ _ m (srcBit_le_one _ _) (srcBit_le_one _ _)
    (srcBit_le_one _ _) (srcBit_le_one _ _)]
  have hdest : ∀ t, t < 4 →
      (srcBit C (hc.invP (4 * n + t)) = 1
        ↔ ((permPure hc.P C).getD n 0).testBit t = true) := by
    intro t ht
    have hj : 4 * n + t < 128 := by omega
    have hs := invP_spec hc hwf _ hj
    rw [permPure_testBit hc.P C n t hn]
    constructor
    · intro h
      exact ⟨hc.invP (4 * n + t), hs.1, by rw [hs.2]; omega, by rw [hs.2]; omega, h⟩
    · rintro ⟨i, hi, h1, h2, h3⟩
      have hPi : hc.P i = 4 * n + t := by omega
      rw [← hPi, invP_P hc hwf i hi]
      exact h3
  by_cases hm : m < 4
  · have hcases : m = 0 ∨ m = 1 ∨ m = 2 ∨ m = 3 := by omega
    rw [Bool.eq_iff_iff]
    rcases hcases with rfl | rfl | rfl | rfl
    · simpa using hdest 0 (by decide)
    · simpa using hdest 1 (by decide)
    · simpa using hdest 2 (by decide)
    · simpa using hdest 3 (by decide)
  · rw [nibble_testBit_high _ m ((permPure_isBlock hc.P C).getD_lt n) (by omega)]
    have h0 : ¬ 0 = m := by omega
    have h1 : ¬ 1 = m := by omega
    have h2 : ¬ 2 = m := by omega
    have h3 : ¬ 3 = m := by omega
    simp [h0, h1, h2, h3]

theorem specRound_eq (hc : Hardcode) (hwf : hc.WF) (ctx : BAKSHEESH_CTX)
    (hsk : ctx.shifted_keys.length = 32 * ROUND) (r : Nat) (hr : r < ROUND) (C : List Nat)
    (hC : C.length = 32) : specRound hc ctx r C = encRoundPure hc ctx C r := by
  unfold specRound encRoundPure
  rw [specSubNibbles_eq C hC, specPermBits_eq hc hwf,
    specAddRoundConstant_eq hc _ _ (permPure_isBlock _ _).1,
    specAddRoundKey_eq ctx hsk r hr _ (addConstPure_length _ _ _)]

theorem specCipherState_eq (hc : Hardcode) (hwf : hc.WF) (ctx : BAKSHEESH_CTX)
    (hctx : CtxOK ctx) (P : List Nat) (hP : IsBlock P) :
    ∀ r, r ≤ ROUND →
      specCipherState hc ctx P r
          = (List.range r).foldl (encRoundPure hc ctx) (xorKeyPure ctx.key P)
        ∧ IsBlock (specCipherState hc ctx P r) := by
  intro r
  induction r with
  | zero =>
    intro _
    have h0 : specCipherState hc ctx P 0 = xorKeyPure ctx.key P :=
      specWhitening_eq ctx.key P hctx.1.1 hP.1
    rw [h0]
    exact ⟨rfl, xorKeyPure_isBlock _ _ hctx.1 (fun i _ => hP.getD_lt i)⟩
  | succ r ih =>
    intro hr
    have hi := ih (by omega)
    have hs : specCipherState hc ctx P (r + 1)
        = encRoundPure hc ctx (specCipherState hc ctx P r) r :=
      specRound_eq hc hwf ctx hctx.2 r (by omega) _ hi.2.1
    rw [hs]
    refine ⟨?_, encRoundPure_isBlock hc ctx _ r⟩
    rw [List.range_succ, List.foldl_append, ← hi.1]
    rfl

/-- C14. Single-block encryption equals the reference definition of section
4.3: for a context with a key `K` of 32 nibbles and round keys `RK[0..34]`
(arbitrary bytes) and a nibble block `P`, the whitening loop leaves `C_0 = P
xor K` in `ret`, after the first `r` rounds (`r = 0, .., 35`, in the order
`0, 1, .., r - 1`) `ret` holds `C_r`, and `__baksheesh_encrypt` leaves `C_35`
in `ret`, where `C_{r+1} = AddRoundKey_r (AddRoundConstant (RC[r], PermBits
(SubNibbles C_r)))`. -/
theorem C14_reference (hc : Hardcode) (hwf : hc.WF) (ctx : BAKSHEESH_CTX) (hctx : CtxOK ctx)
    (P : List Nat) (hP : IsBlock P) :
    __baksheesh_encrypt hc ctx P = some (specCipherState hc ctx P ROUND)
      ∧ fill32 (fun i => do
          let s ← P[i]?
          let k ← ctx.key[i]?
          pure (s ^^^ k)) = some (specCipherState hc ctx P 0)
      ∧ (∀ r, r ≤ ROUND →
          (List.range r).foldlM (encRound hc ctx) (specCipherState hc ctx P 0)
            = some (specCipherState hc ctx P r))
      ∧ (∀ r, r < ROUND →
          encRound hc ctx (specCipherState hc ctx P r) r
            = some (specCipherState hc ctx P (r + 1))) := by
  have hspec := specCipherState_eq hc hwf ctx hctx P hP
  have h0 : specCipherState hc ctx P 0 = xorKeyPure ctx.key P :=
    specWhitening_eq ctx.key P hctx.1.1 hP.1
  have hfold : ∀ r, r ≤ ROUND →
      (List.range r).foldlM (encRound hc ctx) (specCipherState hc ctx P 0)
        = some (specCipherState hc ctx P r) := by
    intro r hr
    rw [(hspec r hr).1, h0]
    exact (foldlM_pure IsBlock (encRound hc ctx) (encRoundPure hc ctx) (List.range r) _
      (fun k hk x hx => ⟨encRound_eq hc hwf ctx hctx.2 x hx k
          (Nat.lt_of_lt_of_le (List.mem_range.mp hk) hr),
        encRoundPure_isBlock hc ctx x k⟩)
      (xorKeyPure_isBlock _ _ hctx.1 (fun i _ => hP.getD_lt i))).1
  refine ⟨?_, ?_, hfold, ?_⟩
  · rw [encrypt_eq hc hwf ctx hctx P (NibblePrefix.of_isBlock hP), (hspec ROUND (Nat.le_refl _)).1]
    rfl
  · rw [h0]
    exact xorKey_eq ctx.key P hctx.1.1 (by rw [hP.1])
  · intro r hr
    rw [encRound_eq hc hwf ctx hctx.2 _ (hspec r (by omega)).2 r hr]
    exact congrArg some (specRound_eq hc hwf ctx hctx.2 r hr _ (hspec r (by omega)).2.1).symm

/-- C14, instance: the zero context on the block of nibbles 1. -/
theorem C14_reference_witness :
    __baksheesh_encrypt sampleHardcode zeroCtx (List.replicate 32 1)
      = some (specCipherState sampleHardcode zeroCtx (List.replicate 32 1) ROUND) :=
  (C14_reference sampleHardcode sampleHardcode_WF zeroCtx
    ⟨⟨by decide, by decide⟩, List.length_replicate _ _⟩ (List.replicate 32 1)
    ⟨by decide, by decide⟩).1

/-! ### Whitening -/

theorem specRounds_fold (hc : Hardcode) (hwf : hc.WF) (ctx : BAKSHEESH_CTX)
    (hsk : ctx.shifted_keys.length = 32 * ROUND) :
    ∀ (l : List Nat) (X : List Nat), (∀ r, r ∈ l → r < ROUND) → X.length = 32 →
      l.foldl (fun C r => specRound hc ctx r C) X = l.foldl (encRoundPure hc ctx) X := by
  intro l
  induction l with
  | nil => intro X _ _; rfl
  | cons a l ih =>
    intro X hl hX
    rw [List.foldl_cons, List.foldl_cons,
      specRound_eq hc hwf ctx hsk a (hl a (List.mem_cons_self a l)) X hX]
    exact ih _ (fun r hr => hl r (List.mem_cons_of_mem a hr)) (encRoundPure_isBlock hc ctx X a).1

theorem specRounds_eq (hc : Hardcode) (hwf : hc.WF) (ctx : BAKSHEESH_CTX) (hctx : CtxOK ctx)
    (P : List Nat) (hP : IsBlock P) :
    specRounds hc ctx (specWhitening ctx.key P) = encPure hc ctx P := by
  unfold specRounds encPure
  rw [specWhitening_eq ctx.key P hctx.1.1 hP.1]
  exact specRounds_fold hc hwf ctx hctx.2 _ _ (fun r hr => List.mem_range.mp hr) (tab_length _)

theorem xor_eq_self (a b : Nat) (h : a ^^^ b = a) : b = 0 := by
  have h1 : a ^^^ (a ^^^ b) = a ^^^ a := by rw [h]
  rw [← Nat.xor_assoc, Nat.xor_self, Nat.zero_xor] at h1
  exact h1

theorem xorKeyPure_ne (K X : List Nat) (i : Nat) (hi : i < 32) (hK : K.getD i 0 ≠ 0) :
    xorKeyPure K X ≠ X := by
  intro h
  have h1 : (xorKeyPure K X).getD i 0 = X.getD i 0 := by rw [h]
  unfold xorKeyPure at h1
  rw [tab_getD _ i hi] at h1
  exact hK (xor_eq_self _ _ h1)

/-- With a key that is not all zero, the result of single-block encryption is
not the result of the rounds XORed once more with the key. -/
theorem encrypt_ne_post_whitened (hc : Hardcode) (hwf : hc.WF) (ctx : BAKSHEESH_CTX)
    (hctx : CtxOK ctx) (P : List Nat) (hP : IsBlock P) (i : Nat) (hi : i < 32)
    (hK : ctx.key.getD i 0 ≠ 0) :
    __baksheesh_encrypt hc ctx P
      ≠ some (specWhitening ctx.key (specRounds hc ctx (specWhitening ctx.key P))) := by
  have hb := encPure_isBlock hc ctx hctx.1 P (NibblePrefix.of_isBlock hP)
  rw [encrypt_eq hc hwf ctx hctx P (NibblePrefix.of_isBlock hP), specRounds_eq hc hwf ctx hctx P hP,
    specWhitening_eq ctx.key _ hctx.1.1 hb.1]
  intro h
  exact xorKeyPure_ne ctx.key _ i hi hK (Option.some.inj h).symm

/-- C15, as the code has it.  Single-block encryption XORs the master key `K`
onto the state before the first round only: for a key of 32 nibbles and a
nibble block `P` the ciphertext is `R (P xor K)`, `R` being the composition of
the 35 rounds, and when `K` is not all zero it differs from `K xor R (P xor
K)`.  The XOR of `K` after the last round is in decryption: its result is `K
xor` the state left by its 35 rounds. -/
theorem C15_whitening (hc : Hardcode) (hwf : hc.WF) (ctx : BAKSHEESH_CTX) (hctx : CtxOK ctx)
    (P : List Nat) (hP : IsBlock P) :
    __baksheesh_encrypt hc ctx P = some (specRounds hc ctx (specWhitening ctx.key P))
      ∧ (∀ i, i < 32 → ctx.key.getD i 0 ≠ 0 →
          __baksheesh_encrypt hc ctx P
            ≠ some (specWhitening ctx.key (specRounds hc ctx (specWhitening ctx.key P))))
      ∧ __baksheesh_decrypt hc ctx P
          = some (specWhitening ctx.key
              ((List.range ROUND).reverse.foldl (decRoundPure hc ctx) P)) := by
  refine ⟨?_, ?_, ?_⟩
  · rw [encrypt_eq hc hwf ctx hctx P (NibblePrefix.of_isBlock hP), specRounds_eq hc hwf ctx hctx P hP]
  · intro i hi hK
    exact encrypt_ne_post_whitened hc hwf ctx hctx P hP i hi hK
  · rw [decrypt_eq hc hwf ctx hctx P (NibblePrefix.of_isBlock hP),
      specWhitening_eq ctx.key _ hctx.1.1 (decRounds_isBlock hc ctx _ P hP).1]
    unfold decPure
    rw [tab_getD_self P hP.1]

theorem oneKeyCtx_ok : CtxOK oneKeyCtx :=
  ⟨⟨by decide, by decide⟩,
    keyLoop_length sampleHardcode sampleHardcode_WF.shift_length ROUND _ (by decide)⟩

/-- C15, instance: the zero context on the block of nibbles 1. -/
theorem C15_whitening_witness :
    __baksheesh_encrypt sampleHardcode zeroCtx (List.replicate 32 1)
      = some (specRounds sampleHardcode zeroCtx
          (specWhitening zeroCtx.key (List.replicate 32 1))) :=
  (C15_whitening sampleHardcode sampleHardcode_WF zeroCtx
    ⟨⟨by decide, by decide⟩, List.length_replicate _ _⟩ (List.replicate 32 1)
    ⟨by decide, by decide⟩).1

/-- C15, counterexample to the claim as stated: with the key `1, 0, .., 0` and
the all-zero block, the ciphertext is not `K xor R (P xor K)`. -/
theorem C15_whitening_counterexample :
    BAKSHEESH_CTX_new sampleHardcode true (1 :: List.replicate 31 0) = some oneKeyCtx
      ∧ __baksheesh_encrypt sampleHardcode oneKeyCtx (List.replicate 32 0)
        ≠ some (specWhitening oneKeyCtx.key
            (specRounds sampleHardcode oneKeyCtx
              (specWhitening oneKeyCtx.key (List.replicate 32 0)))) :=
  ⟨rfl, encrypt_ne_post_whitened sampleHardcode sampleHardcode_WF oneKeyCtx oneKeyCtx_ok
    (List.replicate 32 0) ⟨by decide, by decide⟩ 0 (by decide) (by decide)⟩

/-! ### No out-of-range lookup -/

/-- C16. No failure once the arguments are valid: for a context with a key of
32 nibbles and a 32-byte block of nibbles, `__baksheesh_encrypt` and
`__baksheesh_decrypt` complete (no lookup leaves its table) with a block of
nibbles.  In detail: the state that enters round 0 of encryption is a block of
nibbles; every round `r < 35` of encryption and of decryption, started on a
block of nibbles, completes with a block of nibbles, so the indices into
`SBox` are below 16; the buffer that indexes `InvSBox` is built by InvPermBits
in a zeroed buffer and holds nibbles; and for `r < 35`, `i < 32` the index `r`
is inside `RC` and `32 r + i < 1120` is inside `shifted_keys`. -/
theorem C16_no_failure (hc : Hardcode) (hwf : hc.WF) (ctx : BAKSHEESH_CTX) (hctx : CtxOK ctx)
    (x : List Nat) (hx : IsBlock x) :
    (∃ c, __baksheesh_encrypt hc ctx x = some c ∧ IsBlock c)
      ∧ (∃ d, __baksheesh_decrypt hc ctx x = some d ∧ IsBlock d)
      ∧ (∃ w, fill32 (fun i => do
            let s ← x[i]?
            let k ← ctx.key[i]?
            pure (s ^^^ k)) = some w ∧ IsBlock w)
      ∧ (∀ r s, r < ROUND → IsBlock s →
          (∀ i, i < 32 → ∃ v, s[i]? = some v ∧ v < SBox.length)
            ∧ ∃ t, encRound hc ctx s r = some t ∧ IsBlock t)
      ∧ (∀ r s, r < ROUND → IsBlock s →
          (∃ buf, INV_PBOX_HC hc (List.replicate 32 0)
              (addConstPure hc (RC.getD r 0) (arkPure ctx r s)) = some buf
            ∧ ∀ i, i < 32 → ∃ v, buf[i]? = some v ∧ v < InvSBox.length)
            ∧ ∃ t, decRound hc ctx s r = some t ∧ IsBlock t)
      ∧ (∀ r i, r < ROUND → i < 32 →
          r < RC.length ∧ (r <<< 5) + i < ctx.shifted_keys.length
            ∧ (r <<< 5) + i = 32 * r + i ∧ 32 * r + i < 1120) := by
  have hnp := NibblePrefix.of_isBlock hx
  have hidx : ∀ (s : List Nat), IsBlock s → ∀ i, i < 32 → ∃ v, s[i]? = some v ∧ v < 16 := by
    intro s hs i hi
    exact ⟨s.getD i 0, getElem?_eq_getD (by rw [hs.1]; exact hi), hs.getD_lt i⟩
  refine ⟨⟨_, encrypt_eq hc hwf ctx hctx x hnp, encPure_isBlock hc ctx hctx.1 x hnp⟩,
    ⟨_, decrypt_eq hc hwf ctx hctx x hnp, decPure_isBlock hc ctx hctx.1 x hnp⟩,
    ⟨_, xorKey_eq ctx.key x hctx.1.1 hnp.1, xorKeyPure_isBlock _ _ hctx.1 hnp.2⟩, ?_, ?_, ?_⟩
  · intro r s hr hs
    exact ⟨hidx s hs, _, encRound_eq hc hwf ctx hctx.2 s hs r hr, encRoundPure_isBlock hc ctx s r⟩
  · intro r s hr hs
    refine ⟨⟨_, INV_PBOX_HC_eq hc hwf _ (by rw [addConstPure_length]), ?_⟩,
      _, decRound_eq hc hwf ctx hctx.2 s hs r hr, decRoundPure_isBlock hc ctx s r⟩
    exact hidx _ (permPure_isBlock _ _)
  · intro r i hr hi
    have hsh : r <<< 5 = 32 * r := by rw [Nat.shiftLeft_eq]; omega
    rw [hsh, hctx.2]
    unfold ROUND at *
    refine ⟨hr, by omega, rfl, by omega⟩

/-- C16, instance: the zero context on a block of nibbles 7. -/
theorem C16_no_failure_witness :
    (∃ c, __baksheesh_encrypt sampleHardcode zeroCtx (List.replicate 32 7) = some c ∧ IsBlock c)
      ∧ (∃ d, __baksheesh_decrypt sampleHardcode zeroCtx (List.replicate 32 7) = some d
          ∧ IsBlock d) :=
  ⟨(C16_no_failure sampleHardcode sampleHardcode_WF zeroCtx
      ⟨⟨by decide, by decide⟩, List.length_replicate _ _⟩ (List.replicate 32 7)
      ⟨by decide, by decide⟩).1,
    (C16_no_failure sampleHardcode sampleHardcode_WF zeroCtx
      ⟨⟨by decide, by decide⟩, List.length_replicate _ _⟩ (List.replicate 32 7)
      ⟨by decide, by decide⟩).2.1⟩

/-! ### Round-key addition -/

theorem masked_xor_lt (b k : Nat) (hb : b < 16) : b ^^^ (k &&& 0xF) < 16 :=
  Nat.xor_lt_two_pow (n := 4) hb (Nat.and_lt_two_pow _ (by decide))

theorem encRound_isBlock (hc : Hardcode) (hwf : hc.WF) (ctx : BAKSHEESH_CTX) (x y : List Nat)
    (r : Nat) (h : encRound hc ctx x r = some y) : IsBlock y := by
  unfold encRound at h
  simp only [Option.bind_eq_bind, Option.bind_eq_some] at h
  rcases h with ⟨ret1, h1, buf1, h2, rc, _, buf2, h4, h5⟩
  have hl1 := fill32_length _ _ h1
  rw [PBOX_HC_eq hc hwf ret1 (by rw [hl1])] at h2
  have e2 := Option.some.inj h2
  subst e2
  rw [ADD_CONSTANT_HC_eq hc hwf _ rc (permPure_isBlock _ _).1] at h4
  have e4 := Option.some.inj h4
  subst e4
  have hb := addConstPure_isBlock hc rc _ (permPure_isBlock hc.P ret1)
  refine ⟨fill32_length _ _ h5, ?_⟩
  intro v hv
  rcases List.getElem_of_mem hv with ⟨i, hi, rfl⟩
  have hi32 : i < 32 := by rw [fill32_length _ _ h5] at hi; exact hi
  have hg := fill32_get _ _ h5 i hi32
  rw [List.getElem?_eq_getElem hi] at hg
  simp only [Option.bind_eq_bind, Option.bind_eq_some, Option.pure_def, Option.some.injEq] at hg
  rcases hg with ⟨b, hb1, k, _, hk⟩
  rw [← hk]
  exact masked_xor_lt b k (hb.2 b (List.getElem?_mem hb1))

theorem encRound_split (hc : Hardcode) (ctx : BAKSHEESH_CTX) (s : List Nat) (r : Nat) :
    encRound hc ctx s r = (encRoundHead hc s r).bind (encAddRoundKey ctx r) := by
  simp only [encRound, encRoundHead, encAddRoundKey, Option.bind_eq_bind, Option.pure_def]
  cases fill32 (fun i => s[i]?.bind fun x => SBox[x]?) with
  | none => rfl
  | some ret1 =>
    simp only [Option.some_bind]
    cases PBOX_HC hc (List.replicate 32 0) ret1 with
    | none => rfl
    | some buf1 =>
      simp only [Option.some_bind]
      cases RC[r]? with
      | none => rfl
      | some rc => rfl

theorem decRound_split (hc : Hardcode) (ctx : BAKSHEESH_CTX) (s : List Nat) (r : Nat) :
    decRound hc ctx s r = (decAddRoundKey ctx r s).bind (fun y => decRoundTail hc y r) :=
  rfl

theorem encRoundHead_isBlock (hc : Hardcode) (hwf : hc.WF) (s b : List Nat) (r : Nat)
    (h : encRoundHead hc s r = some b) : IsBlock b := by
  unfold encRoundHead at h
  simp only [Option.bind_eq_bind, Option.bind_eq_some] at h
  rcases h with ⟨ret1, h1, buf1, h2, rc, _, h4⟩
  have hl1 := fill32_length _ _ h1
  rw [PBOX_HC_eq hc hwf ret1 (by rw [hl1])] at h2
  have e2 := Option.some.inj h2
  subst e2
  rw [ADD_CONSTANT_HC_eq hc hwf _ rc (permPure_isBlock _ _).1] at h4
  have e4 := Option.some.inj h4
  subst e4
  exact addConstPure_isBlock hc rc _ (permPure_isBlock hc.P ret1)

theorem decRounds_prefix (hc : Hardcode) (hwf : hc.WF) (ctx : BAKSHEESH_CTX)
    (hsk : ctx.shifted_keys.length = 32 * ROUND) (x : List Nat) (hx : IsBlock x) (k : Nat) :
    ∃ s, ((List.range ROUND).reverse.take k).foldlM (decRound hc ctx) x = some s ∧ IsBlock s := by
  have h := foldlM_pure IsBlock (decRound hc ctx) (decRoundPure hc ctx)
    ((List.range ROUND).reverse.take k) x
    (fun r hr y hy => ⟨decRound_eq hc hwf ctx hsk y hy r
        (List.mem_range.mp (List.mem_reverse.mp (List.mem_of_mem_take hr))),
      decRoundPure_isBlock hc ctx y r⟩) hx
  exact ⟨_, h.1, h.2⟩

/-- C17. Round-key addition preserves the nibble invariant whatever the round
key holds, for a table `shifted_keys` of `32 * 35` arbitrary bytes and a round
`r < 35`.  In `__baksheesh_encrypt`, a round is the steps before AddRoundKey
followed by the AddRoundKey loop; that loop, on 32 nibbles, completes and
leaves 32 bytes in 0..15, byte `i` being the state byte XOR `shifted_keys[32 r
+ i] & 0xF`; the buffer that reaches the loop holds nibbles, and every round
that completes ends with 32 bytes in 0..15.  In `__baksheesh_decrypt`, a round
is the AddRoundKey loop followed by the other steps; on 32 nibbles the loop
completes and leaves 32 bytes in 0..15 given by the same formula, on which the
round continues; and the state that enters each round of the decryption of a
nibble block is a block of nibbles. -/
theorem C17_round_key_nibble (hc : Hardcode) (hwf : hc.WF) (ctx : BAKSHEESH_CTX)
    (x : List Nat) (r : Nat) (hsk : ctx.shifted_keys.length = 32 * ROUND) (hr : r < ROUND)
    (hx : IsBlock x) :
    (∀ s, encRound hc ctx s r = (encRoundHead hc s r).bind (encAddRoundKey ctx r))
      ∧ (∃ y, encAddRoundKey ctx r x = some y ∧ IsBlock y
          ∧ ∀ i, i < 32 →
              y.getD i 0 = x.getD i 0 ^^^ (ctx.shifted_keys.getD (32 * r + i) 0 &&& 0xF))
      ∧ (∀ s b, encRoundHead hc s r = some b → IsBlock b)
      ∧ (∀ s y, encRound hc ctx s r = some y → IsBlock y)
      ∧ (∀ s, decRound hc ctx s r = (decAddRoundKey ctx r s).bind (fun y => decRoundTail hc y r))
      ∧ (∃ y, decAddRoundKey ctx r x = some y ∧ IsBlock y
          ∧ (∀ i, i < 32 →
              y.getD i 0 = x.getD i 0 ^^^ (ctx.shifted_keys.getD (32 * r + i) 0 &&& 0xF))
          ∧ decRound hc ctx x r = decRoundTail hc y r)
      ∧ (∀ k, ∃ s, ((List.range ROUND).reverse.take k).foldlM (decRound hc ctx) x = some s
          ∧ IsBlock s) := by
  have hshift : r <<< 5 = 32 * r := by rw [Nat.shiftLeft_eq]; omega
  have hform : ∀ i, i < 32 →
      (arkPure ctx r x).getD i 0
        = x.getD i 0 ^^^ (ctx.shifted_keys.getD (32 * r + i) 0 &&& 0xF) := by
    intro i hi
    unfold arkPure
    rw [tab_getD _ i hi, hshift]
  have henc : encAddRoundKey ctx r x = some (arkPure ctx r x) := ark_eq ctx hsk r hr x hx.1
  have hdec : decAddRoundKey ctx r x = some (arkPure ctx r x) := ark_eq ctx hsk r hr x hx.1
  refine ⟨fun s => encRound_split hc ctx s r, ⟨_, henc, arkPure_isBlock ctx r x hx, hform⟩,
    fun s b h => encRoundHead_isBlock hc hwf s b r h,
    fun s y h => encRound_isBlock hc hwf ctx s y r h,
    fun s => decRound_split hc ctx s r, ⟨_, hdec, arkPure_isBlock ctx r x hx, hform, ?_⟩,
    decRounds_prefix hc hwf ctx hsk x hx⟩
  rw [decRound_split, hdec]
  rfl

/-- C17, instance: the state of nibbles 15 and a round-key table of bytes 255, round 34. -/
theorem C17_round_key_nibble_witness :
    (∃ y, encAddRoundKey (BAKSHEESH_CTX.mk (List.replicate 32 0)
            (List.replicate (32 * ROUND) 255)) 34 (List.replicate 32 15) = some y
        ∧ IsBlock y
        ∧ ∀ i, i < 32 →
            y.getD i 0 = (List.replicate 32 15).getD i 0
              ^^^ ((BAKSHEESH_CTX.mk (List.replicate 32 0)
                (List.replicate (32 * ROUND) 255)).shifted_keys.getD (32 * 34 + i) 0 &&& 0xF))
      ∧ (∃ y, decAddRoundKey (BAKSHEESH_CTX.mk (List.replicate 32 0)
            (List.replicate (32 * ROUND) 255)) 34 (List.replicate 32 15) = some y
        ∧ IsBlock y
        ∧ (∀ i, i < 32 →
            y.getD i 0 = (List.replicate 32 15).getD i 0
              ^^^ ((BAKSHEESH_CTX.mk (List.replicate 32 0)
                (List.replicate (32 * ROUND) 255)).shifted_keys.getD (32 * 34 + i) 0 &&& 0xF))
        ∧ decRound sampleHardcode (BAKSHEESH_CTX.mk (List.replicate 32 0)
            (List.replicate (32 * ROUND) 255)) (List.replicate 32 15) 34
          = decRoundTail sampleHardcode y 34) :=
  ⟨(C17_round_key_nibble sampleHardcode sampleHardcode_WF
      (BAKSHEESH_CTX.mk (List.replicate 32 0) (List.replicate (32 * ROUND) 255))
      (List.replicate 32 15) 34 (List.length_replicate _ _) (by decide)
      ⟨by decide, by decide⟩).2.1,
    (C17_round_key_nibble sampleHardcode sampleHardcode_WF
      (BAKSHEESH_CTX.mk (List.replicate 32 0) (List.replicate (32 * ROUND) 255))
      (List.replicate 32 15) 34 (List.length_replicate _ _) (by decide)
      ⟨by decide, by decide⟩).2.2.2.2.2.1⟩

/-! ### Encryption after decryption -/

theorem perm_roundtrip_rev (hc : Hardcode) (hwf : hc.WF) (y : List Nat) (hy : IsBlock y) :
    permPure hc.P (permPure hc.invP y) = y :=
  permPure_inverse hc.invP hc.P (fun j hj => (invP_spec hc hwf j hj).1)
    (fun j hj => (invP_spec hc hwf j hj).2)
    (fun i hi => ⟨hwf.P_lt i hi, invP_P hc hwf i hi⟩) y hy

theorem encRound_decRound (hc : Hardcode) (hwf : hc.WF) (ctx : BAKSHEESH_CTX) (y : List Nat)
    (hy : IsBlock y) (r : Nat) :
    encRoundPure hc ctx (decRoundPure hc ctx y r) r = y := by
  unfold decRoundPure encRoundPure
  rw [subPure_S_Inv _ (permPure_isBlock _ _),
    perm_roundtrip_rev hc hwf _ (addConstPure_isBlock hc _ _ (arkPure_isBlock ctx r y hy)),
    addConstPure_invol hc _ _ (arkPure_isBlock ctx r y hy).1,
    arkPure_invol ctx r y hy.1]

theorem encPure_decPure (hc : Hardcode) (hwf : hc.WF) (ctx : BAKSHEESH_CTX)
    (_hk : IsBlock ctx.key) (y : List Nat) (hy : IsBlock y) :
    encPure hc ctx (decPure hc ctx y) = y := by
  unfold encPure decPure
  rw [tab_getD_self y hy.1,
    xorKeyPure_invol _ _ (decRounds_isBlock hc ctx _ y hy).1]
  have h := foldl_roundtrip IsBlock (decRoundPure hc ctx) (encRoundPure hc ctx)
    (List.range ROUND).reverse y
    (fun r _ x hx => ⟨encRound_decRound hc hwf ctx x hx r, decRoundPure_isBlock hc ctx x r⟩) hy
  rw [List.reverse_reverse] at h
  exact h

theorem driver_roundtrip_rev (hc : Hardcode) (hwf : hc.WF) (ctx : BAKSHEESH_CTX)
    (hctx : CtxOK ctx) (C out1 out2 : List Nat) (ol1 ol2 n : Nat) (hC : C.length = 32 * n)
    (hsz : C.length < 2 ^ 64) (hCn : ∀ v, v ∈ C → v < 16) (ho1 : C.length ≤ out1.length)
    (ho2 : C.length ≤ out2.length) :
    ∃ D, D.length = C.length
      ∧ BAKSHEESH_CTX_decrypt hc (some ctx) (some C) C.length (some out1) ol1
          = some { status := 0, output := some (D ++ out1.drop C.length),
                   output_len := C.length }
      ∧ BAKSHEESH_CTX_encrypt hc (some ctx) (some (D ++ out1.drop C.length)) C.length
            (some out2) ol2
          = some { status := 0, output := some (C ++ out2.drop C.length),
                   output_len := C.length } := by
  have hdiv : C.length / 32 = n := by omega
  have hCk : ∀ k, k < n → ∀ v, v ∈ C.take (32 * (k + 1)) → v < 16 :=
    fun k _ v hv => hCn v (List.mem_of_mem_take hv)
  rcases ecbCat_total (__baksheesh_decrypt hc ctx) C n 0 (fun k hk =>
    ⟨_, (decrypt_block_ok hc hwf ctx hctx C k (by omega) (hCk k hk)).1⟩) with ⟨D, hD⟩
  have hspec := ecbCat_spec _ C (decrypt_length hc ctx) n 0 D hD
  have hDC : D.length = C.length := by rw [hspec.1, hC]
  refine ⟨D, hDC, ?_, ?_⟩
  · rw [decrypt_driver_eq hc ctx C C.length hsz, hdiv, hD]
    simp only [Option.some_bind]
    rw [← hC, if_pos ho1]
  · rw [encrypt_driver_eq hc ctx _ C.length hsz, hdiv]
    have hE : ecbCat (__baksheesh_encrypt hc ctx) (D ++ out1.drop C.length) n 0 = some C := by
      apply ecbCat_build _ _ n 0 C hC
      intro k hk
      have hdk : 32 * (k + 1) ≤ D.length := by omega
      have hdec := hspec.2 k hk
      rw [(decrypt_block_ok hc hwf ctx hctx C k (by omega) (hCk k hk)).1] at hdec
      have hblk : blk D k = decPure hc ctx (blk C k) := (Option.some.inj hdec).symm
      have hbC : IsBlock (blk C k) := blk_isBlock C k (by omega) (hCk k hk)
      have hbD : IsBlock (blk D k) := by
        rw [hblk]
        exact decPure_isBlock hc ctx hctx.1 _ (NibblePrefix.of_isBlock hbC)
      rw [encrypt_blk, blk_append D _ k hdk,
        encrypt_eq hc hwf ctx hctx _ (NibblePrefix.of_isBlock hbD), hblk,
        encPure_decPure hc hwf ctx hctx.1 _ hbC]
    rw [hE]
    simp only [Option.some_bind]
    rw [← hC, if_pos ho2]

/-- C18. Decryption is a right inverse of encryption: for a key `K` of 32
nibbles and a ciphertext `C` of nibbles whose length is a multiple of 32, with
the context of `BAKSHEESH_CTX_new(K)`, `BAKSHEESH_CTX_decrypt` on `C` and then
`BAKSHEESH_CTX_encrypt` on its output both return status 0 and yield `C`; and
single-block encryption with that context maps 32-nibble blocks to 32-nibble
blocks, one-to-one and onto. -/
theorem C18_right_inverse (hc : Hardcode) (hwf : hc.WF) (K C out1 out2 : List Nat)
    (ol1 ol2 : Nat) (hK : K.length = 32) (hKn : ∀ v, v ∈ K → v < 16) (hC : C.length % 32 = 0)
    (hsz : C.length < 2 ^ 64) (hCn : ∀ v, v ∈ C → v < 16) (ho1 : C.length ≤ out1.length)
    (ho2 : C.length ≤ out2.length) :
    ∃ ctx, BAKSHEESH_CTX_new hc true K = some ctx
      ∧ (∃ D, D.length = C.length
          ∧ BAKSHEESH_CTX_decrypt hc (some ctx) (some C) C.length (some out1) ol1
              = some { status := 0, output := some (D ++ out1.drop C.length),
                       output_len := C.length }
          ∧ BAKSHEESH_CTX_encrypt hc (some ctx) (some (D ++ out1.drop C.length)) C.length
                (some out2) ol2
              = some { status := 0, output := some (C ++ out2.drop C.length),
                       output_len := C.length })
      ∧ (∀ x, IsBlock x → ∃ y, __baksheesh_encrypt hc ctx x = some y ∧ IsBlock y)
      ∧ (∀ x1 x2, IsBlock x1 → IsBlock x2 →
          __baksheesh_encrypt hc ctx x1 = __baksheesh_encrypt hc ctx x2 → x1 = x2)
      ∧ (∀ y, IsBlock y → ∃ x, IsBlock x ∧ __baksheesh_encrypt hc ctx x = some y) := by
  rcases new_ctxOK hc hwf K ⟨hK, hKn⟩ with ⟨ctx, hnew, _, hctx⟩
  refine ⟨ctx, hnew, ?_, ?_, ?_, ?_⟩
  · exact driver_roundtrip_rev hc hwf ctx hctx C out1 out2 ol1 ol2 (C.length / 32) (by omega)
      hsz hCn ho1 ho2
  · intro x hx
    exact ⟨_, encrypt_eq hc hwf ctx hctx x (NibblePrefix.of_isBlock hx),
      encPure_isBlock hc ctx hctx.1 x (NibblePrefix.of_isBlock hx)⟩
  · intro x1 x2 h1 h2 h
    rw [encrypt_eq hc hwf ctx hctx x1 (NibblePrefix.of_isBlock h1),
      encrypt_eq hc hwf ctx hctx x2 (NibblePrefix.of_isBlock h2)] at h
    have h' := Option.some.inj h
    rw [← decPure_encPure hc hwf ctx hctx.1 x1 h1, h', decPure_encPure hc hwf ctx hctx.1 x2 h2]
  · intro y hy
    have hd := decPure_isBlock hc ctx hctx.1 y (NibblePrefix.of_isBlock hy)
    refine ⟨decPure hc ctx y, hd, ?_⟩
    rw [encrypt_eq hc hwf ctx hctx _ (NibblePrefix.of_isBlock hd),
      encPure_decPure hc hwf ctx hctx.1 y hy]

/-- C18, instance: the key of nibbles 5 and a ciphertext of two blocks of nibbles 9. -/
theorem C18_right_inverse_witness :
    ∃ ctx, BAKSHEESH_CTX_new sampleHardcode true (List.replicate 32 5) = some ctx
      ∧ (∃ D, D.length = (List.replicate 64 9).length
          ∧ BAKSHEESH_CTX_decrypt sampleHardcode (some ctx) (some (List.replicate 64 9))
              (List.replicate 64 9).length (some (List.replicate 64 0)) 0
              = some { status := 0,
                       output := some (D ++ (List.replicate 64 0).drop
                         (List.replicate 64 9).length),
                       output_len := (List.replicate 64 9).length }
          ∧ BAKSHEESH_CTX_encrypt sampleHardcode (some ctx)
              (some (D ++ (List.replicate 64 0).drop (List.replicate 64 9).length))
              (List.replicate 64 9).length (some (List.replicate 64 0)) 0
              = some { status := 0,
                       output := some (List.replicate 64 9
                         ++ (List.replicate 64 0).drop (List.replicate 64 9).length),
                       output_len := (List.replicate 64 9).length })
      ∧ (∀ x, IsBlock x → ∃ y, __baksheesh_encrypt sampleHardcode ctx x = some y ∧ IsBlock y)
      ∧ (∀ x1 x2, IsBlock x1 → IsBlock x2 →
          __baksheesh_encrypt sampleHardcode ctx x1 = __baksheesh_encrypt sampleHardcode ctx x2 →
          x1 = x2)
      ∧ (∀ y, IsBlock y → ∃ x, IsBlock x ∧ __baksheesh_encrypt sampleHardcode ctx x = some y) :=
  C18_right_inverse sampleHardcode sampleHardcode_WF (List.replicate 32 5) (List.replicate 64 9)
    (List.replicate 64 0) (List.replicate 64 0) 0 0 (by decide) (by decide) (by decide)
    (by decide) (by decide) (by decide) (by decide)

/-! ### Atomicity on error -/

theorem driver_null (hc : Hardcode) (ctx : Option BAKSHEESH_CTX) (input : Option (List Nat))
    (L : Nat) (output : Option (List Nat)) (ol : Nat)
    (h : ctx = none ∨ input = none ∨ output = none) :
    BAKSHEESH_CTX_encrypt hc ctx input L output ol
        = some { status := -1, output := output, output_len := ol }
      ∧ BAKSHEESH_CTX_decrypt hc ctx input L output ol
        = some { status := -1, output := output, output_len := ol } := by
  cases ctx with
  | none => exact ⟨rfl, rfl⟩
  | some c =>
    cases input with
    | none => exact ⟨rfl, rfl⟩
    | some inp =>
      cases output with
      | none => exact ⟨rfl, rfl⟩
      | some out => simp at h

/-- C19. Atomicity on error: a call of `BAKSHEESH_CTX_encrypt` or
`BAKSHEESH_CTX_decrypt` that returns -1 had `ctx`, `input` or `output` equal
to `NULL` and has written nothing: the output buffer (when present) and
`*output_len` are as before the call. -/
theorem C19_atomic_error (hc : Hardcode) (ctx : Option BAKSHEESH_CTX)
    (input : Option (List Nat)) (L : Nat) (output : Option (List Nat)) (ol : Nat)
    (res : Result)
    (h : BAKSHEESH_CTX_encrypt hc ctx input L output ol = some res
      ∨ BAKSHEESH_CTX_decrypt hc ctx input L output ol = some res)
    (hs : res.status = -1) :
    (ctx = none ∨ input = none ∨ output = none)
      ∧ res.output = output ∧ res.output_len = ol := by
  cases hctx : ctx with
  | some c =>
    cases hin : input with
    | some inp =>
      cases hout : output with
      | some out =>
        subst hctx hin hout
        rcases h with h | h
        · have := (encrypt_driver_some hc c inp L out ol res h).1
          rw [this] at hs
          exact absurd hs (by decide)
        · have := (decrypt_driver_some hc c inp L out ol res h).1
          rw [this] at hs
          exact absurd hs (by decide)
      | none =>
        subst hctx hin hout
        have hn := driver_null hc (some c) (some inp) L none ol (Or.inr (Or.inr rfl))
        rw [hn.1, hn.2] at h
        have hr : res = { status := -1, output := none, output_len := ol } := by
          rcases h with h | h <;> exact (Option.some.inj h).symm
        rw [hr]
        exact ⟨Or.inr (Or.inr rfl), rfl, rfl⟩
    | none =>
      subst hctx hin
      have hn := driver_null hc (some c) none L output ol (Or.inr (Or.inl rfl))
      rw [hn.1, hn.2] at h
      have hr : res = { status := -1, output := output, output_len := ol } := by
        rcases h with h | h <;> exact (Option.some.inj h).symm
      rw [hr]
      exact ⟨Or.inr (Or.inl rfl), rfl, rfl⟩
  | none =>
    subst hctx
    have hn := driver_null hc none input L output ol (Or.inl rfl)
    rw [hn.1, hn.2] at h
    have hr : res = { status := -1, output := output, output_len := ol } := by
      rcases h with h | h <;> exact (Option.some.inj h).symm
    rw [hr]
    exact ⟨Or.inl rfl, rfl, rfl⟩

/-- C19, instance: a call with a `NULL` context on an output buffer of three bytes. -/
theorem C19_atomic_error_witness :
    BAKSHEESH_CTX_encrypt sampleHardcode none (some (List.replicate 32 0)) 32
        (some [1, 2, 3]) 9 = some (Result.mk (-1) (some [1, 2, 3]) 9)
      ∧ ((none : Option BAKSHEESH_CTX) = none
          ∨ some (List.replicate 32 0) = (none : Option (List Nat))
          ∨ some [1, 2, 3] = (none : Option (List Nat)))
      ∧ (Result.mk (-1) (some [1, 2, 3]) 9).output = some [1, 2, 3]
      ∧ (Result.mk (-1) (some [1, 2, 3]) 9).output_len = 9 :=
  ⟨rfl, C19_atomic_error sampleHardcode none (some (List.replicate 32 0)) 32 (some [1, 2, 3]) 9
    (Result.mk (-1) (some [1, 2, 3]) 9) (Or.inl rfl) rfl⟩

end Baksheesh
